import Mathlib

/-!
# carl: univariate polynomials over the rationals

A shallow embedding of `src/carl/core/UnivariatePolynomial.tpp` (instantiated at the
coefficient type `mpq_class`, modelled by `ℚ`) and of the number operations of
`src/carl/numbers/adaption_gmpxx/operations.h` it uses.

A `UnivariatePolynomial<Coeff>` is a pair of a main variable and the vector `mCoefficients`.
Every binary operation of the file asserts that its operands share the main variable and
returns a polynomial in that variable, so a polynomial is represented by its coefficient
vector, lowest exponent first.  A run of the C++ code that reads past a vector, throws or
fails an `assert` is a `Fault`; loops and recursions carry an explicit `fuel`.
-/

namespace carl

/-- The ways a run of the code ends without a value. -/
inductive Fault where
  /-- `back()`, `front()`, `operator[]` or `*it` outside the vector; signed overflow. -/
  | undefinedBehaviour
  /-- `std::vector::resize` or `reserve` beyond `max_size()`. -/
  | lengthError
  /-- GMP division by zero. -/
  | divisionByZero
  /-- An `assert` of the source does not hold. -/
  | assertion
  /-- The model ran out of fuel (the loop may not terminate). -/
  | outOfFuel
deriving DecidableEq, Repr

deriving instance DecidableEq for Except

/-- An `assert(b)` of the source. -/
def assertThat (b : Bool) : Except Fault Unit :=
  if b then pure () else throw Fault.assertion

/-! ## Number operations (`adaption_gmpxx/operations.h`) -/

/-- The function `carl::quotient(const mpz_class&, const mpz_class&)`, which is also
`operator/` on `mpz_class` inside namespace `carl`. -/
def quotient (n d : ℤ) : Except Fault ℤ :=
  if d = 0 then throw Fault.divisionByZero
  else
    let res : ℤ := ((n.natAbs / d.natAbs : ℕ) : ℤ)
    pure (if decide (n < 0) = decide (d < 0) then res else -res)

/-- The function `carl::mod(const mpz_class&, const mpz_class&)`: `mpz_mod` of `|n|` by `m`
(non-negative result), negated when `n` is negative. -/
def mod (n m : ℤ) : Except Fault ℤ :=
  if m = 0 then throw Fault.divisionByZero
  else
    let res : ℤ := ((n.natAbs % m.natAbs : ℕ) : ℤ)
    pure (if n < 0 then -res else res)

/-- The function `carl::quotient(const mpq_class&, const mpq_class&)`, also `operator/` on
`mpq_class`. -/
def quotientQ (n d : ℚ) : Except Fault ℚ :=
  if d = 0 then throw Fault.divisionByZero else pure (n / d)

/-- The function `getNum(const mpq_class&)`. -/
def getNum (n : ℚ) : ℤ := n.num

/-- The function `getDenom(const mpq_class&)`. -/
def getDenom (n : ℚ) : ℤ := (n.den : ℤ)

/-- The function `getNum(const mpz_class&)`. -/
def getNumZ (n : ℤ) : ℤ := n

/-- The function `getDenom(const mpz_class&)`. -/
def getDenomZ (n : ℤ) : ℤ := n

/-- The function `isInteger(const mpq_class&)`. -/
def isInteger (n : ℚ) : Bool := decide ((n.den : ℤ) ∣ n.num)

/-- The function `carl::gcd(const mpz_class&, const mpz_class&)` (`mpz_gcd`, never negative). -/
def gcdZ (a b : ℤ) : ℤ := (Int.gcd a b : ℤ)

/-- The function `carl::lcm(const mpz_class&, const mpz_class&)` (`mpz_lcm`, never negative). -/
def lcmZ (a b : ℤ) : ℤ := (Int.lcm a b : ℤ)

/-! ## `std::map` -/

/-- The call `std::map::insert(pair)` on a map kept as its key-ordered list of entries, for the
comparison `lt`: the new map, the position of the entry with that key, and whether the pair
was inserted (an entry with an equivalent key is left as it is). -/
def mapInsert {κ ν : Type} (lt : κ → κ → Bool) (k : κ) (v : ν) :
    List (κ × ν) → List (κ × ν) × ℕ × Bool
  | [] => ([(k, v)], 0, true)
  | (k', v') :: rest =>
    if lt k k' then ((k, v) :: (k', v') :: rest, 0, true)
    else if lt k' k then
      let r := mapInsert lt k v rest
      ((k', v') :: r.1, r.2.1 + 1, r.2.2)
    else ((k', v') :: rest, 0, false)

/-- The idiom `auto retVal = m.insert(pair(k, n)); if(!retVal.second) retVal.first->second += n;`
of the source. -/
def insertOrAdd {κ : Type} (lt : κ → κ → Bool) (k : κ) (n : ℕ) (m : List (κ × ℕ)) :
    List (κ × ℕ) :=
  let r := mapInsert lt k n m
  if r.2.2 then r.1 else r.1.modify (fun e => (e.1, e.2 + n)) r.2.1

/-- The call `m.find(k)` on a map kept as the list of its entries: the value of the entry
with the key `k`, `none` for `m.end()`. -/
def mapFind {κ ν : Type} [DecidableEq κ] (k : κ) : List (κ × ν) → Option ν
  | [] => none
  | (k', v') :: rest => if k' = k then some v' else mapFind k rest

/-- The assignment `m[k] = v` on a map kept as the list of its entries: the value of the
entry with the key `k` is replaced, and an entry is added when there is none. -/
def mapSet {κ ν : Type} [DecidableEq κ] (k : κ) (v : ν) : List (κ × ν) → List (κ × ν)
  | [] => [(k, v)]
  | (k', v') :: rest => if k' = k then (k', v) :: rest else (k', v') :: mapSet k v rest

namespace UnivariatePolynomial

/-! ## Accessors declared in `UnivariatePolynomial.h` -/

/-- Modelled from the spec: `isZero()` is declared in `UnivariatePolynomial.h`, which is not
part of the sources; the zero polynomial is the one whose coefficient sequence is empty. -/
def isZero (p : List ℚ) : Bool := p.isEmpty

/-- Modelled from the spec: `isConstant()` is declared in the missing header; a constant has
at most one coefficient (`factorization` asserts `mCoefficients.size() > 1` right after
`isConstant()` failed). -/
def isConstant (p : List ℚ) : Bool := decide (p.length ≤ 1)

/-- Modelled from the spec: `degree()` is declared in the missing header; the coefficients are
indexed by exponent, so a nonzero polynomial has degree `size() - 1`; the source compares and
subtracts degrees as `unsigned` values.  What `degree()` returns for the zero polynomial is
not specified: it is the parameter `dz`. -/
def degree (dz : ℕ) (p : List ℚ) : ℕ := if p.isEmpty then dz else p.length - 1

/-- Modelled from the spec: `lcoeff()` is declared in the missing header; it is the
highest-index coefficient, which the zero polynomial does not have. -/
def lcoeff (p : List ℚ) : Except Fault ℚ :=
  match p.getLast? with
  | some c => pure c
  | none => throw Fault.undefinedBehaviour

/-- Modelled from the spec: `stripLeadingZeroes()` is declared in the missing header; it
removes the zero coefficients at the end of the sequence (`reduce`: "strip zeros from the end
as we might have pushed zeros"). -/
def stripLeadingZeroes (p : List ℚ) : List ℚ := p.rdropWhile (fun c => c == 0)

/-- Modelled from the spec: `normalizeCoefficients()` is declared in the missing header; it
brings each coefficient to its normal representation without changing its value, and a
rational is always stored in canonical form. -/
def normalizeCoefficients (p : List ℚ) : List ℚ := p

/-- The constructor `UnivariatePolynomial(mainVar, c, e)`. -/
def ofCoeff (c : ℚ) (e : ℕ) : List ℚ :=
  if c ≠ 0 then (List.replicate (e + 1) (c - c)).set e c else []

/-- Modelled from the spec: `one()` is declared in the missing header; it is the constant
polynomial 1. -/
def one : List ℚ := ofCoeff 1 0

/-! ## Arithmetic -/

/-- The unary `operator-`. -/
def neg (p : List ℚ) : List ℚ := p.map (fun c => -c)

/-- The member `operator+=(const UnivariatePolynomial&)`. -/
def addAssign (p rhs : List ℚ) : List ℚ :=
  if isZero rhs then p
  else if p.length < rhs.length then
    stripLeadingZeroes (List.zipWith (fun a b => a + b) p rhs ++ rhs.drop p.length)
  else
    stripLeadingZeroes (List.zipWith (fun a b => a + b) p rhs ++ p.drop rhs.length)

/-- The free `operator+` on two polynomials. -/
def add (lhs rhs : List ℚ) : List ℚ := addAssign lhs rhs

/-- The member `operator-=(const UnivariatePolynomial&)`. -/
def subAssign (p rhs : List ℚ) : List ℚ := addAssign p (neg rhs)

/-- The free `operator-` on two polynomials. -/
def sub (lhs rhs : List ℚ) : List ℚ := subAssign lhs rhs

/-- The member `operator+=(const Coeff&)`. -/
def addAssignCoeff (p : List ℚ) (rhs : ℚ) : List ℚ :=
  if rhs = 0 then p
  else
    match p with
    | [] => [rhs]
    | front :: rest =>
      if rest.length + 1 = 1 ∧ front + rhs = 0 then [] else (front + rhs) :: rest

/-- The member `operator-=(const Coeff&)`: `return *this += -rhs;`. -/
def subAssignCoeff (p : List ℚ) (rhs : ℚ) : List ℚ := addAssignCoeff p (-rhs)

/-- The free `operator-(const UnivariatePolynomial<C>&, const C&)`. -/
def subCoeff (lhs : List ℚ) (rhs : ℚ) : List ℚ := subAssignCoeff lhs rhs

/-- The free `operator-(const C& lhs, const UnivariatePolynomial<C>& rhs)`:
`return rhs - lhs;`. -/
def coeffSub (lhs : ℚ) (rhs : List ℚ) : List ℚ := subCoeff rhs lhs

/-- The member `operator*=(const Coeff&)`; the rationals are not a finite domain. -/
def mulAssignCoeff (p : List ℚ) (rhs : ℚ) : List ℚ :=
  if rhs = 0 then [] else p.map (fun c => c * rhs)

/-- The member `operator*=(const UnivariatePolynomial&)`; past the test `rhs.isZero()` the
bound `rhs.degree()` of the outer loop is `rhs.size() - 1`. -/
def mulAssign (p rhs : List ℚ) : List ℚ :=
  if isZero rhs then []
  else
    stripLeadingZeroes ((List.range (p.length + (rhs.length - 1))).map (fun e =>
      (List.range (min p.length (e + 1))).foldl
        (fun acc i => if e - i < rhs.length then acc + p.getD i 0 * rhs.getD (e - i) 0 else acc)
        0))

/-- The free `operator*` on two polynomials. -/
def mul (lhs rhs : List ℚ) : List ℚ := mulAssign lhs rhs

/-- The member `operator/=(const Coeff&)`. -/
def divAssign (p : List ℚ) (rhs : ℚ) : Except Fault (List ℚ) := do
  assertThat (rhs != 0)
  pure (p.map (fun c => c / rhs))

/-- The free `operator/` of a polynomial by a coefficient. -/
def div (lhs : List ℚ) (rhs : ℚ) : Except Fault (List ℚ) := do
  assertThat (rhs != 0)
  divAssign lhs rhs

/-- The function `evaluate`. -/
def evaluate (p : List ℚ) (value : ℚ) : ℚ :=
  (p.foldl (fun (s : ℚ × ℚ) coeff => (s.1 + coeff * s.2, s.2 * value)) (0, 1)).1

/-- The loop of `derivative` for `nth != 1`; `i` and `c` are `unsigned`. -/
def derivativeLoop (nth : ℕ) : List ℚ → ℕ → ℕ → List ℚ
  | [], _, _ => []
  | a :: rest, i, c =>
    ((c : ℚ) * a) :: derivativeLoop nth rest (i + 1) ((c / (i + 1 - nth)) * (i + 1) % 2 ^ 32)

/-- The loop of `derivative` for `nth == 1`. -/
def derivativeOne : List ℚ → ℕ → List ℚ
  | [], _ => []
  | a :: rest, i => (((i + 1 : ℕ) : ℚ) * a) :: derivativeOne rest (i + 1)

/-- The function `derivative(nth)`; `reserve(size() - nth)` throws when `nth` exceeds the size. -/
def derivative (nth : ℕ) (p : List ℚ) : Except Fault (List ℚ) :=
  if p.length < nth then throw Fault.lengthError
  else if nth = 1 then pure (derivativeOne (p.drop nth) 0)
  else pure (derivativeLoop nth (p.drop nth) nth (nth.factorial % 2 ^ 32))

/-- The function `normalized()` for a field of coefficients. -/
def normalized (p : List ℚ) : Except Fault (List ℚ) :=
  if isZero p then pure p
  else do
    let tmp ← lcoeff p
    div p tmp

/-- The function `reduce`; past its first assertion `degree() - divisor.degree()` does not
wrap around. -/
def reduce (dz : ℕ) : ℕ → List ℚ → List ℚ → Except Fault (List ℚ)
  | 0, _, _ => throw Fault.outOfFuel
  | fuel + 1, p, divisor => do
    assertThat (decide (degree dz p ≥ degree dz divisor))
    assertThat (!isZero divisor)
    let degdiff := degree dz p - degree dz divisor
    let factor ← quotientQ (← lcoeff p) (← lcoeff divisor)
    let result := stripLeadingZeroes
      ((if degdiff > 0 then p.take degdiff else []) ++
        (List.range (p.length - degdiff - 1)).map
          (fun i => p.getD (i + degdiff) 0 - factor * divisor.getD i 0))
    if degree dz result < degree dz divisor then pure result
    else reduce dz fuel result divisor

/-- The function `gcd_recursive`. -/
def gcd_recursive (dz : ℕ) : ℕ → List ℚ → List ℚ → Except Fault (List ℚ)
  | 0, _, _ => throw Fault.outOfFuel
  | fuel + 1, a, b =>
    if isZero b then pure a
    else do
      let r ← reduce dz (fuel + 1) a b
      gcd_recursive dz fuel b r

/-- The function `gcd`. -/
def gcd (dz fuel : ℕ) (a b : List ℚ) : Except Fault (List ℚ) :=
  if degree dz a < degree dz b then gcd_recursive dz fuel b a
  else gcd_recursive dz fuel a b

/-- The type `DivisionResult<UnivariatePolynomial<Coeff>>`. -/
structure DivisionResult where
  /-- The field `quotient`. -/
  quotient : List ℚ
  /-- The field `remainder`. -/
  remainder : List ℚ
deriving DecidableEq, Repr

/-- The `do ... while` loop of `divide`; the guard before the loop and the loop condition
keep `result.remainder.degree() - divisor.degree()` from wrapping around. -/
def divideLoop (dz : ℕ) (divisor : List ℚ) : ℕ → DivisionResult → Except Fault DivisionResult
  | 0, _ => throw Fault.outOfFuel
  | fuel + 1, result => do
    let factor ← quotientQ (← lcoeff result.remainder) (← lcoeff divisor)
    let degdiff := degree dz result.remainder - degree dz divisor
    let remainder := subAssign result.remainder (mul (ofCoeff factor degdiff) divisor)
    if degdiff < result.quotient.length then
      let quot := result.quotient.set degdiff (result.quotient.getD degdiff 0 + factor)
      if decide (degree dz divisor ≤ degree dz remainder) && !isZero remainder then
        divideLoop dz divisor fuel ⟨quot, remainder⟩
      else pure ⟨quot, remainder⟩
    else throw Fault.undefinedBehaviour

/-- The function `divide`. -/
def divide (dz fuel : ℕ) (p divisor : List ℚ) : Except Fault DivisionResult := do
  assertThat (!isZero divisor)
  assertThat (decide (p = add (mul divisor []) p))
  if degree dz divisor > degree dz p then pure ⟨[], p⟩
  else if 1 + p.length < divisor.length then throw Fault.lengthError
  else do
    let result ← divideLoop dz divisor fuel
      ⟨List.replicate (1 + p.length - divisor.length) 0, p⟩
    assertThat (decide (p = add (mul divisor result.quotient) result.remainder))
    pure result

/-- The function `divides`: `this` divides `dividant`. -/
def divides (dz fuel : ℕ) (p dividant : List ℚ) : Except Fault Bool := do
  let r ← divide dz fuel dividant p
  pure (isZero r.remainder)

/-- The local variables `c, d, c1, c2, d1, d2` of `extended_gcd`. -/
structure EgcdState where
  /-- The variable `c`. -/
  c : List ℚ
  /-- The variable `d`. -/
  d : List ℚ
  /-- The variable `c1`. -/
  c1 : List ℚ
  /-- The variable `c2`. -/
  c2 : List ℚ
  /-- The variable `d1`. -/
  d1 : List ℚ
  /-- The variable `d2`. -/
  d2 : List ℚ
deriving DecidableEq, Repr

/-- The `while(!d.isZero())` loop of `extended_gcd`; `divFuel` is the fuel of the calls of
`divide`. -/
def extendedGcdLoop (dz divFuel : ℕ) : ℕ → EgcdState → Except Fault EgcdState
  | 0, st => if isZero st.d then pure st else throw Fault.outOfFuel
  | fuel + 1, st =>
    if isZero st.d then pure st
    else do
      let divres ← divide dz divFuel st.c st.d
      assertThat (decide (divres.remainder = sub st.c (mul divres.quotient st.d)))
      let r1 := sub st.c1 (mul divres.quotient st.d1)
      let r2 := sub st.c2 (mul divres.quotient st.d2)
      extendedGcdLoop dz divFuel fuel
        ⟨normalizeCoefficients st.d, normalizeCoefficients divres.remainder,
          st.d1, st.d2, r1, r2⟩

/-- The result of `extended_gcd`: the returned polynomial and the values left in the
reference parameters `s` and `t`. -/
structure EgcdResult where
  /-- The returned polynomial. -/
  g : List ℚ
  /-- The final value of `s`. -/
  s : List ℚ
  /-- The final value of `t`. -/
  t : List ℚ
deriving DecidableEq, Repr

/-- The function `extended_gcd`. -/
def extended_gcd (dz fuel : ℕ) (a b : List ℚ) : Except Fault EgcdResult := do
  let c ← normalized (normalizeCoefficients a)
  let d ← normalized (normalizeCoefficients b)
  let st ← extendedGcdLoop dz fuel fuel ⟨c, d, one, [], [], one⟩
  let lcC ← lcoeff st.c
  let s ← div st.c1 ((← lcoeff a) * lcC)
  let t ← div st.c2 ((← lcoeff b) * lcC)
  let c ← normalized st.c
  let c := normalizeCoefficients c
  let s := normalizeCoefficients s
  let t := normalizeCoefficients t
  assertThat (decide (c = add (mul s a) (mul t b)))
  pure ⟨c, s, t⟩

/-- The third row of `syntheticDivision`, lowest index first. -/
def thirdRow (zeroOfDivisor : ℚ) : List ℚ → List ℚ
  | [] => []
  | [a] => [a + 0]
  | a :: b :: rest =>
    let t := thirdRow zeroOfDivisor (b :: rest)
    (a + zeroOfDivisor * t.headD 0) :: t

/-- The function `syntheticDivision`: the returned value and the coefficients left in
`this`. -/
def syntheticDivision (p : List ℚ) (zeroOfDivisor : ℚ) : ℚ × List ℚ :=
  if p.isEmpty then (0, p)
  else if p.length = 1 then (p.getLastD 0, p)
  else
    let t := thirdRow zeroOfDivisor p
    if t.headD 0 = 0 then (0, t.tail) else (t.headD 0, p)

/-- The function `coprimeFactor`; `den/num` is `operator/` on `mpz_class`. -/
def coprimeFactor (p : List ℚ) : Except Fault ℚ :=
  match p with
  | [] => throw Fault.undefinedBehaviour
  | a :: rest => do
    let nd := rest.foldl
      (fun (nd : ℤ × ℤ) c => (gcdZ nd.1 (getNum c), lcmZ nd.2 (getDenom c)))
      (getNum a, getDenom a)
    let q ← quotient nd.2 nd.1
    pure (q : ℚ)

/-- The value `characteristic<Coeff>::value` of the rationals. -/
def characteristic : ℕ := 0

/-- The order of the keys of a `std::map<unsigned, ...>`. -/
def ltUnsigned (a b : ℕ) : Bool := decide (a < b)

/-- The `while(!z.isZero())` loop of `squareFreeFactorization` and the insertion that
follows it; `inner` is the fuel of the calls of `extended_gcd` and `divide`. -/
def squareFreeLoop (dz inner : ℕ) :
    ℕ → List ℚ → List ℚ → ℕ → List (ℕ × List ℚ) → Except Fault (List (ℕ × List ℚ))
  | 0, w, z, i, result =>
    if isZero z then pure (mapInsert ltUnsigned i w result).1 else throw Fault.outOfFuel
  | fuel + 1, w, z, i, result =>
    if isZero z then pure (mapInsert ltUnsigned i w result).1
    else do
      let e ← extended_gcd dz inner w z
      let numOfCpf := getNum (← coprimeFactor e.g)
      let g := if numOfCpf ≠ 1 then mulAssignCoeff e.g (numOfCpf : ℚ) else e.g
      assertThat (result.all (fun entry => entry.1 != i))
      let result := (mapInsert ltUnsigned i g result).1
      let w := (← divide dz inner w g).quotient
      let y := (← divide dz inner z g).quotient
      let z := sub y (← derivative 1 w)
      squareFreeLoop dz inner fuel w z (i + 1) result

/-- The function `squareFreeFactorization`; `derivative()` is `derivative(1)`. -/
def squareFreeFactorization (dz fuel : ℕ) (p : List ℚ) :
    Except Fault (List (ℕ × List ℚ)) :=
  if characteristic ≠ 0 ∧ degree dz p ≥ characteristic then
    pure (mapInsert ltUnsigned 1 p []).1
  else do
    let b ← derivative 1 p
    let e ← extended_gcd dz fuel p b
    let numOfCpf := getNum (← coprimeFactor e.g)
    let c := if numOfCpf ≠ 1 then mulAssignCoeff e.g (numOfCpf : ℚ) else e.g
    if isZero c then pure (mapInsert ltUnsigned 1 p []).1
    else do
      let w := (← divide dz fuel p c).quotient
      let y := (← divide dz fuel b c).quotient
      let z := sub y (← derivative 1 w)
      squareFreeLoop dz fuel fuel w z 1 []

/-- The comparison of the coefficients from the highest index down in `operator<`. -/
def ltFromTop : List ℚ → List ℚ → Bool
  | a :: as, b :: bs => if a = b then ltFromTop as bs else decide (a < b)
  | _, _ => false

/-- The `operator<` on two polynomials in the same main variable. -/
def lt (lhs rhs : List ℚ) : Bool :=
  if lhs.length = rhs.length then ltFromTop lhs.reverse rhs.reverse
  else decide (lhs.length < rhs.length)

/-! ## `excludeLinearFactors<int>` -/

/-- The constant `INT_MAX`. -/
def INT_MAX : ℤ := 2147483647

/-- The constant `INT_MIN`. -/
def INT_MIN : ℤ := -2147483648

/-- The function `toInt<int>(const mpz_class&)`. -/
def toInt (n : ℤ) : Except Fault ℤ := do
  assertThat (decide (n ≤ INT_MAX))
  assertThat (decide (n ≥ INT_MIN))
  pure n

/-- The value of an `int` expression: signed overflow is undefined. -/
def intValue (n : ℤ) : Except Fault ℤ :=
  if INT_MIN ≤ n ∧ n ≤ INT_MAX then pure n else throw Fault.undefinedBehaviour

/-- The application `carl::mod(n, m)` on `int`, the native remainder. -/
def modInt (n m : ℤ) : Except Fault ℤ :=
  if m = 0 then throw Fault.undefinedBehaviour else pure (Int.tmod n m)

/-- The element an iterator at position `i` of a vector refers to. -/
def deref (v : List ℤ) (i : ℕ) : Except Fault ℤ :=
  match v.get? i with
  | some x => pure x
  | none => throw Fault.undefinedBehaviour

/-- The `for` loop over `shiftedTcs`: the position of the iterator `shiftedTc` when the loop
is left, counted from `i`. -/
def shiftedTcLoop (maxInt lcFactor tcFactor : ℤ) : List (ℤ × ℤ) → ℕ → Except Fault ℕ
  | [], i => pure i
  | shiftedTc :: rest, i => do
    if Int.tdiv maxInt lcFactor ≥ shiftedTc.1 then
      let divisor ← intValue (lcFactor * shiftedTc.1)
      if divisor ≠ tcFactor then
        if !(decide (divisor < 0) && decide (tcFactor < 0)
              && decide (maxInt + divisor ≥ -tcFactor))
            && !(decide (divisor > 0) && decide (tcFactor > 0)
              && decide (maxInt - divisor ≥ tcFactor)) then
          let divisor ← intValue (if divisor > tcFactor then divisor - tcFactor
            else tcFactor - divisor)
          if (← modInt shiftedTc.2 divisor) ≠ 0 then pure i
          else shiftedTcLoop maxInt lcFactor tcFactor rest (i + 1)
        else shiftedTcLoop maxInt lcFactor tcFactor rest (i + 1)
      else shiftedTcLoop maxInt lcFactor tcFactor rest (i + 1)
    else shiftedTcLoop maxInt lcFactor tcFactor rest (i + 1)

/-- The loop `while(v.back() <= half) { ++v.back(); if(carl::mod(n, v.back()) == 0) break; }`:
the final value of `v.back()`. -/
def nextDivisor (n half : ℤ) : ℕ → ℤ → Except Fault ℤ
  | 0, back => if back ≤ half then throw Fault.outOfFuel else pure back
  | fuel + 1, back =>
    if back ≤ half then do
      let back ← intValue (back + 1)
      if (← modInt n back) = 0 then pure back else nextDivisor n half fuel back
    else pure back

/-- The loop `while(image == 0)` that removes a found zero: whether it was left through
`goto LinearFactorRemains`, and the values of `result` and `linearFactors`. -/
def removeZeroLoop (dz : ℕ) (posRatZero : ℚ) (linearFactor : List ℚ) :
    ℕ → List ℚ → List (List ℚ × ℕ) → Except Fault (Bool × List ℚ × List (List ℚ × ℕ))
  | 0, _, _ => throw Fault.outOfFuel
  | fuel + 1, result, linearFactors =>
    let linearFactors := insertOrAdd lt linearFactor 1 linearFactors
    if degree dz result ≤ 1 then pure (true, result, linearFactors)
    else
      let sd := syntheticDivision result posRatZero
      if sd.1 = 0 then removeZeroLoop dz posRatZero linearFactor fuel sd.2 linearFactors
      else pure (false, sd.2, linearFactors)

/-- The code that takes the constant `factor` out of `result` into `linearFactors`:
`if(linearFactors.begin()->first.isConstant()) { ...; erase(begin()); } insert(begin(), ...)`;
`invert` tells whether `factor = 1/factor` is executed inside the `if` (it is on the exit
of the search, not at `LinearFactorRemains`). -/
def addConstantFactor (invert : Bool) (factor : ℚ) (linearFactors : List (List ℚ × ℕ))
    (mk : ℚ → List ℚ) : Except Fault (List (List ℚ × ℕ)) :=
  match linearFactors with
  | [] => throw Fault.undefinedBehaviour
  | first :: rest =>
    if isConstant first.1 then do
      let factor ← if invert then quotientQ 1 factor else pure factor
      let factor := factor * (← lcoeff first.1)
      pure (mapInsert lt (mk factor) 1 rest).1
    else pure (mapInsert lt (mk factor) 1 (first :: rest)).1

/-- The code after the label `LinearFactorRemains`. -/
def linearFactorRemains (result : List ℚ) (linearFactors : List (List ℚ × ℕ)) :
    Except Fault (List ℚ × List (List ℚ × ℕ)) := do
  let factor ← lcoeff result
  if factor ≠ 1 then
    let result ← divAssign result factor
    let linearFactors ← addConstantFactor false factor linearFactors (fun f => ofCoeff f 0)
    pure (ofCoeff 1 0, insertOrAdd lt result 1 linearFactors)
  else
    pure (ofCoeff 1 0, insertOrAdd lt result 1 linearFactors)

/-- The local variables of the search loop of `excludeLinearFactors`; the iterators
`tcFactor` and `lcFactor` are positions, the length of the vector being `end()`. -/
structure ElfState where
  /-- The variable `result`. -/
  result : List ℚ
  /-- The parameter `linearFactors`. -/
  linearFactors : List (List ℚ × ℕ)
  /-- The variable `shiftedTcs`. -/
  shiftedTcs : List (ℤ × ℤ)
  /-- The variable `positive`. -/
  positive : Bool
  /-- The variable `tcFactorsFound`. -/
  tcFactorsFound : Bool
  /-- The variable `tcFactors`. -/
  tcFactors : List ℤ
  /-- The iterator `tcFactor`. -/
  tcFactor : ℕ
  /-- The variable `lcFactorsFound`. -/
  lcFactorsFound : Bool
  /-- The variable `lcFactors`. -/
  lcFactors : List ℤ
  /-- The iterator `lcFactor`. -/
  lcFactor : ℕ

/-- How one iteration of the search loop ends. -/
inductive ElfStep where
  /-- The loop goes on. -/
  | next (st : ElfState)
  /-- The statement `return result;`. -/
  | done (result : List ℚ) (linearFactors : List (List ℚ × ℕ))
  /-- The statement `goto LinearFactorRemains;`. -/
  | remains (result : List ℚ) (linearFactors : List (List ℚ × ℕ))

/-- The part "Find the next numerator-denominator combination" of the search loop;
`atEnd` is the value of `shiftedTc == shiftedTcs.end()`. -/
def nextCombination (lcAsInt tcAsInt halfOfLcAsInt halfOfTcAsInt : ℤ) (fuel : ℕ)
    (atEnd : Bool) (st : ElfState) : Except Fault ElfStep :=
  if atEnd && st.positive then pure (ElfStep.next { st with positive := false })
  else do
    let st := { st with positive := true }
    let st ← (if st.lcFactorsFound then pure { st with lcFactor := st.lcFactor + 1 }
      else do
        let back ← nextDivisor lcAsInt halfOfLcAsInt fuel (← deref st.lcFactors
          (st.lcFactors.length - 1))
        if back > halfOfLcAsInt then
          pure { st with lcFactorsFound := true, lcFactor := st.lcFactors.length }
        else
          pure { st with lcFactors := st.lcFactors ++ [back], lcFactor := st.lcFactors.length })
    if st.lcFactor = st.lcFactors.length then do
      let st ← (if st.tcFactorsFound then pure { st with tcFactor := st.tcFactor + 1 }
        else do
          let back ← nextDivisor tcAsInt halfOfTcAsInt fuel (← deref st.tcFactors
            (st.tcFactors.length - 1))
          if back > halfOfTcAsInt then
            pure { st with tcFactor := st.tcFactors.length }
          else
            pure { st with tcFactors := st.tcFactors ++ [back],
                           tcFactor := st.tcFactors.length })
      if st.tcFactor = st.tcFactors.length then do
        let factor ← coprimeFactor st.result
        if factor ≠ 1 then
          let result := mulAssignCoeff st.result factor
          let linearFactors ← addConstantFactor true factor st.linearFactors (fun f => [f])
          pure (ElfStep.done result linearFactors)
        else pure (ElfStep.done st.result st.linearFactors)
      else pure (ElfStep.next { st with lcFactor := 0 })
    else pure (ElfStep.next st)

/-- One iteration of the `while(true)` loop of `excludeLinearFactors`.  The iterator
`shiftedTc` is a position in `shiftedTcs`; after `shiftedTcs.push_back(...)` it still holds the
former end position, so it no longer compares equal to `shiftedTcs.end()`. -/
def searchStep (dz : ℕ) (maxInt lcAsInt tcAsInt halfOfLcAsInt halfOfTcAsInt : ℤ) (fuel : ℕ)
    (st : ElfState) : Except Fault ElfStep := do
  let lcFactor ← deref st.lcFactors st.lcFactor
  let tcFactor ← deref st.tcFactors st.tcFactor
  let shiftedTc ← shiftedTcLoop maxInt lcFactor tcFactor st.shiftedTcs 0
  if shiftedTc = st.shiftedTcs.length then do
    let q ← quotientQ (tcFactor : ℚ) (lcFactor : ℚ)
    let posRatZero : ℚ := if st.positive then q else -q
    let sd := syntheticDivision st.result posRatZero
    if sd.1 = 0 then do
      let r ← removeZeroLoop dz posRatZero [-posRatZero, 1] fuel sd.2 st.linearFactors
      if r.1 then pure (ElfStep.remains r.2.1 r.2.2)
      else
        nextCombination lcAsInt tcAsInt halfOfLcAsInt halfOfTcAsInt fuel true
          { st with result := r.2.1, linearFactors := r.2.2 }
    else if isInteger posRatZero then do
      assertThat (isInteger sd.1)
      let imageInt : ℤ := |getNum sd.1|
      if imageInt ≤ maxInt then do
        let shift := (← toInt (getNum posRatZero), ← toInt |getNum sd.1|)
        nextCombination lcAsInt tcAsInt halfOfLcAsInt halfOfTcAsInt fuel false
          { st with result := sd.2, shiftedTcs := st.shiftedTcs ++ [shift] }
      else
        nextCombination lcAsInt tcAsInt halfOfLcAsInt halfOfTcAsInt fuel true
          { st with result := sd.2 }
    else
      nextCombination lcAsInt tcAsInt halfOfLcAsInt halfOfTcAsInt fuel true
        { st with result := sd.2 }
  else
    nextCombination lcAsInt tcAsInt halfOfLcAsInt halfOfTcAsInt fuel false st

/-- The `while(true)` loop of `excludeLinearFactors`. -/
def searchLoop (dz : ℕ) (maxInt lcAsInt tcAsInt halfOfLcAsInt halfOfTcAsInt : ℤ)
    (inner : ℕ) : ℕ → ElfState → Except Fault ElfStep
  | 0, _ => throw Fault.outOfFuel
  | fuel + 1, st => do
    let r ← searchStep dz maxInt lcAsInt tcAsInt halfOfLcAsInt halfOfTcAsInt inner st
    match r with
    | ElfStep.next st' =>
      searchLoop dz maxInt lcAsInt tcAsInt halfOfLcAsInt halfOfTcAsInt inner fuel st'
    | ElfStep.done result linearFactors => pure (ElfStep.done result linearFactors)
    | ElfStep.remains result linearFactors => pure (ElfStep.remains result linearFactors)

/-- The function `excludeLinearFactors<int>(poly, linearFactors, maxInt)`: the returned
polynomial and the final value of `linearFactors`. -/
def excludeLinearFactors (dz fuel : ℕ) (poly : List ℚ) (linearFactors : List (List ℚ × ℕ))
    (maxInt : ℤ) : Except Fault (List ℚ × List (List ℚ × ℕ)) := do
  let k := (poly.takeWhile (fun c => c == 0)).length
  if k = poly.length then throw Fault.undefinedBehaviour
  let start : List ℚ × List (List ℚ × ℕ) :=
    if k ≠ 0 then (poly.drop k, insertOrAdd lt [0, 1] k linearFactors)
    else (poly, linearFactors)
  let result := start.1
  let linearFactors := start.2
  if degree dz result > 1 then do
    assertThat (decide (result.length > 1))
    let lc : ℤ := |getNum (← lcoeff result)|
    let tc : ℤ := |getNum (result.headD 0)|
    if maxInt ≠ 0 ∧ (tc > maxInt ∨ lc > maxInt) then pure (result, linearFactors)
    else do
      let lcAsInt ← toInt lc
      let tcAsInt ← toInt tc
      let halfOfLcAsInt : ℤ := if lcAsInt = 1 then 1 else Int.tdiv lcAsInt 2
      let halfOfTcAsInt : ℤ := if tcAsInt = 1 then 1 else Int.tdiv tcAsInt 2
      let r ← searchLoop dz maxInt lcAsInt tcAsInt halfOfLcAsInt halfOfTcAsInt fuel fuel
          ⟨result, linearFactors, [], true, false, [1], 0, false, [1], 0⟩
      match r with
      | ElfStep.remains result linearFactors => linearFactorRemains result linearFactors
      | ElfStep.done result linearFactors => pure (result, linearFactors)
      | ElfStep.next _ => throw Fault.outOfFuel
  else linearFactorRemains result linearFactors

/-- The loop of `factorization` over the entries of the square free factorization. -/
def mergeSquareFree : List (ℕ × List ℚ) → List (List ℚ × ℕ) → Except Fault (List (List ℚ × ℕ))
  | [], result => pure result
  | expFactorPair :: rest, result => do
    let isOneConst ← (if !isConstant expFactorPair.2 then pure false
      else do pure (decide ((← lcoeff expFactorPair.2) = 1)))
    if !isOneConst then
      mergeSquareFree rest (insertOrAdd lt expFactorPair.2 expFactorPair.1 result)
    else mergeSquareFree rest result

/-- The function `factorization`. -/
def factorization (dz fuel : ℕ) (p : List ℚ) : Except Fault (List (List ℚ × ℕ)) :=
  if isConstant p then pure (mapInsert lt p 1 []).1
  else do
    let factor ← coprimeFactor p
    let start : List ℚ × List (List ℚ × ℕ) ←
      (if factor = 1 then pure (p, [])
       else do
        let inv ← quotientQ 1 factor
        pure (p.map (fun coeff => coeff * factor), (mapInsert lt (ofCoeff inv 0) 1 []).1))
    assertThat (decide (p.length > 1))
    let r ← excludeLinearFactors dz fuel start.1 start.2 INT_MAX
    let remainingPoly := r.1
    if isConstant remainingPoly then do
      assertThat (decide ((← lcoeff remainingPoly) = 1))
      pure r.2
    else do
      let sff ← squareFreeFactorization dz fuel remainingPoly
      mergeSquareFree sff r.2

/-- The function `coprimeCoefficients`: every coefficient multiplied by `coprimeFactor()`.
The products are kept as rationals; the conversion to `Integer` does not change the value of
an integer. -/
def coprimeCoefficients (p : List ℚ) : Except Fault (List ℚ) := do
  let factor ← coprimeFactor p
  pure (p.map (fun coeff => coeff * factor))

/-- The function `cauchyBound`.  The loop runs over the iterators from `++begin()` up to
`--end()`; on a vector with one element it starts at `end()`. -/
def cauchyBound (p : List ℚ) : Except Fault ℚ :=
  match p with
  | [] => throw Fault.undefinedBehaviour
  | [_] => throw Fault.undefinedBehaviour
  | front :: rest => do
    let maxCoeff := rest.dropLast.foldl
      (fun (maxCoeff : ℚ) c => if |c| > maxCoeff then |c| else maxCoeff)
      (if front > 0 then front else -front)
    let q ← quotientQ maxCoeff (← lcoeff (front :: rest))
    pure (1 + q)

/-- The call `v.resize(n, (Coeff)0)` on a coefficient vector. -/
def resize (v : List ℚ) (n : ℕ) : List ℚ := v.take n ++ List.replicate (n - v.length) 0

/-- The constructor `UnivariatePolynomial(Variable::Arg, const std::map<unsigned, Coeff>&)`:
the coefficient vector it builds from the entries of the map in the order of their exponents;
`coefficients.rbegin()` of an empty map refers to no entry. -/
def ofMap (coefficients : List (ℕ × ℚ)) : Except Fault (List ℚ) :=
  if coefficients.isEmpty then throw Fault.undefinedBehaviour
  else
    pure (coefficients.foldl
      (fun (mCoefficients : List ℚ) expAndCoeff =>
        (if expAndCoeff.1 ≠ mCoefficients.length + 1 then resize mCoefficients expAndCoeff.1
          else mCoefficients) ++ [expAndCoeff.2])
      [])

/-- The `operator==` on two polynomials with their main variables; a variable is a number
(the spec: "opaque, totally ordered identifier"). -/
def eqVar (lhsVar : ℕ) (lhs : List ℚ) (rhsVar : ℕ) (rhs : List ℚ) : Except Fault Bool :=
  if lhsVar = rhsVar then pure (decide (lhs = rhs))
  else if isZero lhs && isZero rhs then pure true
  else if isConstant lhs && isConstant rhs then do
    let a ← lcoeff lhs
    let b ← lcoeff rhs
    pure (decide (a = b))
  else pure false

/-- The `operator<` on two polynomials with their main variables. -/
def ltVar (lhsVar : ℕ) (lhs : List ℚ) (rhsVar : ℕ) (rhs : List ℚ) : Bool :=
  if lhsVar = rhsVar then lt lhs rhs else decide (lhsVar < rhsVar)

/-- The representation invariant of the data model: the coefficient sequence is empty or
its last (leading) coefficient is nonzero. -/
def WellFormed (p : List ℚ) : Prop := p.getLast? ≠ some 0

instance (p : List ℚ) : Decidable (WellFormed p) := by
  unfold WellFormed; infer_instance

/-- The element of `ℚ[X]` that a coefficient vector denotes; used in proofs only. -/
noncomputable def toPoly (p : List ℚ) : Polynomial ℚ := Polynomial.ofFinsupp p.toFinsupp

/-- The value of `result` in `reduce` after `stripLeadingZeroes()`, when `this` and `divisor`
are not zero: `degdiff` is `size() - divisor.size()` and `factor` the quotient of the two
leading coefficients. -/
def reduceResult (p divisor : List ℚ) : List ℚ :=
  stripLeadingZeroes
    ((if p.length - 1 - (divisor.length - 1) > 0
        then p.take (p.length - 1 - (divisor.length - 1)) else []) ++
      (List.range (p.length - (p.length - 1 - (divisor.length - 1)) - 1)).map
        (fun i => p.getD (i + (p.length - 1 - (divisor.length - 1))) 0
          - p.getD (p.length - 1) 0 / divisor.getD (divisor.length - 1) 0 * divisor.getD i 0))

/-- The Horner value `(...(a_n*x + a_{n-1})*x + ...)*x + a_0` of a coefficient vector. -/
def hornerValue (p : List ℚ) (x : ℚ) : ℚ :=
  p.foldr (fun a acc => acc * x + a) 0

/-- The result of applying `derivative(1)` `n` times. -/
def derivativeIterated : ℕ → List ℚ → Except Fault (List ℚ)
  | 0, p => pure p
  | n + 1, p => do
    let q ← derivative 1 p
    derivativeIterated n q

/-- The power `f^n`, computed with the `operator*` of the source. -/
def power (f : List ℚ) : ℕ → List ℚ
  | 0 => one
  | n + 1 => mul (power f n) f

/-- The product of the factors `f_i^i` over the entries `(i, f_i)` of a square free
factorization, computed with the `operator*` of the source. -/
def productOfPowers : List (ℕ × List ℚ) → List ℚ
  | [] => one
  | entry :: rest => mul (power entry.2 entry.1) (productOfPowers rest)

end UnivariatePolynomial

/-! ## Factorized polynomials (`FactorizedPolynomial.tpp`) -/

/-- The function `carl::gcd(const mpq_class&, const mpq_class&)`: the gcd of the numerators
divided (`mpq_div`) by the lcm of the denominators. -/
def gcdQ (a b : ℚ) : Except Fault ℚ :=
  quotientQ ((gcdZ (getNum a) (getNum b) : ℤ) : ℚ) ((lcmZ (getDenom a) (getDenom b) : ℤ) : ℚ)

/-- The function `carl::lcm(const mpq_class&, const mpq_class&)`: the lcm of the numerators
divided (`mpq_div`) by the gcd of the denominators. -/
def lcmQ (a b : ℚ) : Except Fault ℚ :=
  quotientQ ((lcmZ (getNum a) (getNum b) : ℤ) : ℚ) ((gcdZ (getDenom a) (getDenom b) : ℤ) : ℚ)

/-- Modelled from the spec: `FactorizedPolynomial.h`, `PolynomialFactorizationPair` and the
cache are not part of the sources.  A handle has the members `mrCache`, `mCacheRef` and
`mCoefficient`; it is represented by the identity of its cache, by the factorization that the
cache slot `mCacheRef` holds (`rFactorization()`, a `std::map` from factors to multiplicities,
kept as its key-ordered list of entries; `Cache::cache` returns a slot whose content is
structurally equal to the content passed) and by its coefficient (`rCoefficient()`).  The keys
of a factorization are handles that were copied into the map; the copy constructor makes of
such a key the same key again, so the keys are values of a type `κ` that `operator==` and
`operator<`, which delegate to the missing `content()`, compare. -/
structure FactorizedPolynomial (κ : Type) where
  /-- The cache `mrCache` the handle lives on. -/
  cache : ℕ
  /-- The factorization in the cache slot `mCacheRef`. -/
  factorization : List (κ × ℕ)
  /-- The member `mCoefficient`. -/
  coefficient : ℚ
deriving DecidableEq, Repr

/-- The member `operator=`: the cache reference is taken over, `mCoefficient` is not
assigned. -/
def FactorizedPolynomial.assign {κ : Type} (self fpoly : FactorizedPolynomial κ) :
    Except Fault (FactorizedPolynomial κ) := do
  assertThat (self.cache == fpoly.cache)
  pure ⟨self.cache, fpoly.factorization, self.coefficient⟩

/-- The copy constructor `FactorizedPolynomial(const FactorizedPolynomial&)`: `mCacheRef` and
`mrCache` are initialised from `_toCopy`, `mCoefficient` is not; `defaultCoefficient` is the
value of a default-constructed `Coeff<P>` (0 for `mpq_class`). -/
def FactorizedPolynomial.copy {κ : Type} (defaultCoefficient : ℚ)
    (toCopy : FactorizedPolynomial κ) : FactorizedPolynomial κ :=
  ⟨toCopy.cache, toCopy.factorization, defaultCoefficient⟩

/-- The call `m.insert(m.end(), entry)` on a factorization. -/
def insertAtEnd {κ : Type} (lt : κ → κ → Bool) (entry : κ × ℕ) (m : List (κ × ℕ)) :
    List (κ × ℕ) :=
  (mapInsert lt entry.1 entry.2 m).1

/-- The two `while` loops of `lazyDiv` on the entries from `factorA` and from `factorB` on;
`eq` and `lt` are `operator==` and `operator<` on the keys. -/
def lazyDivLoop {κ : Type} (eq lt : κ → κ → Bool) :
    ℕ → List (κ × ℕ) → List (κ × ℕ) → List (κ × ℕ) → Except Fault (List (κ × ℕ))
  | _, [], _, resultFactorization => pure resultFactorization
  | 0, _ :: _, _, _ => throw Fault.outOfFuel
  | fuel + 1, factorA :: restA, [], resultFactorization =>
    lazyDivLoop eq lt fuel restA [] (insertAtEnd lt factorA resultFactorization)
  | fuel + 1, factorA :: restA, factorB :: restB, resultFactorization =>
    if eq factorA.1 factorB.1 then
      if factorA.2 > factorB.2 then
        lazyDivLoop eq lt fuel restA restB
          (insertAtEnd lt (factorA.1, factorA.2 - factorB.2) resultFactorization)
      else lazyDivLoop eq lt fuel restA restB resultFactorization
    else if lt factorA.1 factorB.1 then
      lazyDivLoop eq lt fuel restA (factorB :: restB)
        (insertAtEnd lt factorA resultFactorization)
    else lazyDivLoop eq lt fuel (factorA :: restA) restB resultFactorization

/-- The function `lazyDiv`; `strengthenActivity()` is a hint to the cache, and the returned
temporary is the result object. -/
def lazyDiv {κ : Type} (eq lt : κ → κ → Bool) (fuel : ℕ) (fpolyA fpolyB : FactorizedPolynomial κ) :
    Except Fault (FactorizedPolynomial κ) := do
  assertThat (fpolyA.cache == fpolyB.cache)
  let resultFactorization ←
    lazyDivLoop eq lt fuel fpolyA.factorization fpolyB.factorization []
  let coefficientResult ← quotientQ fpolyA.coefficient fpolyB.coefficient
  pure ⟨fpolyA.cache, resultFactorization, coefficientResult⟩

/-- The local variables `cdFactorization`, `restAFactorization` and `restBFactorization` of
`commonDivisor`. -/
structure CommonDivisorState (κ : Type) where
  /-- The variable `cdFactorization`. -/
  cdFactorization : List (κ × ℕ)
  /-- The variable `restAFactorization`. -/
  restAFactorization : List (κ × ℕ)
  /-- The variable `restBFactorization`. -/
  restBFactorization : List (κ × ℕ)
deriving DecidableEq, Repr

/-- The three `while` loops of `commonDivisor`. -/
def commonDivisorLoop {κ : Type} (eq lt : κ → κ → Bool) :
    ℕ → List (κ × ℕ) → List (κ × ℕ) → CommonDivisorState κ →
      Except Fault (CommonDivisorState κ)
  | _, [], [], st => pure st
  | 0, _ :: _, _, _ => throw Fault.outOfFuel
  | 0, [], _ :: _, _ => throw Fault.outOfFuel
  | fuel + 1, factorA :: restA, [], st =>
    commonDivisorLoop eq lt fuel restA []
      ⟨st.cdFactorization, insertAtEnd lt factorA st.restAFactorization, st.restBFactorization⟩
  | fuel + 1, [], factorB :: restB, st =>
    commonDivisorLoop eq lt fuel [] restB
      ⟨st.cdFactorization, st.restAFactorization, insertAtEnd lt factorB st.restBFactorization⟩
  | fuel + 1, factorA :: restA, factorB :: restB, st =>
    if eq factorA.1 factorB.1 then
      commonDivisorLoop eq lt fuel restA restB
        ⟨insertAtEnd lt (if factorA.2 < factorB.2 then factorA else factorB) st.cdFactorization,
          st.restAFactorization, st.restBFactorization⟩
    else if lt factorA.1 factorB.1 then
      commonDivisorLoop eq lt fuel restA (factorB :: restB)
        ⟨st.cdFactorization, insertAtEnd lt factorA st.restAFactorization, st.restBFactorization⟩
    else
      commonDivisorLoop eq lt fuel (factorA :: restA) restB
        ⟨st.cdFactorization, st.restAFactorization, insertAtEnd lt factorB st.restBFactorization⟩

/-- The result of `commonDivisor`: the returned handle and the values left in the reference
parameters `_fpolyRestA` and `_fpolyRestB`. -/
structure CommonDivisorResult (κ : Type) where
  /-- The returned handle. -/
  divisor : FactorizedPolynomial κ
  /-- The final value of `_fpolyRestA`. -/
  restA : FactorizedPolynomial κ
  /-- The final value of `_fpolyRestB`. -/
  restB : FactorizedPolynomial κ
deriving DecidableEq, Repr

/-- The function `commonDivisor`; the rests are assigned with `operator=` from temporaries on
the caches of `_fpolyRestA` and `_fpolyRestB`. -/
def commonDivisor {κ : Type} (eq lt : κ → κ → Bool) (fuel : ℕ)
    (fpolyA fpolyB fpolyRestA fpolyRestB : FactorizedPolynomial κ) :
    Except Fault (CommonDivisorResult κ) := do
  assertThat (fpolyA.cache == fpolyB.cache)
  let st ← commonDivisorLoop eq lt fuel fpolyA.factorization fpolyB.factorization ⟨[], [], []⟩
  let coefficientCommon ← gcdQ fpolyA.coefficient fpolyB.coefficient
  let coefficientRestA ← quotientQ fpolyA.coefficient coefficientCommon
  let coefficientRestB ← quotientQ fpolyB.coefficient coefficientCommon
  let restA ← fpolyRestA.assign ⟨fpolyRestA.cache, st.restAFactorization, coefficientRestA⟩
  let restB ← fpolyRestB.assign ⟨fpolyRestB.cache, st.restBFactorization, coefficientRestB⟩
  pure ⟨⟨fpolyA.cache, st.cdFactorization, coefficientCommon⟩, restA, restB⟩

/-- The three `while` loops of `commonMultiple`. -/
def commonMultipleLoop {κ : Type} (eq lt : κ → κ → Bool) :
    ℕ → List (κ × ℕ) → List (κ × ℕ) → List (κ × ℕ) → Except Fault (List (κ × ℕ))
  | _, [], [], cmFactorization => pure cmFactorization
  | 0, _ :: _, _, _ => throw Fault.outOfFuel
  | 0, [], _ :: _, _ => throw Fault.outOfFuel
  | fuel + 1, factorA :: restA, [], cmFactorization =>
    commonMultipleLoop eq lt fuel restA [] (insertAtEnd lt factorA cmFactorization)
  | fuel + 1, [], factorB :: restB, cmFactorization =>
    commonMultipleLoop eq lt fuel [] restB (insertAtEnd lt factorB cmFactorization)
  | fuel + 1, factorA :: restA, factorB :: restB, cmFactorization =>
    if eq factorA.1 factorB.1 then
      commonMultipleLoop eq lt fuel restA restB
        (insertAtEnd lt (if factorA.2 > factorB.2 then factorA else factorB) cmFactorization)
    else if lt factorA.1 factorB.1 then
      commonMultipleLoop eq lt fuel restA (factorB :: restB)
        (insertAtEnd lt factorA cmFactorization)
    else
      commonMultipleLoop eq lt fuel (factorA :: restA) restB
        (insertAtEnd lt factorB cmFactorization)

/-- The function `commonMultiple`. -/
def commonMultiple {κ : Type} (eq lt : κ → κ → Bool) (fuel : ℕ)
    (fpolyA fpolyB : FactorizedPolynomial κ) : Except Fault (FactorizedPolynomial κ) := do
  assertThat (fpolyA.cache == fpolyB.cache)
  let cmFactorization ←
    commonMultipleLoop eq lt fuel fpolyA.factorization fpolyB.factorization []
  let coefficientCommon ← lcmQ fpolyA.coefficient fpolyB.coefficient
  pure ⟨fpolyA.cache, cmFactorization, coefficientCommon⟩

/-! ## The cache and the construction of a handle from a polynomial -/

/-- Modelled from the spec: `PolynomialFactorizationPair.h` is not part of the sources.  The
cached payload: "a factor-multiplicity map plus (lazily or eagerly) the fully expanded
polynomial it represents".  A key of the map is a handle made by the copy constructor, which
copies `mCacheRef` and the cache; it is kept as its cache reference. -/
structure PolynomialFactorizationPair where
  /-- The member `mFactorization`. -/
  mFactorization : List (ℕ × ℕ)
  /-- The member `mpPolynomial`, `none` for a null pointer. -/
  mpPolynomial : Option (List ℚ)
deriving DecidableEq, Repr

/-- Modelled from the spec: `Cache.h` is not part of the sources.  A slot of the cache: its
lookup key, which is the content as it was when the slot was inserted (the spec has it
recomputed by `rehash` only, "after its content was mutated post-insertion"), and the owned
content.  Reference counts are left out; no function here reads them. -/
structure CacheSlot where
  /-- The lookup key of the slot. -/
  key : PolynomialFactorizationPair
  /-- The content the slot owns. -/
  content : PolynomialFactorizationPair
deriving DecidableEq, Repr

/-- Modelled from the spec: `Cache::cache(newContent)`, "look up by structural equality; if an
equal entry exists, discard the new object and reuse/increment the existing slot; else insert,
taking ownership, refcount = 1.  Returns an opaque reference."  The cache is the list of its
slots and a reference is the position of a slot; the result is the cache after the call, the
reference, and whether the new object was inserted. -/
def Cache.cache : List CacheSlot → PolynomialFactorizationPair → List CacheSlot × ℕ × Bool
  | [], newContent => ([⟨newContent, newContent⟩], 0, true)
  | slot :: rest, newContent =>
    if slot.key = newContent then (slot :: rest, 0, false)
    else
      let r := Cache.cache rest newContent
      (slot :: r.1, r.2.1 + 1, r.2.2)

/-- The members `mCacheRef` and `mCoefficient` of a handle, the cache being passed along; the
structure `FactorizedPolynomial` is such a handle seen with the factorization of its slot. -/
structure CachedHandle where
  /-- The member `mCacheRef`. -/
  mCacheRef : ℕ
  /-- The member `mCoefficient`. -/
  mCoefficient : ℚ
deriving DecidableEq, Repr

/-- The constructor `FactorizedPolynomial(const P& _polynomial, Cache& _cache)`: the new
handle and the cache after the construction.  The statement
`pfPair->mFactorization.insert(std::make_pair(*this, 1))` acts on the object `pfPair`, whose
factorization is empty: that object is the content of the slot when `cache` inserted it, and
the discarded object, not part of the cache, when `cache` found an equal entry. -/
def FactorizedPolynomial.ofPolynomial (polynomial : List ℚ) (cache : List CacheSlot) :
    Except Fault (CachedHandle × List CacheSlot) := do
  let mCoefficient ← UnivariatePolynomial.coprimeFactor polynomial
  let pfPair : PolynomialFactorizationPair :=
    ⟨[], some (← UnivariatePolynomial.coprimeCoefficients polynomial)⟩
  let r := Cache.cache cache pfPair
  let mCacheRef := r.2.1
  if r.2.2 then
    pure (⟨mCacheRef, mCoefficient⟩,
      r.1.modify (fun slot => ⟨slot.key, ⟨[(mCacheRef, 1)], slot.content.mpPolynomial⟩⟩)
        mCacheRef)
  else pure (⟨mCacheRef, mCoefficient⟩, r.1)

/-! ## Logging (`carlLogging.h`) -/

namespace logging

/-- The enumeration `LogLevel`; `LVL_DEFAULT` is another name of `LVL_WARN`. -/
inductive LogLevel where
  | LVL_ALL
  | LVL_TRACE
  | LVL_DEBUG
  | LVL_INFO
  | LVL_WARN
  | LVL_ERROR
  | LVL_FATAL
  | LVL_OFF
deriving DecidableEq, Repr

/-- The value of a `LogLevel` in its underlying type `unsigned`. -/
def LogLevel.toNat : LogLevel → ℕ
  | LVL_ALL => 0
  | LVL_TRACE => 1
  | LVL_DEBUG => 2
  | LVL_INFO => 3
  | LVL_WARN => 4
  | LVL_ERROR => 5
  | LVL_FATAL => 6
  | LVL_OFF => 7

/-- The enumerator `LVL_DEFAULT = LVL_WARN`. -/
def LogLevel.LVL_DEFAULT : LogLevel := LogLevel.LVL_WARN

/-- The call `s.rfind(c)` on a `std::string`, kept as the list of its characters: the
position of the last `c`, `none` for `npos`. -/
def rfind : List Char → Char → Option ℕ
  | [], _ => none
  | x :: xs, c =>
    match rfind xs c with
    | some n => some (n + 1)
    | none => if x = c then some 0 else none

/-- The struct `Filter`: the member `data`, a map from channels to levels. -/
structure Filter where
  /-- The member `data`. -/
  data : List (List Char × LogLevel)
deriving DecidableEq, Repr

/-- The member `operator()(channel, level)`: `data[channel] = level`. -/
def Filter.call (self : Filter) (channel : List Char) (level : LogLevel) : Filter :=
  ⟨mapSet channel level self.data⟩

/-- The constructor `Filter(LogLevel level)`: `(*this)("", level)` on the empty map. -/
def Filter.new (level : LogLevel) : Filter := Filter.call ⟨[]⟩ [] level

/-- The constructor `Filter()` with the default argument `LVL_DEFAULT`. -/
def Filter.default : Filter := Filter.new LogLevel.LVL_DEFAULT

/-- The `while` loop of `check`: the final value of the iterator `it`. -/
def Filter.checkLoop (self : Filter) : ℕ → List Char → Except Fault (Option LogLevel)
  | 0, curChan =>
    if curChan.length > 0 ∧ mapFind curChan self.data = none then throw Fault.outOfFuel
    else pure (mapFind curChan self.data)
  | fuel + 1, curChan =>
    if curChan.length > 0 ∧ mapFind curChan self.data = none then
      match rfind curChan '.' with
      | none => Filter.checkLoop self fuel []
      | some n => Filter.checkLoop self fuel (curChan.take n)
    else pure (mapFind curChan self.data)

/-- The member `check(channel, level)`. -/
def Filter.check (self : Filter) (fuel : ℕ) (channel : List Char) (level : LogLevel) :
    Except Fault Bool := do
  let it ← Filter.checkLoop self fuel channel
  match it with
  | none => throw Fault.assertion
  | some second => pure (decide (level.toNat ≥ second.toNat))

/-- The parent of a channel: the channel cut at its last `'.'`, and `""` for a channel
without `'.'`. -/
def parent (channel : List Char) : List Char :=
  match rfind channel '.' with
  | none => []
  | some n => channel.take n

/-- The first `n + 1` channels of the sequence `c, parent(c), parent(parent(c)), ...`,
ended at `""`. -/
def ancestorsUpTo : ℕ → List Char → List (List Char)
  | 0, channel => [channel]
  | n + 1, channel => if channel = [] then [channel] else channel :: ancestorsUpTo n (parent channel)

/-- The sequence `c, parent(c), parent(parent(c)), ..., ""`; every parent is shorter than its
channel. -/
def ancestors (channel : List Char) : List (List Char) := ancestorsUpTo channel.length channel

/-- The Filter reached by the construction with `level` followed by the rule insertions
`rules`, in their order. -/
def Filter.after (level : LogLevel) (rules : List (List Char × LogLevel)) : Filter :=
  rules.foldl (fun f rule => Filter.call f rule.1 rule.2) (Filter.new level)

/-- The level of the rule that a channel has after the construction with `level` and the
insertions `rules`: that of the last insertion for the channel, the construction being an
insertion for `""`; `none` when the channel has no rule. -/
def ruleLevel (level : LogLevel) (rules : List (List Char × LogLevel))
    (channel : List Char) : Option LogLevel :=
  ((([], level) :: rules).reverse.find? (fun rule => decide (rule.1 = channel))).map Prod.snd

end logging

/-- What is assumed of the comparisons of the keys: each cache slot holds one content, so
`operator==` holds of two keys exactly when they are the same key, and `operator<` is a
strict total order. -/
structure KeyOrder {κ : Type} (eq lt : κ → κ → Bool) : Prop where
  /-- The operator `==` is identity. -/
  eq_iff : ∀ a b, eq a b = true ↔ a = b
  /-- No key is smaller than itself. -/
  irrefl : ∀ a, lt a a = false
  /-- The order is transitive. -/
  trans : ∀ a b c, lt a b = true → lt b c = true → lt a c = true
  /-- Two distinct keys are ordered. -/
  total : ∀ a b, lt a b = true ∨ a = b ∨ lt b a = true

/-- A factorization is key-sorted: its entries are in strictly increasing order of their
keys. -/
def KeysSorted {κ : Type} (lt : κ → κ → Bool) (m : List (κ × ℕ)) : Prop :=
  m.Pairwise (fun x y => lt x.1 y.1 = true)

instance {κ : Type} (lt : κ → κ → Bool) (m : List (κ × ℕ)) : Decidable (KeysSorted lt m) := by
  unfold KeysSorted; infer_instance

/-- The multiplicity of the factor `f` in a factorization, 0 when `f` is not a key. -/
def multiplicityIn {κ : Type} [DecidableEq κ] (m : List (κ × ℕ)) (f : κ) : ℕ :=
  (m.lookup f).getD 0

/-- The entry that the quotient of `lazyDiv` is to have at a factor, from the entries of the
two arguments: a factor of `a` absent from `b` keeps its multiplicity, a shared factor with
`multA > multB` has the difference, and no other factor is a key. -/
def lazyDivEntry : Option ℕ → Option ℕ → Option ℕ
  | some multA, none => some multA
  | some multA, some multB => if multA > multB then some (multA - multB) else none
  | none, _ => none

/-- The entry that the common divisor is to have at a factor: the smaller multiplicity for a
factor of both arguments, and no entry otherwise. -/
def commonDivisorEntry : Option ℕ → Option ℕ → Option ℕ
  | some multA, some multB => some (min multA multB)
  | _, _ => none

/-- The entry that a rest is to have at a factor: the multiplicity in the first argument for
a factor that the second lacks, and no entry otherwise. -/
def restEntry : Option ℕ → Option ℕ → Option ℕ
  | some multA, none => some multA
  | _, _ => none

/-- The entry that the common multiple is to have at a factor: the larger multiplicity for a
shared factor, the multiplicity itself for a factor of one argument only. -/
def commonMultipleEntry : Option ℕ → Option ℕ → Option ℕ
  | some multA, some multB => some (max multA multB)
  | some multA, none => some multA
  | none, some multB => some multB
  | none, none => none

/-- The comparison `==` on natural numbers as keys. -/
def eqNat (a b : ℕ) : Bool := a == b

/-- The comparison `<` on natural numbers as keys. -/
def ltNat (a b : ℕ) : Bool := decide (a < b)

/-- A cache in which every slot that was inserted by the construction of a handle from a
polynomial (its lookup key has an empty factorization and a polynomial) holds the
factorization with the one entry of a key referencing the slot itself, with multiplicity 1. -/
def Bootstrapped (cache : List CacheSlot) : Prop :=
  ∀ (i : ℕ) (slot : CacheSlot), cache.get? i = some slot →
    slot.key.mFactorization = [] → slot.key.mpPolynomial ≠ none →
    slot.content.mFactorization = [(i, 1)]

end carl

/-! # Proofs -/

open Polynomial

namespace carl

namespace UnivariatePolynomial

/-! ## `evaluate` and `syntheticDivision` -/

theorem evaluate_foldl (value : ℚ) (p : List ℚ) (s v : ℚ) :
    (p.foldl (fun (s : ℚ × ℚ) coeff => (s.1 + coeff * s.2, s.2 * value)) (s, v)).1
      = s + v * evaluate p value := by
  induction p generalizing s v with
  | nil => simp [evaluate]
  | cons a p ih =>
    simp only [evaluate, List.foldl_cons]
    rw [ih, ih (0 + a * 1)]
    simp only [evaluate]
    ring

theorem evaluate_nil (value : ℚ) : evaluate [] value = 0 := by simp [evaluate]

theorem evaluate_cons (a : ℚ) (p : List ℚ) (value : ℚ) :
    evaluate (a :: p) value = a + value * evaluate p value := by
  simp only [evaluate, List.foldl_cons]
  rw [evaluate_foldl]
  simp only [evaluate]
  ring

theorem thirdRow_cons (z a : ℚ) (rest : List ℚ) :
    thirdRow z (a :: rest) = (a + z * (thirdRow z rest).headD 0) :: thirdRow z rest := by
  cases rest with
  | nil => simp [thirdRow]
  | cons b rest => simp [thirdRow]

theorem thirdRow_length (z : ℚ) (p : List ℚ) : (thirdRow z p).length = p.length := by
  induction p with
  | nil => simp [thirdRow]
  | cons a p ih => rw [thirdRow_cons]; simp [ih]

theorem thirdRow_head (z : ℚ) (p : List ℚ) : (thirdRow z p).headD 0 = evaluate p z := by
  induction p with
  | nil => simp [thirdRow, evaluate_nil]
  | cons a p ih => rw [thirdRow_cons, evaluate_cons, ih]; simp

theorem thirdRow_tail (z : ℚ) (p : List ℚ) (x : ℚ) :
    (x - z) * evaluate (thirdRow z p).tail x + evaluate p z = evaluate p x := by
  induction p with
  | nil => simp [thirdRow, evaluate_nil]
  | cons a p ih =>
    rw [thirdRow_cons, evaluate_cons, evaluate_cons, List.tail_cons]
    cases hp : thirdRow z p with
    | nil =>
      have hl := thirdRow_length z p
      rw [hp] at hl
      have : p = [] := List.length_eq_zero.mp hl.symm
      subst this
      simp [evaluate_nil]
    | cons b t =>
      rw [hp] at ih
      have hb := thirdRow_head z p
      rw [hp] at hb
      simp only [List.headD_cons] at hb
      simp only [List.tail_cons] at ih
      rw [evaluate_cons, ← ih, hb]
      ring

theorem syntheticDivision_fst (p : List ℚ) (r : ℚ) :
    (syntheticDivision p r).1 = evaluate p r := by
  unfold syntheticDivision
  by_cases h1 : p.isEmpty = true
  · have : p = [] := by simpa using h1
    subst this; simp [evaluate_nil]
  · by_cases h2 : p.length = 1
    · obtain ⟨a, rfl⟩ := List.length_eq_one.mp h2
      simp [evaluate_cons, evaluate_nil]
    · simp only [h1, h2, if_false]
      by_cases h3 : (thirdRow r p).headD 0 = 0
      · simp only [h3, if_true]
        rw [← thirdRow_head]; exact h3.symm
      · simp only [h3, if_false]
        exact thirdRow_head r p

theorem syntheticDivision_snd_of_ne (p : List ℚ) (r : ℚ) (h : evaluate p r ≠ 0) :
    (syntheticDivision p r).2 = p := by
  unfold syntheticDivision
  by_cases h1 : p.isEmpty = true
  · simp [h1]
  · by_cases h2 : p.length = 1
    · simp [h1, h2]
    · have h3 : ¬ (thirdRow r p).headD 0 = 0 := by rw [thirdRow_head]; exact h
      rw [if_neg h1, if_neg h2]
      show (if (thirdRow r p).headD 0 = 0 then _ else _ : ℚ × List ℚ).2 = _
      rw [if_neg h3]

theorem syntheticDivision_snd_of_eq (p : List ℚ) (r : ℚ) (h2 : 2 ≤ p.length)
    (h : evaluate p r = 0) : (syntheticDivision p r).2 = (thirdRow r p).tail := by
  unfold syntheticDivision
  have h1 : ¬ p.isEmpty = true := by
    intro h1
    have : p = [] := by simpa using h1
    subst this; simp at h2
  have h2' : ¬ p.length = 1 := by omega
  have h3 : (thirdRow r p).headD 0 = 0 := by rw [thirdRow_head]; exact h
  rw [if_neg h1, if_neg h2']
  show (if (thirdRow r p).headD 0 = 0 then _ else _ : ℚ × List ℚ).2 = _
  rw [if_pos h3]

/-! ## Coefficient vectors as elements of `ℚ[X]` -/

theorem coeff_toPoly (p : List ℚ) (i : ℕ) : (toPoly p).coeff i = p.getD i 0 := by
  simp [toPoly, Polynomial.coeff_ofFinsupp, List.toFinsupp_apply]

theorem toPoly_nil : toPoly [] = 0 := by
  ext i; simp [coeff_toPoly]

theorem toPoly_eq_of_getD {p q : List ℚ} (h : ∀ i, p.getD i 0 = q.getD i 0) :
    toPoly p = toPoly q := by
  ext i; rw [coeff_toPoly, coeff_toPoly]; exact h i

theorem wellFormed_nil : WellFormed [] := by simp [WellFormed]

theorem wellFormed_concat (l : List ℚ) (a : ℚ) : WellFormed (l ++ [a]) ↔ a ≠ 0 := by
  simp [WellFormed]

theorem stripLeadingZeroes_concat (l : List ℚ) (a : ℚ) :
    stripLeadingZeroes (l ++ [a]) = if a = 0 then stripLeadingZeroes l else l ++ [a] := by
  unfold stripLeadingZeroes
  rw [List.rdropWhile_concat]
  simp

theorem stripLeadingZeroes_nil : stripLeadingZeroes [] = [] := by
  simp [stripLeadingZeroes]

theorem wellFormed_strip (p : List ℚ) : WellFormed (stripLeadingZeroes p) := by
  induction p using List.reverseRecOn with
  | nil => simp [stripLeadingZeroes_nil, wellFormed_nil]
  | append_singleton l a ih =>
    rw [stripLeadingZeroes_concat]
    split_ifs with h
    · exact ih
    · exact (wellFormed_concat l a).mpr h

theorem getD_strip (p : List ℚ) (i : ℕ) : (stripLeadingZeroes p).getD i 0 = p.getD i 0 := by
  induction p using List.reverseRecOn with
  | nil => simp [stripLeadingZeroes_nil]
  | append_singleton l a ih =>
    rw [stripLeadingZeroes_concat]
    split_ifs with h
    · rw [ih, h]
      rcases lt_or_ge i l.length with hi | hi
      · rw [List.getD_append _ _ _ _ hi]
      · rw [List.getD_append_right _ _ _ _ hi, List.getD_eq_default _ _ hi]
        rcases Nat.eq_zero_or_pos (i - l.length) with h0 | h0
        · simp [h0]
        · rw [List.getD_eq_default]; simp only [List.length_singleton]; omega
    · rfl

theorem strip_of_wellFormed {p : List ℚ} (h : WellFormed p) : stripLeadingZeroes p = p := by
  induction p using List.reverseRecOn with
  | nil => simp [stripLeadingZeroes_nil]
  | append_singleton l a _ =>
    rw [stripLeadingZeroes_concat, if_neg ((wellFormed_concat l a).mp h)]

theorem toPoly_strip (p : List ℚ) : toPoly (stripLeadingZeroes p) = toPoly p :=
  toPoly_eq_of_getD (getD_strip p)

theorem strip_length_le (p : List ℚ) : (stripLeadingZeroes p).length ≤ p.length := by
  unfold stripLeadingZeroes
  exact (List.rdropWhile_prefix _ p).length_le

/-- A well-formed vector is no longer than the index from which its coefficients vanish. -/
theorem length_le_of_getD_eq_zero {p : List ℚ} (hp : WellFormed p) {n : ℕ}
    (h : ∀ i, n ≤ i → p.getD i 0 = 0) : p.length ≤ n := by
  induction p using List.reverseRecOn with
  | nil => simp
  | append_singleton l a _ =>
    by_contra hlt
    have ha := (wellFormed_concat l a).mp hp
    have := h l.length (by simp at hlt; omega)
    rw [List.getD_append_right _ _ _ _ (le_refl _)] at this
    simp at this
    exact ha this

theorem toPoly_ne_zero {p : List ℚ} (hp : WellFormed p) (hne : p ≠ []) : toPoly p ≠ 0 := by
  intro h0
  have : p.length ≤ 0 := length_le_of_getD_eq_zero hp (fun i _ => by
    rw [← coeff_toPoly, h0]; simp)
  exact hne (List.length_eq_zero.mp (Nat.le_zero.mp this))

theorem toPoly_eq_zero_iff {p : List ℚ} (hp : WellFormed p) : toPoly p = 0 ↔ p = [] :=
  ⟨fun h => by_contra fun hne => toPoly_ne_zero hp hne h, fun h => by rw [h, toPoly_nil]⟩

theorem getLast?_eq_getD (p : List ℚ) (hne : p ≠ []) :
    p.getLast? = some (p.getD (p.length - 1) 0) := by
  induction p using List.reverseRecOn with
  | nil => exact absurd rfl hne
  | append_singleton l a _ =>
    simp [List.getD_append_right]

theorem natDegree_toPoly {p : List ℚ} (hp : WellFormed p) (hne : p ≠ []) :
    (toPoly p).natDegree = p.length - 1 := by
  apply le_antisymm
  · apply Polynomial.natDegree_le_iff_coeff_eq_zero.mpr
    intro i hi
    rw [coeff_toPoly, List.getD_eq_default]
    omega
  · apply Polynomial.le_natDegree_of_ne_zero
    rw [coeff_toPoly]
    intro h0
    apply hp
    rw [getLast?_eq_getD p hne, h0]

theorem leadingCoeff_toPoly {p : List ℚ} (hp : WellFormed p) (hne : p ≠ []) :
    p.getLast? = some (toPoly p).leadingCoeff := by
  rw [Polynomial.leadingCoeff, natDegree_toPoly hp hne, coeff_toPoly, getLast?_eq_getD p hne]

theorem length_eq_of_toPoly {p : List ℚ} (hp : WellFormed p) (hne : p ≠ []) :
    p.length = (toPoly p).natDegree + 1 := by
  rw [natDegree_toPoly hp hne]
  have : 0 < p.length := List.length_pos.mpr hne
  omega

/-- Well-formed coefficient vectors denoting the same polynomial are equal. -/
theorem toPoly_injective {p q : List ℚ} (hp : WellFormed p) (hq : WellFormed q)
    (h : toPoly p = toPoly q) : p = q := by
  have hlen : p.length = q.length := by
    by_cases hpe : p = []
    · subst hpe
      rw [toPoly_nil] at h
      rw [(toPoly_eq_zero_iff hq).mp h.symm]
    · have hqe : q ≠ [] := fun hqe => hpe ((toPoly_eq_zero_iff hp).mp (by rw [h, hqe, toPoly_nil]))
      rw [length_eq_of_toPoly hp hpe, length_eq_of_toPoly hq hqe, h]
  apply List.ext_get hlen
  intro n h1 h2
  have := congrArg (fun f => Polynomial.coeff f n) h
  simp only [coeff_toPoly] at this
  rw [List.getD_eq_getElem _ _ h1, List.getD_eq_getElem _ _ h2] at this
  simpa using this

/-! ## Arithmetic -/

/-! ### negation -/

theorem getD_neg (p : List ℚ) (i : ℕ) : (neg p).getD i 0 = - p.getD i 0 := by
  unfold neg
  rw [List.getD_eq_getElem?_getD, List.getD_eq_getElem?_getD, List.getElem?_map]
  cases p[i]? <;> simp

theorem toPoly_neg (p : List ℚ) : toPoly (neg p) = - toPoly p := by
  ext i; rw [coeff_neg, coeff_toPoly, coeff_toPoly, getD_neg]

theorem neg_length (p : List ℚ) : (neg p).length = p.length := by simp [neg]

theorem neg_eq_nil_iff (p : List ℚ) : neg p = [] ↔ p = [] := by simp [neg]

theorem wellFormed_neg {p : List ℚ} (hp : WellFormed p) : WellFormed (neg p) := by
  induction p using List.reverseRecOn with
  | nil => simpa [neg] using wellFormed_nil
  | append_singleton l a _ =>
    have := (wellFormed_concat l a).mp hp
    unfold neg
    rw [List.map_append, List.map_singleton]
    exact (wellFormed_concat _ _).mpr (by simpa using this)

/-! ### addition -/

theorem getD_zipWith_append_right (p q : List ℚ) (h : p.length ≤ q.length) (i : ℕ) :
    (List.zipWith (fun a b => a + b) p q ++ q.drop p.length).getD i 0
      = p.getD i 0 + q.getD i 0 := by
  induction p generalizing q i with
  | nil => simp
  | cons a p ih =>
    cases q with
    | nil => simp at h
    | cons b q =>
      cases i with
      | zero => simp
      | succ j =>
        have := ih q (by simpa using h) j
        simpa using this

theorem getD_zipWith_append_left (p q : List ℚ) (h : q.length ≤ p.length) (i : ℕ) :
    (List.zipWith (fun a b => a + b) p q ++ p.drop q.length).getD i 0
      = p.getD i 0 + q.getD i 0 := by
  induction q generalizing p i with
  | nil => simp
  | cons b q ih =>
    cases p with
    | nil => simp at h
    | cons a p =>
      cases i with
      | zero => simp
      | succ j =>
        have := ih p (by simpa using h) j
        simpa using this

theorem isZero_iff (p : List ℚ) : isZero p = true ↔ p = [] := by
  simp [isZero]

theorem getD_addAssign (p q : List ℚ) (i : ℕ) :
    (addAssign p q).getD i 0 = p.getD i 0 + q.getD i 0 := by
  unfold addAssign
  split_ifs with h1 h2
  · rw [(isZero_iff q).mp h1]; simp
  · rw [getD_strip, getD_zipWith_append_right p q (le_of_lt h2)]
  · rw [getD_strip, getD_zipWith_append_left p q (not_lt.mp h2)]

theorem toPoly_addAssign (p q : List ℚ) : toPoly (addAssign p q) = toPoly p + toPoly q := by
  ext i; rw [coeff_add, coeff_toPoly, coeff_toPoly, coeff_toPoly, getD_addAssign]

theorem wellFormed_addAssign {p : List ℚ} (hp : WellFormed p) (q : List ℚ) :
    WellFormed (addAssign p q) := by
  unfold addAssign
  split_ifs
  · exact hp
  · exact wellFormed_strip _
  · exact wellFormed_strip _

theorem toPoly_add (p q : List ℚ) : toPoly (add p q) = toPoly p + toPoly q :=
  toPoly_addAssign p q

theorem toPoly_subAssign (p q : List ℚ) : toPoly (subAssign p q) = toPoly p - toPoly q := by
  unfold subAssign
  rw [toPoly_addAssign, toPoly_neg, sub_eq_add_neg]

theorem toPoly_sub (p q : List ℚ) : toPoly (sub p q) = toPoly p - toPoly q :=
  toPoly_subAssign p q

theorem wellFormed_subAssign {p : List ℚ} (hp : WellFormed p) (q : List ℚ) :
    WellFormed (subAssign p q) := wellFormed_addAssign hp _

/-! ### multiplication -/

theorem foldl_cond_sum (c : ℕ → Prop) [DecidablePred c] (g : ℕ → ℚ) (n : ℕ) :
    (List.range n).foldl (fun acc i => if c i then acc + g i else acc) 0
      = ∑ i in Finset.range n, if c i then g i else 0 := by
  induction n with
  | zero => simp
  | succ n ih =>
    rw [List.range_succ, List.foldl_append, ih, Finset.sum_range_succ]
    simp only [List.foldl_cons, List.foldl_nil]
    split_ifs <;> simp

theorem getD_map_range (F : ℕ → ℚ) (n i : ℕ) :
    ((List.range n).map F).getD i 0 = if i < n then F i else 0 := by
  split_ifs with h
  · rw [List.getD_eq_getElem _ _ (by simpa using h)]
    simp
  · rw [List.getD_eq_default]
    simpa using h

theorem getD_mulAssign (p q : List ℚ) (e : ℕ) :
    (mulAssign p q).getD e 0 = ∑ i in Finset.range (e + 1), p.getD i 0 * q.getD (e - i) 0 := by
  unfold mulAssign
  split_ifs with h
  · rw [(isZero_iff q).mp h]; simp
  · have hq : 0 < q.length := List.length_pos.mpr (fun hq => h ((isZero_iff q).mpr hq))
    rw [getD_strip, getD_map_range]
    split_ifs with he
    · rw [foldl_cond_sum (fun i => e - i < q.length) (fun i => p.getD i 0 * q.getD (e - i) 0)]
      have hsub : Finset.range (min p.length (e + 1)) ⊆ Finset.range (e + 1) := by
        intro x hx
        simp only [Finset.mem_range] at hx ⊢
        exact lt_of_lt_of_le hx (min_le_right _ _)
      rw [← Finset.sum_subset hsub]
      · apply Finset.sum_congr rfl
        intro i _
        split_ifs with hc
        · rfl
        · rw [List.getD_eq_default _ _ (not_lt.mp hc)]; simp
      · intro x hx hx'
        simp only [Finset.mem_range, lt_min_iff, not_and] at hx hx'
        have : p.length ≤ x := by
          by_contra hlt
          exact (hx' (not_le.mp hlt)) hx
        rw [List.getD_eq_default _ _ this]; simp
    · symm
      apply Finset.sum_eq_zero
      intro i hi
      simp only [Finset.mem_range] at hi
      by_cases hp : i < p.length
      · rw [List.getD_eq_default q _ (by omega)]; simp
      · rw [List.getD_eq_default p _ (by omega)]; simp

theorem toPoly_mulAssign (p q : List ℚ) : toPoly (mulAssign p q) = toPoly p * toPoly q := by
  ext e
  rw [coeff_toPoly, getD_mulAssign, Polynomial.coeff_mul,
    Finset.Nat.sum_antidiagonal_eq_sum_range_succ (fun i j => (toPoly p).coeff i * (toPoly q).coeff j)]
  apply Finset.sum_congr rfl
  intro i _
  rw [coeff_toPoly, coeff_toPoly]

theorem toPoly_mul (p q : List ℚ) : toPoly (mul p q) = toPoly p * toPoly q :=
  toPoly_mulAssign p q

theorem wellFormed_mulAssign (p q : List ℚ) : WellFormed (mulAssign p q) := by
  unfold mulAssign
  split_ifs
  · exact wellFormed_nil
  · exact wellFormed_strip _

theorem wellFormed_mul (p q : List ℚ) : WellFormed (mul p q) := wellFormed_mulAssign p q

theorem wellFormed_add_mul (p q r : List ℚ) : WellFormed (add (mul p q) r) :=
  wellFormed_addAssign (wellFormed_mul p q) r

/-! ### scalars and monomials -/

theorem getD_map (f : ℚ → ℚ) (hf : f 0 = 0) (p : List ℚ) (i : ℕ) :
    (p.map f).getD i 0 = f (p.getD i 0) := by
  rw [List.getD_eq_getElem?_getD, List.getD_eq_getElem?_getD, List.getElem?_map]
  cases p[i]? <;> simp [hf]

theorem toPoly_map_mul (p : List ℚ) (c : ℚ) :
    toPoly (p.map (fun a => a * c)) = Polynomial.C c * toPoly p := by
  ext i
  rw [coeff_C_mul, coeff_toPoly, coeff_toPoly, getD_map _ (by simp)]
  ring

theorem toPoly_map_div (p : List ℚ) (c : ℚ) :
    toPoly (p.map (fun a => a / c)) = Polynomial.C c⁻¹ * toPoly p := by
  ext i
  rw [coeff_C_mul, coeff_toPoly, coeff_toPoly, getD_map _ (by simp)]
  rw [div_eq_inv_mul]

theorem toPoly_mulAssignCoeff (p : List ℚ) (c : ℚ) :
    toPoly (mulAssignCoeff p c) = Polynomial.C c * toPoly p := by
  unfold mulAssignCoeff
  split_ifs with h
  · rw [h, toPoly_nil]; simp
  · exact toPoly_map_mul p c

theorem wellFormed_map {p : List ℚ} (hp : WellFormed p) (f : ℚ → ℚ)
    (hf : ∀ a, a ≠ 0 → f a ≠ 0) : WellFormed (p.map f) := by
  induction p using List.reverseRecOn with
  | nil => simpa using wellFormed_nil
  | append_singleton l a _ =>
    have := (wellFormed_concat l a).mp hp
    rw [List.map_append, List.map_singleton]
    exact (wellFormed_concat _ _).mpr (hf a this)

theorem wellFormed_mulAssignCoeff {p : List ℚ} (hp : WellFormed p) (c : ℚ) :
    WellFormed (mulAssignCoeff p c) := by
  unfold mulAssignCoeff
  split_ifs with h
  · exact wellFormed_nil
  · exact wellFormed_map hp _ (fun a ha => mul_ne_zero ha h)

theorem ofCoeff_eq {c : ℚ} (hc : c ≠ 0) (e : ℕ) : ofCoeff c e = List.replicate e 0 ++ [c] := by
  unfold ofCoeff
  rw [if_pos hc, sub_self]
  induction e with
  | zero => simp
  | succ n ih =>
    rw [List.replicate_succ, List.set_cons_succ, ih]
    simp [List.replicate_succ]

theorem getD_ofCoeff (c : ℚ) (e i : ℕ) : (ofCoeff c e).getD i 0 = if i = e then c else 0 := by
  by_cases hc : c = 0
  · subst hc; simp [ofCoeff]
  · rw [ofCoeff_eq hc]
    rcases lt_trichotomy i e with h | h | h
    · rw [List.getD_append _ _ _ _ (by simpa using h), if_neg (by omega)]
      rw [List.getD_eq_getElem _ _ (by simpa using h)]
      simp
    · subst h
      rw [List.getD_append_right _ _ _ _ (by simp)]
      simp
    · rw [List.getD_eq_default _ _ (by simp; omega), if_neg (by omega)]

theorem toPoly_ofCoeff (c : ℚ) (e : ℕ) : toPoly (ofCoeff c e) = Polynomial.monomial e c := by
  ext i
  rw [coeff_toPoly, getD_ofCoeff, Polynomial.coeff_monomial]
  by_cases h : i = e
  · subst h; simp
  · rw [if_neg h, if_neg (fun h' => h h'.symm)]

theorem toPoly_one : toPoly one = 1 := by
  unfold one
  rw [toPoly_ofCoeff]
  rfl

theorem getD_set_add (q : List ℚ) (d : ℕ) (f : ℚ) (hd : d < q.length) (i : ℕ) :
    (q.set d (q.getD d 0 + f)).getD i 0 = q.getD i 0 + if i = d then f else 0 := by
  rw [List.getD_eq_getElem?_getD, List.getElem?_set]
  by_cases h : d = i
  · subst h
    simp [hd]
  · rw [if_neg h, if_neg (fun h' => h h'.symm), ← List.getD_eq_getElem?_getD]
    simp

theorem toPoly_set_add (q : List ℚ) (d : ℕ) (f : ℚ) (hd : d < q.length) :
    toPoly (q.set d (q.getD d 0 + f)) = toPoly q + Polynomial.monomial d f := by
  ext i
  rw [coeff_add, coeff_toPoly, coeff_toPoly, getD_set_add q d f hd, Polynomial.coeff_monomial]
  by_cases h : i = d
  · subst h; simp
  · rw [if_neg h, if_neg (fun h' => h h'.symm)]

/-! ### accessors -/

theorem lcoeff_eq {p : List ℚ} (hp : WellFormed p) (hne : p ≠ []) :
    lcoeff p = Except.ok (toPoly p).leadingCoeff := by
  unfold lcoeff
  rw [leadingCoeff_toPoly hp hne]
  rfl

theorem degree_eq {p : List ℚ} (dz : ℕ) (hp : WellFormed p) (hne : p ≠ []) :
    degree dz p = (toPoly p).natDegree := by
  unfold degree
  rw [natDegree_toPoly hp hne]
  simp [hne]

theorem degree_eq_length {p : List ℚ} (dz : ℕ) (hne : p ≠ []) :
    degree dz p = p.length - 1 := by
  unfold degree
  simp [hne]

/-! ## `divide` -/

theorem lcoeff_getD {p : List ℚ} (hne : p ≠ []) :
    lcoeff p = Except.ok (p.getD (p.length - 1) 0) := by
  unfold lcoeff
  rw [getLast?_eq_getD p hne]
  rfl

theorem getD_last_ne_zero {p : List ℚ} (hp : WellFormed p) (hne : p ≠ []) :
    p.getD (p.length - 1) 0 ≠ 0 := by
  intro h
  apply hp
  rw [getLast?_eq_getD p hne, h]

theorem wellFormed_of_getD_last {p : List ℚ} (h : p.getD (p.length - 1) 0 ≠ 0) :
    WellFormed p := by
  by_cases hne : p = []
  · subst hne; exact wellFormed_nil
  · intro h'
    rw [getLast?_eq_getD p hne] at h'
    exact h (Option.some.inj h')

theorem divideLoop_step (dz : ℕ) (d : List ℚ) (fuel : ℕ) (quot rem : List ℚ)
    (hdne : d ≠ []) (hrne : rem ≠ []) (hd : d.getD (d.length - 1) 0 ≠ 0)
    (hq : rem.length - d.length < quot.length) :
    divideLoop dz d (fuel + 1) ⟨quot, rem⟩ =
      (let factor := rem.getD (rem.length - 1) 0 / d.getD (d.length - 1) 0
       let degdiff := rem.length - 1 - (d.length - 1)
       let remainder := subAssign rem (mul (ofCoeff factor degdiff) d)
       let quot' := quot.set degdiff (quot.getD degdiff 0 + factor)
       if decide (degree dz d ≤ degree dz remainder) && !isZero remainder then
         divideLoop dz d fuel ⟨quot', remainder⟩
       else pure ⟨quot', remainder⟩) := by
  have hq' : rem.length - 1 - (d.length - 1) < quot.length := by
    have := List.length_pos.mpr hdne
    have := List.length_pos.mpr hrne
    omega
  simp only [divideLoop, lcoeff_getD hrne, lcoeff_getD hdne, quotientQ, hd, if_false,
    degree_eq_length dz hrne, degree_eq_length dz hdne, bind, Except.bind, hq', if_true]
  rfl

theorem getD_mul_ofCoeff (c : ℚ) (k : ℕ) (d : List ℚ) (i : ℕ) :
    (mul (ofCoeff c k) d).getD i 0 = if k ≤ i then c * d.getD (i - k) 0 else 0 := by
  rw [← coeff_toPoly, toPoly_mul, toPoly_ofCoeff, ← Polynomial.C_mul_X_pow_eq_monomial, mul_assoc,
    Polynomial.coeff_C_mul, Polynomial.coeff_X_pow_mul', coeff_toPoly]
  split_ifs <;> simp

/-- One elimination step of `divide` shortens a well-formed remainder. -/
theorem divide_step_length (d rem : List ℚ) (hdne : d ≠ []) (hrne : rem ≠ [])
    (hr : WellFormed rem) (hd : d.getD (d.length - 1) 0 ≠ 0) (hle : d.length ≤ rem.length) :
    (subAssign rem (mul (ofCoeff (rem.getD (rem.length - 1) 0 / d.getD (d.length - 1) 0)
      (rem.length - 1 - (d.length - 1))) d)).length < rem.length := by
  have hdl := List.length_pos.mpr hdne
  have hrl := List.length_pos.mpr hrne
  have hwf := wellFormed_subAssign hr
    (mul (ofCoeff (rem.getD (rem.length - 1) 0 / d.getD (d.length - 1) 0)
      (rem.length - 1 - (d.length - 1))) d)
  have := length_le_of_getD_eq_zero hwf (n := rem.length - 1) (by
    intro i hi
    rw [← coeff_toPoly, toPoly_subAssign, coeff_sub, coeff_toPoly, coeff_toPoly,
      getD_mul_ofCoeff, if_pos (by omega)]
    rcases Nat.eq_or_lt_of_le hi with h | h
    · rw [← h]
      have : rem.length - 1 - (rem.length - 1 - (d.length - 1)) = d.length - 1 := by omega
      rw [this, div_mul_cancel₀ _ hd, sub_self]
    · have h1 : rem.length ≤ i := by omega
      have h2 : d.length ≤ i - (rem.length - 1 - (d.length - 1)) := by omega
      rw [List.getD_eq_default rem 0 h1, List.getD_eq_default d 0 h2]
      simp)
  omega

theorem divideLoop_spec (dz : ℕ) (d : List ℚ) (hd : WellFormed d) (hdne : d ≠ []) :
    ∀ (fuel : ℕ) (quot rem : List ℚ), WellFormed rem → rem ≠ [] → d.length ≤ rem.length →
      rem.length ≤ fuel → rem.length - d.length < quot.length →
      ∃ res, divideLoop dz d fuel ⟨quot, rem⟩ = Except.ok res ∧
        toPoly d * toPoly res.quotient + toPoly res.remainder
          = toPoly d * toPoly quot + toPoly rem ∧
        WellFormed res.remainder ∧ res.remainder.length < d.length ∧
        res.quotient.length = quot.length := by
  have hd0 := getD_last_ne_zero hd hdne
  have hdl := List.length_pos.mpr hdne
  intro fuel
  induction fuel with
  | zero =>
    intro quot rem _ hrne _ hf _
    exact absurd (List.length_eq_zero.mp (Nat.le_zero.mp hf)) hrne
  | succ fuel ih =>
    intro quot rem hr hrne hle hf hq
    have hrl := List.length_pos.mpr hrne
    rw [divideLoop_step dz d fuel quot rem hdne hrne hd0 hq]
    have hlen := divide_step_length d rem hdne hrne hr hd0 hle
    have hwf := wellFormed_subAssign hr
      (mul (ofCoeff (rem.getD (rem.length - 1) 0 / d.getD (d.length - 1) 0)
        (rem.length - 1 - (d.length - 1))) d)
    have hq' : rem.length - 1 - (d.length - 1) < quot.length := by omega
    simp only []
    generalize hrem' : subAssign rem (mul (ofCoeff (rem.getD (rem.length - 1) 0 /
      d.getD (d.length - 1) 0) (rem.length - 1 - (d.length - 1))) d) = rem' at hlen hwf ⊢
    generalize hfac : rem.getD (rem.length - 1) 0 / d.getD (d.length - 1) 0 = factor at hrem'
    have hpoly : toPoly d * toPoly (quot.set (rem.length - 1 - (d.length - 1))
          (quot.getD (rem.length - 1 - (d.length - 1)) 0 + factor)) + toPoly rem'
        = toPoly d * toPoly quot + toPoly rem := by
      rw [toPoly_set_add _ _ _ hq', ← hrem', toPoly_subAssign, toPoly_mul, toPoly_ofCoeff]
      ring
    by_cases hcond : (decide (degree dz d ≤ degree dz rem') && !isZero rem') = true
    · rw [if_pos hcond]
      simp only [Bool.and_eq_true, decide_eq_true_eq, Bool.not_eq_true', ] at hcond
      have hne' : rem' ≠ [] := by
        intro h
        have := (isZero_iff rem').mpr h
        rw [this] at hcond
        exact absurd hcond.2 (by simp)
      have hrl' := List.length_pos.mpr hne'
      have hle' : d.length ≤ rem'.length := by
        have := hcond.1
        rw [degree_eq_length dz hdne, degree_eq_length dz hne'] at this
        omega
      obtain ⟨res, h1, h2, h3, h4, h5⟩ := ih
        (quot.set (rem.length - 1 - (d.length - 1))
          (quot.getD (rem.length - 1 - (d.length - 1)) 0 + factor))
        rem' hwf hne' hle' (by omega) (by rw [List.length_set]; omega)
      refine ⟨res, h1, ?_, h3, h4, ?_⟩
      · rw [h2, hpoly]
      · rw [h5, List.length_set]
    · rw [if_neg hcond]
      refine ⟨_, rfl, hpoly, hwf, ?_, by simp⟩
      simp only [Bool.and_eq_true, decide_eq_true_eq, Bool.not_eq_true', not_and] at hcond
      by_cases hne' : rem' = []
      · rw [hne']; simpa using hdl
      · have hrl' := List.length_pos.mpr hne'
        by_contra hcon
        have h1 : degree dz d ≤ degree dz rem' := by
          rw [degree_eq_length dz hdne, degree_eq_length dz hne']
          simp only [] at hcon
          omega
        have := hcond h1
        simp only [Bool.not_eq_false] at this
        exact hne' ((isZero_iff rem').mp this)

theorem bind_ok {α β : Type} (a : α) (f : α → Except Fault β) :
    (Except.ok a >>= f) = f a := rfl

theorem pure_eq_ok {α : Type} (a : α) : (pure a : Except Fault α) = Except.ok a := rfl

theorem assertThat_of {b : Bool} (h : b = true) : assertThat b = Except.ok () := by
  subst h; rfl

theorem toPoly_replicate_zero (n : ℕ) : toPoly (List.replicate n 0) = 0 := by
  ext i
  rw [coeff_toPoly, coeff_zero]
  rcases lt_or_ge i n with h | h
  · rw [List.getD_eq_getElem _ _ (by simpa using h)]; simp
  · rw [List.getD_eq_default _ _ (by simpa using h)]

/-- The identity `dividend == divisor*quotient + remainder` on coefficient vectors follows
from the identity in `ℚ[X]`. -/
theorem eq_add_mul_of_toPoly {p d q r : List ℚ} (hp : WellFormed p)
    (h : toPoly p = toPoly d * toPoly q + toPoly r) : p = add (mul d q) r :=
  toPoly_injective hp (wellFormed_add_mul d q r) (by rw [toPoly_add, toPoly_mul, h])

/-- The quotient of a division with small remainder is well-formed when its length is
right. -/
theorem wellFormed_quotient {p d q r : List ℚ} (hp : WellFormed p) (hpne : p ≠ [])
    (hdne : d ≠ []) (hle : d.length ≤ p.length)
    (h : toPoly p = toPoly d * toPoly q + toPoly r) (hr : r.length < d.length)
    (hq : q.length = 1 + p.length - d.length) : WellFormed q := by
  have hdl := List.length_pos.mpr hdne
  have hpl := List.length_pos.mpr hpne
  apply wellFormed_of_getD_last
  intro h0
  have hc := congrArg (fun f => Polynomial.coeff f (p.length - 1)) h
  simp only [coeff_add, coeff_toPoly] at hc
  rw [List.getD_eq_default r 0 (by omega)] at hc
  rw [← coeff_toPoly, Polynomial.coeff_mul,
    Finset.Nat.sum_antidiagonal_eq_sum_range_succ
      (fun i j => (toPoly d).coeff i * (toPoly q).coeff j)] at hc
  rw [Finset.sum_eq_zero] at hc
  · rw [coeff_toPoly] at hc
    simp only [add_zero] at hc
    exact getD_last_ne_zero hp hpne hc
  · intro i _
    simp only [coeff_toPoly]
    rcases lt_trichotomy i (d.length - 1) with hi | hi | hi
    · rw [List.getD_eq_default q 0 (by omega)]; simp
    · have : p.length - 1 - i = q.length - 1 := by omega
      rw [this, h0]; simp
    · rw [List.getD_eq_default d 0 (by omega)]; simp

theorem divide_spec (dz fuel : ℕ) (p d : List ℚ) (hp : WellFormed p) (hpne : p ≠ [])
    (hd : WellFormed d) (hdne : d ≠ []) (hf : p.length ≤ fuel) :
    ∃ res, divide dz fuel p d = Except.ok res ∧
      p = add (mul d res.quotient) res.remainder ∧
      toPoly p = toPoly d * toPoly res.quotient + toPoly res.remainder ∧
      WellFormed res.quotient ∧ WellFormed res.remainder ∧
      res.remainder.length < d.length := by
  have hdl := List.length_pos.mpr hdne
  have hpl := List.length_pos.mpr hpne
  have hz : (!isZero d) = true := by
    simp only [Bool.not_eq_true']
    cases h : isZero d
    · rfl
    · exact absurd ((isZero_iff d).mp h) hdne
  have h0 : p = add (mul d []) p :=
    eq_add_mul_of_toPoly hp (by rw [toPoly_nil]; ring)
  unfold divide
  rw [assertThat_of hz, bind_ok, assertThat_of (decide_eq_true h0), bind_ok,
    degree_eq_length dz hdne, degree_eq_length dz hpne]
  by_cases hlt : d.length - 1 > p.length - 1
  · rw [if_pos hlt]
    refine ⟨⟨[], p⟩, rfl, h0, by rw [toPoly_nil]; ring, wellFormed_nil, hp, by simp only []; omega⟩
  · rw [if_neg hlt, if_neg (by omega)]
    obtain ⟨res, h1, h2, h3, h4, h5⟩ := divideLoop_spec dz d hd hdne fuel
      (List.replicate (1 + p.length - d.length) 0) p hp hpne (by omega) hf
      (by rw [List.length_replicate]; omega)
    rw [toPoly_replicate_zero] at h2
    have hpoly : toPoly p = toPoly d * toPoly res.quotient + toPoly res.remainder := by
      rw [h2]; ring
    have hid := eq_add_mul_of_toPoly hp hpoly
    refine ⟨res, ?_, hid, hpoly, ?_, h3, h4⟩
    · rw [h1, bind_ok, assertThat_of (decide_eq_true hid), bind_ok, pure_eq_ok]
    · exact wellFormed_quotient hp hpne hdne (by omega) hpoly h4
        (by rw [h5, List.length_replicate])

/-! ## `extended_gcd` -/

theorem div_eq (p : List ℚ) {c : ℚ} (hc : c ≠ 0) :
    div p c = Except.ok (p.map (fun a => a / c)) := by
  have h : (c != 0) = true := by simpa using hc
  unfold div divAssign
  rw [assertThat_of h, bind_ok, bind_ok, pure_eq_ok]

theorem normalized_eq {p : List ℚ} (hp : WellFormed p) (hne : p ≠ []) :
    normalized p = Except.ok (p.map (fun a => a / p.getD (p.length - 1) 0)) := by
  unfold normalized
  have hz : ¬ (isZero p = true) := fun h => hne ((isZero_iff p).mp h)
  rw [if_neg hz, lcoeff_getD hne, bind_ok, div_eq p (getD_last_ne_zero hp hne)]

theorem wellFormed_map_div {p : List ℚ} (hp : WellFormed p) {c : ℚ} (hc : c ≠ 0) :
    WellFormed (p.map (fun a => a / c)) :=
  wellFormed_map hp _ (fun _ ha => div_ne_zero ha hc)

theorem isUnit_C_of_ne {c : ℚ} (hc : c ≠ 0) : IsUnit (Polynomial.C c) :=
  Polynomial.isUnit_C.mpr (isUnit_iff_ne_zero.mpr hc)

theorem dvd_C_mul_iff {c : ℚ} (hc : c ≠ 0) (h f : Polynomial ℚ) :
    h ∣ Polynomial.C c * f ↔ h ∣ f :=
  (isUnit_C_of_ne hc).dvd_mul_left

theorem extendedGcdLoop_spec (dz divFuel : ℕ) (X Y : Polynomial ℚ) :
    ∀ (fuel : ℕ) (st : EgcdState), WellFormed st.c → st.c ≠ [] → WellFormed st.d →
      st.d.length ≤ fuel → st.c.length ≤ divFuel → st.d.length ≤ divFuel →
      toPoly st.c = toPoly st.c1 * X + toPoly st.c2 * Y →
      toPoly st.d = toPoly st.d1 * X + toPoly st.d2 * Y →
      ∃ st', extendedGcdLoop dz divFuel fuel st = Except.ok st' ∧
        WellFormed st'.c ∧ st'.c ≠ [] ∧
        toPoly st'.c = toPoly st'.c1 * X + toPoly st'.c2 * Y ∧
        (∀ h, h ∣ toPoly st'.c ↔ h ∣ toPoly st.c ∧ h ∣ toPoly st.d) := by
  intro fuel
  induction fuel with
  | zero =>
    intro st hc hcne _ hf _ _ hX _
    have hdn : st.d = [] := List.length_eq_zero.mp (Nat.le_zero.mp hf)
    refine ⟨st, ?_, hc, hcne, hX, ?_⟩
    · unfold extendedGcdLoop
      rw [if_pos ((isZero_iff _).mpr hdn), pure_eq_ok]
    · intro h
      rw [hdn, toPoly_nil]
      simp
  | succ fuel ih =>
    intro st hc hcne hd hf hcf hdf hX hY
    by_cases hdn : st.d = []
    · refine ⟨st, ?_, hc, hcne, hX, ?_⟩
      · unfold extendedGcdLoop
        rw [if_pos ((isZero_iff _).mpr hdn), pure_eq_ok]
      · intro h
        rw [hdn, toPoly_nil]
        simp
    · obtain ⟨res, h1, _, h3, _, h5, h6⟩ := divide_spec dz divFuel st.c st.d hc hcne hd hdn hcf
      have hass : res.remainder = sub st.c (mul res.quotient st.d) :=
        toPoly_injective h5 (wellFormed_subAssign hc _) (by
          rw [toPoly_sub, toPoly_mul, h3]; ring)
      obtain ⟨st', e1, e2, e3, e4, e5⟩ := ih
        ⟨normalizeCoefficients st.d, normalizeCoefficients res.remainder, st.d1, st.d2,
          sub st.c1 (mul res.quotient st.d1), sub st.c2 (mul res.quotient st.d2)⟩
        hd hdn h5 (by simp only [normalizeCoefficients]; omega) hdf
        (by simp only [normalizeCoefficients]; omega) hY (by
          simp only [normalizeCoefficients]
          rw [toPoly_sub, toPoly_sub, toPoly_mul, toPoly_mul]
          have : toPoly res.remainder = toPoly st.c - toPoly res.quotient * toPoly st.d := by
            rw [h3]; ring
          rw [this, hX, hY]; ring)
      refine ⟨st', ?_, e2, e3, e4, ?_⟩
      · unfold extendedGcdLoop
        rw [if_neg (fun h => hdn ((isZero_iff _).mp h)), h1, bind_ok,
          assertThat_of (decide_eq_true hass), bind_ok]
        exact e1
      · intro h
        rw [e5 h]
        simp only [normalizeCoefficients]
        rw [h3]
        constructor
        · rintro ⟨hd', hr'⟩
          exact ⟨dvd_add (dvd_mul_of_dvd_left hd' _) hr', hd'⟩
        · rintro ⟨hc', hd'⟩
          exact ⟨hd', (dvd_add_right (dvd_mul_of_dvd_left hd' _)).mp hc'⟩

/-- What `extended_gcd` computes on nonzero well-formed operands. -/
theorem extended_gcd_spec (dz fuel : ℕ) (a b : List ℚ) (ha : WellFormed a) (hane : a ≠ [])
    (hb : WellFormed b) (hbne : b ≠ []) (hfa : a.length ≤ fuel) (hfb : b.length ≤ fuel) :
    ∃ res, extended_gcd dz fuel a b = Except.ok res ∧
      res.g = add (mul res.s a) (mul res.t b) ∧
      WellFormed res.g ∧ res.g ≠ [] ∧ (toPoly res.g).Monic ∧
      (∀ h, h ∣ toPoly res.g ↔ h ∣ toPoly a ∧ h ∣ toPoly b) := by
  have hla := getD_last_ne_zero ha hane
  have hlb := getD_last_ne_zero hb hbne
  obtain ⟨st, e1, e2, e3, e4, e5⟩ := extendedGcdLoop_spec dz fuel
    (toPoly (a.map (fun x => x / a.getD (a.length - 1) 0)))
    (toPoly (b.map (fun x => x / b.getD (b.length - 1) 0))) fuel
    ⟨a.map (fun x => x / a.getD (a.length - 1) 0),
      b.map (fun x => x / b.getD (b.length - 1) 0), one, [], [], one⟩
    (wellFormed_map_div ha hla) (by simpa using hane) (wellFormed_map_div hb hlb)
    (by simpa using hfb) (by simpa using hfa) (by simpa using hfb)
    (by simp only [toPoly_one, toPoly_nil]; ring) (by simp only [toPoly_one, toPoly_nil]; ring)
  have hlc := getD_last_ne_zero e2 e3
  have hg : toPoly (st.c.map (fun x => x / (st.c.getD (st.c.length - 1) 0)))
      = toPoly (st.c1.map (fun x => x / ((a.getD (a.length - 1) 0) * (st.c.getD (st.c.length - 1) 0)))) * toPoly a
        + toPoly (st.c2.map (fun x => x / ((b.getD (b.length - 1) 0) * (st.c.getD (st.c.length - 1) 0)))) * toPoly b := by
    rw [toPoly_map_div, toPoly_map_div, toPoly_map_div, e4, toPoly_map_div, toPoly_map_div,
      mul_inv, mul_inv, Polynomial.C_mul, Polynomial.C_mul]
    ring
  have hwf : WellFormed (st.c.map (fun x => x / (st.c.getD (st.c.length - 1) 0))) := wellFormed_map_div e2 hlc
  have hid : st.c.map (fun x => x / (st.c.getD (st.c.length - 1) 0))
      = add (mul (st.c1.map (fun x => x / ((a.getD (a.length - 1) 0) * (st.c.getD (st.c.length - 1) 0)))) a)
          (mul (st.c2.map (fun x => x / ((b.getD (b.length - 1) 0) * (st.c.getD (st.c.length - 1) 0)))) b) :=
    toPoly_injective hwf (wellFormed_add_mul _ _ _)
      (by rw [toPoly_add, toPoly_mul, toPoly_mul, hg])
  refine ⟨⟨st.c.map (fun x => x / (st.c.getD (st.c.length - 1) 0)), st.c1.map (fun x => x / ((a.getD (a.length - 1) 0) * (st.c.getD (st.c.length - 1) 0))),
    st.c2.map (fun x => x / ((b.getD (b.length - 1) 0) * (st.c.getD (st.c.length - 1) 0)))⟩, ?_, hid, hwf, by simpa using e3, ?_, ?_⟩
  · unfold extended_gcd
    simp only [normalizeCoefficients]
    rw [normalized_eq ha hane, bind_ok, normalized_eq hb hbne, bind_ok, e1, bind_ok,
      lcoeff_getD e3, bind_ok, lcoeff_getD hane, bind_ok, div_eq _ (mul_ne_zero hla hlc), bind_ok,
      lcoeff_getD hbne, bind_ok, div_eq _ (mul_ne_zero hlb hlc), bind_ok,
      normalized_eq e2 e3, bind_ok, assertThat_of (decide_eq_true hid), bind_ok, pure_eq_ok]
  · show (toPoly (st.c.map (fun x => x / (st.c.getD (st.c.length - 1) 0)))).Monic
    rw [toPoly_map_div, Polynomial.Monic, Polynomial.leadingCoeff_mul, Polynomial.leadingCoeff_C]
    have := leadingCoeff_toPoly e2 e3
    rw [getLast?_eq_getD _ e3] at this
    rw [← Option.some.inj this]
    exact inv_mul_cancel₀ hlc
  · intro h
    show h ∣ toPoly (st.c.map (fun x => x / (st.c.getD (st.c.length - 1) 0))) ↔ _
    rw [toPoly_map_div, dvd_C_mul_iff (inv_ne_zero hlc), e5 h]
    simp only []
    rw [toPoly_map_div, toPoly_map_div, dvd_C_mul_iff (inv_ne_zero hla),
      dvd_C_mul_iff (inv_ne_zero hlb)]

/-! ## `derivative` and `coprimeFactor` -/

/-! ### derivative -/

theorem getD_derivativeOne (l : List ℚ) (k i : ℕ) :
    (derivativeOne l k).getD i 0 = ((k + i + 1 : ℕ) : ℚ) * l.getD i 0 := by
  induction l generalizing k i with
  | nil => simp [derivativeOne]
  | cons a l ih =>
    cases i with
    | zero => simp [derivativeOne]
    | succ j =>
      simp only [derivativeOne, List.getD_cons_succ]
      rw [ih]
      congr 2
      omega

theorem derivativeOne_length (l : List ℚ) (k : ℕ) : (derivativeOne l k).length = l.length := by
  induction l generalizing k with
  | nil => simp [derivativeOne]
  | cons a l ih => simp [derivativeOne, ih]

theorem derivative_one_eq {p : List ℚ} (hne : p ≠ []) :
    derivative 1 p = Except.ok (derivativeOne (p.drop 1) 0) := by
  have := List.length_pos.mpr hne
  unfold derivative
  rw [if_neg (by omega), if_pos rfl, pure_eq_ok]

theorem toPoly_derivativeOne (p : List ℚ) :
    toPoly (derivativeOne (p.drop 1) 0) = Polynomial.derivative (toPoly p) := by
  ext i
  rw [coeff_toPoly, getD_derivativeOne, Polynomial.coeff_derivative, coeff_toPoly]
  have : (p.drop 1).getD i 0 = p.getD (i + 1) 0 := by
    rw [List.getD_eq_getElem?_getD, List.getD_eq_getElem?_getD, List.getElem?_drop, add_comm]
  rw [this]
  push_cast
  ring

theorem getD_drop_one (p : List ℚ) (i : ℕ) : (p.drop 1).getD i 0 = p.getD (i + 1) 0 := by
  rw [List.getD_eq_getElem?_getD, List.getD_eq_getElem?_getD, List.getElem?_drop, add_comm]

theorem wellFormed_derivativeOne {p : List ℚ} (hp : WellFormed p) :
    WellFormed (derivativeOne (p.drop 1) 0) := by
  by_cases h : p.length ≤ 1
  · have h0 : (List.drop 1 p).length = 0 := by rw [List.length_drop]; omega
    rw [List.length_eq_zero.mp h0]
    exact wellFormed_nil
  · have hne : p ≠ [] := by
      intro h'; subst h'; simp at h
    apply wellFormed_of_getD_last
    rw [getD_derivativeOne, derivativeOne_length, getD_drop_one, List.length_drop]
    have h1 : p.length - 1 - 1 + 1 = p.length - 1 := by omega
    rw [h1]
    apply mul_ne_zero
    · have : (0 + (p.length - 1 - 1) + 1 : ℕ) ≠ 0 := by omega
      exact_mod_cast this
    · exact getD_last_ne_zero hp hne

theorem derivativeOne_ne_nil {p : List ℚ} (h : 2 ≤ p.length) :
    derivativeOne (p.drop 1) 0 ≠ [] := by
  intro h'
  have := congrArg List.length h'
  rw [derivativeOne_length, List.length_drop] at this
  simp at this
  omega

/-! ### `coprimeFactor` of a monic polynomial -/

theorem coprimeFactor_fold_den (rest : List ℚ) (n d : ℤ) (hd : 0 < d) :
    0 < (rest.foldl (fun (nd : ℤ × ℤ) c => (gcdZ nd.1 (getNum c), lcmZ nd.2 (getDenom c)))
      (n, d)).2 := by
  induction rest generalizing n d with
  | nil => simpa using hd
  | cons a rest ih =>
    rw [List.foldl_cons]
    apply ih
    unfold lcmZ getDenom
    have h0 : Int.lcm d (a.den : ℤ) ≠ 0 := by
      unfold Int.lcm
      apply Nat.lcm_ne_zero
      · exact Int.natAbs_ne_zero.mpr (ne_of_gt hd)
      · simp
    have : 0 < Int.lcm d (a.den : ℤ) := Nat.pos_of_ne_zero h0
    exact_mod_cast this

theorem coprimeFactor_fold_num (l : List ℚ) (n d : ℤ) :
    ((l ++ [1]).foldl (fun (nd : ℤ × ℤ) c => (gcdZ nd.1 (getNum c), lcmZ nd.2 (getDenom c)))
      (n, d)).1 = 1 := by
  rw [List.foldl_append]
  simp [gcdZ, getNum]

theorem quotient_one_right {n : ℤ} (hn : 0 < n) : quotient n 1 = Except.ok n := by
  unfold quotient
  rw [if_neg one_ne_zero]
  have h1 : decide (n < 0) = decide ((1 : ℤ) < 0) := by
    rw [decide_eq_false (not_lt.mpr (le_of_lt hn)), decide_eq_false (by norm_num)]
  simp only [h1, if_true, pure_eq_ok]
  congr 1
  simp only [Int.natAbs_one, Nat.div_one]
  exact Int.natAbs_of_nonneg (le_of_lt hn)

/-- On a polynomial with leading coefficient 1, `coprimeFactor` is a positive integer. -/
theorem coprimeFactor_monic {g : List ℚ} (hg : g.getLast? = some 1) :
    ∃ n : ℤ, 0 < n ∧ coprimeFactor g = Except.ok (n : ℚ) := by
  cases g with
  | nil => simp at hg
  | cons a rest =>
    unfold coprimeFactor
    simp only []
    by_cases hr : rest = []
    · subst hr
      have ha : a = 1 := by simpa using hg
      subst ha
      refine ⟨1, one_pos, ?_⟩
      simp [getNum, getDenom, quotient, bind_ok, pure_eq_ok]
    · obtain ⟨l, x, rfl⟩ : ∃ l x, rest = l ++ [x] := by
        refine ⟨rest.dropLast, rest.getLast hr, ?_⟩
        exact (List.dropLast_append_getLast hr).symm
      have hx : x = 1 := by
        rw [← List.cons_append, List.getLast?_append] at hg
        simpa using hg
      subst hx
      have hnum := coprimeFactor_fold_num l (getNum a) (getDenom a)
      have hden := coprimeFactor_fold_den (l ++ [1]) (getNum a) (getDenom a)
        (by unfold getDenom; exact_mod_cast a.den_pos)
      refine ⟨_, hden, ?_⟩
      rw [hnum, quotient_one_right hden, bind_ok, pure_eq_ok]

/-! ## Exact division and the invariant of the square free factorization -/

/-! ### exact division -/

theorem divide_exact (dz fuel : ℕ) (p d : List ℚ) (hp : WellFormed p) (hpne : p ≠ [])
    (hd : WellFormed d) (hdne : d ≠ []) (hf : p.length ≤ fuel)
    (hdvd : toPoly d ∣ toPoly p) :
    ∃ res, divide dz fuel p d = Except.ok res ∧ res.remainder = [] ∧
      toPoly p = toPoly d * toPoly res.quotient ∧
      WellFormed res.quotient ∧ res.quotient ≠ [] := by
  obtain ⟨res, h1, _, h3, h4, h5, h6⟩ := divide_spec dz fuel p d hp hpne hd hdne hf
  have hr : res.remainder = [] := by
    by_contra hne
    have hdr : toPoly d ∣ toPoly res.remainder := by
      have : toPoly res.remainder = toPoly p - toPoly d * toPoly res.quotient := by
        rw [h3]; ring
      rw [this]
      exact dvd_sub hdvd (dvd_mul_right _ _)
    have := Polynomial.natDegree_le_of_dvd hdr (toPoly_ne_zero h5 hne)
    rw [natDegree_toPoly hd hdne, natDegree_toPoly h5 hne] at this
    have := List.length_pos.mpr hne
    omega
  have hpoly : toPoly p = toPoly d * toPoly res.quotient := by
    rw [h3, hr, toPoly_nil, add_zero]
  refine ⟨res, h1, hr, hpoly, h4, ?_⟩
  intro hq
  rw [hq, toPoly_nil, mul_zero] at hpoly
  exact toPoly_ne_zero hp hpne hpoly

/-! ### products of powers -/

theorem toPoly_power (f : List ℚ) (n : ℕ) : toPoly (power f n) = toPoly f ^ n := by
  induction n with
  | zero => simp [power, toPoly_one]
  | succ n ih => rw [power, toPoly_mul, ih, pow_succ]

theorem toPoly_productOfPowers_append (l : List (ℕ × List ℚ)) (i : ℕ) (g : List ℚ) :
    toPoly (productOfPowers (l ++ [(i, g)])) = toPoly (productOfPowers l) * toPoly g ^ i := by
  induction l with
  | nil => simp [productOfPowers, toPoly_mul, toPoly_power, toPoly_one]
  | cons e l ih =>
    rw [List.cons_append, productOfPowers, productOfPowers, toPoly_mul, toPoly_mul, ih]
    ring

theorem wellFormed_productOfPowers (l : List (ℕ × List ℚ)) :
    WellFormed (productOfPowers l) := by
  cases l with
  | nil =>
    unfold productOfPowers one ofCoeff
    simp [WellFormed]
  | cons e l => exact wellFormed_mul _ _

/-! ### insertion into the result map -/

theorem mapInsert_append (i : ℕ) (g : List ℚ) (result : List (ℕ × List ℚ))
    (h : ∀ e ∈ result, e.1 < i) :
    (mapInsert ltUnsigned i g result).1 = result ++ [(i, g)] := by
  induction result with
  | nil => simp [mapInsert]
  | cons e rest ih =>
    obtain ⟨k, v⟩ := e
    have hk : k < i := h (k, v) (List.mem_cons_self _ _)
    unfold mapInsert
    have h1 : ltUnsigned i k = false := by
      unfold ltUnsigned; simp; omega
    have h2 : ltUnsigned k i = true := by
      unfold ltUnsigned; simp; omega
    simp only [h1, h2, if_true, Bool.false_eq_true, if_false, List.cons_append]
    rw [ih (fun e he => h e (List.mem_cons_of_mem _ he))]

theorem all_ne_of_lt (i : ℕ) (result : List (ℕ × List ℚ)) (h : ∀ e ∈ result, e.1 < i) :
    result.all (fun entry => entry.1 != i) = true := by
  rw [List.all_eq_true]
  intro e he
  have := h e he
  simp only [bne_iff_ne, ne_eq]
  omega

/-! ### the invariant of Yun's algorithm in `ℚ[X]` -/

theorem yun_step (W Z C G W' Y' : Polynomial ℚ) (hW : W ≠ 0) (hC : C ≠ 0) (hZ : Z ≠ 0)
    (hI : Z * C = W * Polynomial.derivative C)
    (hgcd : ∀ h, h ∣ W → h ∣ Z → h ∣ G) (hW' : W = G * W') (hY' : Z = G * Y') :
    ∃ Cn, C = W' * Cn ∧ Cn ≠ 0 ∧
      (Y' - Polynomial.derivative W') * Cn = W' * Polynomial.derivative Cn ∧
      Cn.natDegree < C.natDegree := by
  have hG : G ≠ 0 := by
    intro h; rw [h, zero_mul] at hW'; exact hW hW'
  have hW0 : W' ≠ 0 := by
    intro h; rw [h, mul_zero] at hW'; exact hW hW'
  have hY0 : Y' ≠ 0 := by
    intro h; rw [h, mul_zero] at hY'; exact hZ hY'
  have hI' : Y' * C = W' * Polynomial.derivative C := by
    apply mul_left_cancel₀ hG
    rw [← mul_assoc, ← mul_assoc, ← hW', ← hY', hI]
  have hcop : IsCoprime W' Y' := by
    apply EuclideanDomain.isCoprime_of_dvd
    · intro h; exact hW0 h.1
    · intro z hz _ hzW hzY
      apply hz
      have h1 : G * z ∣ W := by rw [hW']; exact mul_dvd_mul_left G hzW
      have h2 : G * z ∣ Z := by rw [hY']; exact mul_dvd_mul_left G hzY
      have h3 : G * z ∣ G * 1 := by rw [mul_one]; exact hgcd _ h1 h2
      exact isUnit_of_dvd_one ((mul_dvd_mul_iff_left hG).mp h3)
  have hdvd : W' ∣ C := by
    apply hcop.dvd_of_dvd_mul_left
    rw [hI']
    exact dvd_mul_right _ _
  obtain ⟨Cn, hCn⟩ := hdvd
  have hCn0 : Cn ≠ 0 := by
    intro h; rw [h, mul_zero] at hCn; exact hC hCn
  have hrel : (Y' - Polynomial.derivative W') * Cn = W' * Polynomial.derivative Cn := by
    apply mul_left_cancel₀ hW0
    have := hI'
    rw [hCn, Polynomial.derivative_mul] at this
    linear_combination this
  refine ⟨Cn, hCn, hCn0, hrel, ?_⟩
  rw [hCn, Polynomial.natDegree_mul hW0 hCn0]
  have hpos : 0 < W'.natDegree := by
    by_contra h0
    have h0' : W'.natDegree = 0 := by omega
    have hWc := Polynomial.eq_C_of_natDegree_eq_zero h0'
    have hd0 : Polynomial.derivative W' = 0 := by rw [hWc]; simp
    rw [hd0, sub_zero] at hrel
    have hdeg : (Y' * Cn).natDegree = (W' * Polynomial.derivative Cn).natDegree := by rw [hrel]
    by_cases hcn : Cn.natDegree = 0
    · have : Polynomial.derivative Cn = 0 := by
        rw [Polynomial.eq_C_of_natDegree_eq_zero hcn]; simp
      rw [this, mul_zero] at hrel
      exact mul_ne_zero hY0 hCn0 hrel
    · have hlt := Polynomial.natDegree_derivative_lt hcn
      rw [Polynomial.natDegree_mul hY0 hCn0] at hdeg
      have hle : (W' * Polynomial.derivative Cn).natDegree
          ≤ W'.natDegree + (Polynomial.derivative Cn).natDegree := Polynomial.natDegree_mul_le
      omega
  omega

theorem yun_final (W C : Polynomial ℚ) (hW : W ≠ 0) (hC : C ≠ 0)
    (hI : 0 * C = W * Polynomial.derivative C) :
    ∃ c : ℚ, c ≠ 0 ∧ C = Polynomial.C c := by
  rw [zero_mul] at hI
  have hd : Polynomial.derivative C = 0 := by
    rcases mul_eq_zero.mp hI.symm with h | h
    · exact absurd h hW
    · exact h
  have h0 := Polynomial.natDegree_eq_zero_of_derivative_eq_zero hd
  refine ⟨C.coeff 0, ?_, Polynomial.eq_C_of_natDegree_eq_zero h0⟩
  intro hc
  apply hC
  rw [Polynomial.eq_C_of_natDegree_eq_zero h0, hc, Polynomial.C_0]

/-! ## The loop of `squareFreeFactorization` -/

theorem getNum_intCast (n : ℤ) : getNum (n : ℚ) = n := by
  unfold getNum
  exact Rat.num_intCast n

/-- The polynomial `g` after `if(numOfCpf != 1) g *= (Coeff) numOfCpf`. -/
theorem scaled_props {g : List ℚ} (hg : WellFormed g) (hne : g ≠ []) {n : ℤ} (hn : 0 < n) :
    toPoly (if n ≠ 1 then mulAssignCoeff g (n : ℚ) else g) = Polynomial.C (n : ℚ) * toPoly g ∧
    WellFormed (if n ≠ 1 then mulAssignCoeff g (n : ℚ) else g) ∧
    (if n ≠ 1 then mulAssignCoeff g (n : ℚ) else g) ≠ [] := by
  have hq : (n : ℚ) ≠ 0 := by exact_mod_cast (ne_of_gt hn)
  by_cases h1 : n = 1
  · subst h1
    simp [hg, hne]
  · rw [if_pos h1]
    refine ⟨toPoly_mulAssignCoeff g _, wellFormed_mulAssignCoeff hg _, ?_⟩
    unfold mulAssignCoeff
    rw [if_neg hq]
    simpa using hne

theorem getLast?_of_monic {g : List ℚ} (hg : WellFormed g) (hne : g ≠ [])
    (hm : (toPoly g).Monic) : g.getLast? = some 1 := by
  rw [leadingCoeff_toPoly hg hne, hm.leadingCoeff]

theorem squareFreeLoop_done (dz inner fuel : ℕ) (w : List ℚ) (i : ℕ)
    (result : List (ℕ × List ℚ)) :
    squareFreeLoop dz inner fuel w [] i result
      = Except.ok (mapInsert ltUnsigned i w result).1 := by
  cases fuel <;> simp [squareFreeLoop, isZero, pure_eq_ok]

theorem squareFreeLoop_step (dz inner fuel : ℕ) (w z : List ℚ) (i : ℕ)
    (result : List (ℕ × List ℚ)) (e : EgcdResult) (n : ℤ) (r1 r2 : DivisionResult)
    (hz : z ≠ []) (he : extended_gcd dz inner w z = Except.ok e)
    (hn : coprimeFactor e.g = Except.ok (n : ℚ))
    (hall : result.all (fun entry => entry.1 != i) = true)
    (hd1 : divide dz inner w (if n ≠ 1 then mulAssignCoeff e.g (n : ℚ) else e.g) = Except.ok r1)
    (hd2 : divide dz inner z (if n ≠ 1 then mulAssignCoeff e.g (n : ℚ) else e.g) = Except.ok r2)
    (hr1 : r1.quotient ≠ []) :
    squareFreeLoop dz inner (fuel + 1) w z i result
      = squareFreeLoop dz inner fuel r1.quotient
          (sub r2.quotient (derivativeOne (r1.quotient.drop 1) 0)) (i + 1)
          (mapInsert ltUnsigned i (if n ≠ 1 then mulAssignCoeff e.g (n : ℚ) else e.g)
            result).1 := by
  conv_lhs => rw [squareFreeLoop]
  rw [if_neg (fun h => hz ((isZero_iff z).mp h)), he, bind_ok, hn, bind_ok]
  simp only [getNum_intCast]
  rw [assertThat_of hall, bind_ok, hd1, bind_ok, hd2, bind_ok, derivative_one_eq hr1, bind_ok]

theorem length_le_of_mul_eq {w g q : List ℚ} (hw : WellFormed w) (hwne : w ≠ [])
    (hq : WellFormed q) (hqne : q ≠ []) (h : toPoly w = toPoly g * toPoly q) :
    q.length ≤ w.length := by
  have hq0 := toPoly_ne_zero hq hqne
  have hw0 := toPoly_ne_zero hw hwne
  have hg0 : toPoly g ≠ 0 := by
    intro h0; rw [h0, zero_mul] at h; exact hw0 h
  have := congrArg Polynomial.natDegree h
  rw [Polynomial.natDegree_mul hg0 hq0, natDegree_toPoly hw hwne, natDegree_toPoly hq hqne] at this
  have := List.length_pos.mpr hqne
  have := List.length_pos.mpr hwne
  omega

theorem sub_derivative_length {y w : List ℚ} {m : ℕ} (hy : WellFormed y) (hym : y.length ≤ m)
    (hwm : w.length ≤ m) : (sub y (derivativeOne (w.drop 1) 0)).length ≤ m := by
  apply length_le_of_getD_eq_zero (wellFormed_subAssign hy _)
  intro i hi
  rw [← coeff_toPoly, toPoly_subAssign, coeff_sub, coeff_toPoly, coeff_toPoly,
    List.getD_eq_default y 0 (by omega),
    List.getD_eq_default _ 0 (by rw [derivativeOne_length, List.length_drop]; omega)]
  simp

theorem squareFreeLoop_spec (dz inner : ℕ) (Q : Polynomial ℚ) :
    ∀ (fuel : ℕ) (w z : List ℚ) (i : ℕ) (result : List (ℕ × List ℚ)) (Cp : Polynomial ℚ),
      WellFormed w → w ≠ [] → WellFormed z → w.length ≤ inner → z.length ≤ inner →
      Cp ≠ 0 → toPoly z * Cp = toPoly w * Polynomial.derivative Cp →
      Cp.natDegree ≤ fuel → (∀ e ∈ result, e.1 < i) →
      toPoly (productOfPowers result) * toPoly w ^ i * Cp = Q →
      ∃ res c, squareFreeLoop dz inner fuel w z i result = Except.ok res ∧ c ≠ 0 ∧
        toPoly (productOfPowers res) * Polynomial.C c = Q := by
  intro fuel
  induction fuel with
  | zero =>
    intro w z i result Cp hw hwne hz _ _ hC hI hdeg hkeys hQ
    have hc := Polynomial.eq_C_of_natDegree_eq_zero (Nat.le_zero.mp hdeg)
    have hd0 : Polynomial.derivative Cp = 0 := by rw [hc]; simp
    rw [hd0, mul_zero] at hI
    have hz0 : z = [] := by
      rcases mul_eq_zero.mp hI with h | h
      · exact (toPoly_eq_zero_iff hz).mp h
      · exact absurd h hC
    subst hz0
    refine ⟨_, Cp.coeff 0, squareFreeLoop_done dz inner 0 w i result, ?_, ?_⟩
    · intro h0; apply hC; rw [hc, h0, Polynomial.C_0]
    · rw [mapInsert_append i w result hkeys, toPoly_productOfPowers_append, ← hc, hQ]
  | succ fuel ih =>
    intro w z i result Cp hw hwne hz hwi hzi hC hI hdeg hkeys hQ
    by_cases hz0 : z = []
    · subst hz0
      rw [toPoly_nil] at hI
      obtain ⟨c, hc0, hc⟩ := yun_final (toPoly w) Cp (toPoly_ne_zero hw hwne) hC hI
      refine ⟨_, c, squareFreeLoop_done dz inner (fuel + 1) w i result, hc0, ?_⟩
      rw [mapInsert_append i w result hkeys, toPoly_productOfPowers_append, ← hc, hQ]
    · obtain ⟨e, he, _, hgwf, hgne, hgm, hgdvd⟩ :=
        extended_gcd_spec dz inner w z hw hwne hz hz0 hwi hzi
      obtain ⟨n, hn0, hn⟩ := coprimeFactor_monic (getLast?_of_monic hgwf hgne hgm)
      obtain ⟨hsP, hsW, hsN⟩ := scaled_props hgwf hgne hn0
      have hnq : (n : ℚ) ≠ 0 := by exact_mod_cast (ne_of_gt hn0)
      have hdvdW : toPoly (if n ≠ 1 then mulAssignCoeff e.g (n : ℚ) else e.g) ∣ toPoly w := by
        rw [hsP]
        exact (isUnit_C_of_ne hnq).mul_left_dvd.mpr ((hgdvd _).mp dvd_rfl).1
      have hdvdZ : toPoly (if n ≠ 1 then mulAssignCoeff e.g (n : ℚ) else e.g) ∣ toPoly z := by
        rw [hsP]
        exact (isUnit_C_of_ne hnq).mul_left_dvd.mpr ((hgdvd _).mp dvd_rfl).2
      obtain ⟨r1, hd1, _, hp1, hq1, hq1ne⟩ :=
        divide_exact dz inner w _ hw hwne hsW hsN hwi hdvdW
      obtain ⟨r2, hd2, _, hp2, hq2, hq2ne⟩ :=
        divide_exact dz inner z _ hz hz0 hsW hsN hzi hdvdZ
      rw [squareFreeLoop_step dz inner fuel w z i result e n r1 r2 hz0 he hn
        (all_ne_of_lt i result hkeys) hd1 hd2 hq1ne]
      obtain ⟨Cn, hCn, hCn0, hrel, hlt⟩ := yun_step (toPoly w) (toPoly z) Cp
        (toPoly (if n ≠ 1 then mulAssignCoeff e.g (n : ℚ) else e.g))
        (toPoly r1.quotient) (toPoly r2.quotient)
        (toPoly_ne_zero hw hwne) hC (toPoly_ne_zero hz hz0) hI
        (by
          intro h h1 h2
          rw [hsP]
          exact Dvd.dvd.mul_left ((hgdvd h).mpr ⟨h1, h2⟩) _)
        hp1 hp2
      have hl1 := length_le_of_mul_eq hw hwne hq1 hq1ne hp1
      have hl2 := length_le_of_mul_eq hz hz0 hq2 hq2ne hp2
      apply ih r1.quotient _ (i + 1) _ Cn hq1 hq1ne (wellFormed_subAssign hq2 _) (by omega)
        (sub_derivative_length hq2 (by omega) (by omega)) hCn0
      · rw [toPoly_subAssign, toPoly_derivativeOne]; exact hrel
      · omega
      · intro x hx
        rw [mapInsert_append i _ result hkeys] at hx
        rcases List.mem_append.mp hx with h | h
        · have := hkeys x h; omega
        · simp only [List.mem_singleton] at h
          rw [h]; simp
      · rw [mapInsert_append i _ result hkeys, toPoly_productOfPowers_append, ← hQ, hp1, hCn]
        ring

/-! ## `squareFreeFactorization` -/

/-- What `squareFreeFactorization` computes on a nonconstant well-formed polynomial. -/
theorem squareFreeFactorization_spec (dz fuel : ℕ) (p : List ℚ) (hp : WellFormed p)
    (hlen : 2 ≤ p.length) (hf : p.length ≤ fuel) :
    ∃ res c, squareFreeFactorization dz fuel p = Except.ok res ∧ c ≠ 0 ∧
      productOfPowers res = mulAssignCoeff p c := by
  have hpne : p ≠ [] := by
    intro h; subst h; simp at hlen
  have hb := wellFormed_derivativeOne hp
  have hbne := derivativeOne_ne_nil hlen
  have hblen : (derivativeOne (p.drop 1) 0).length ≤ fuel := by
    rw [derivativeOne_length, List.length_drop]; omega
  obtain ⟨e, he, _, hgwf, hgne, hgm, hgdvd⟩ :=
    extended_gcd_spec dz fuel p _ hp hpne hb hbne hf hblen
  obtain ⟨n, hn0, hn⟩ := coprimeFactor_monic (getLast?_of_monic hgwf hgne hgm)
  obtain ⟨hsP, hsW, hsN⟩ := scaled_props hgwf hgne hn0
  have hnq : (n : ℚ) ≠ 0 := by exact_mod_cast (ne_of_gt hn0)
  have hdvdP : toPoly (if n ≠ 1 then mulAssignCoeff e.g (n : ℚ) else e.g) ∣ toPoly p := by
    rw [hsP]
    exact (isUnit_C_of_ne hnq).mul_left_dvd.mpr ((hgdvd _).mp dvd_rfl).1
  have hdvdB : toPoly (if n ≠ 1 then mulAssignCoeff e.g (n : ℚ) else e.g)
      ∣ toPoly (derivativeOne (p.drop 1) 0) := by
    rw [hsP]
    exact (isUnit_C_of_ne hnq).mul_left_dvd.mpr ((hgdvd _).mp dvd_rfl).2
  obtain ⟨r1, hd1, _, hp1, hq1, hq1ne⟩ :=
    divide_exact dz fuel p _ hp hpne hsW hsN hf hdvdP
  obtain ⟨r2, hd2, _, hp2, hq2, hq2ne⟩ :=
    divide_exact dz fuel _ _ hb hbne hsW hsN hblen hdvdB
  have hl1 := length_le_of_mul_eq hp hpne hq1 hq1ne hp1
  have hl2 := length_le_of_mul_eq hb hbne hq2 hq2ne hp2
  have hC0 := toPoly_ne_zero hsW hsN
  have hdegC : (toPoly (if n ≠ 1 then mulAssignCoeff e.g (n : ℚ) else e.g)).natDegree ≤ fuel := by
    have := Polynomial.natDegree_le_of_dvd hdvdP (toPoly_ne_zero hp hpne)
    rw [natDegree_toPoly hp hpne] at this
    omega
  obtain ⟨res, c, hloop, hc0, hprod⟩ := squareFreeLoop_spec dz fuel (toPoly p) fuel
    r1.quotient (sub r2.quotient (derivativeOne (r1.quotient.drop 1) 0)) 1 []
    (toPoly (if n ≠ 1 then mulAssignCoeff e.g (n : ℚ) else e.g))
    hq1 hq1ne (wellFormed_subAssign hq2 _) (by omega)
    (sub_derivative_length hq2 (by omega) (by omega)) hC0
    (by
      rw [toPoly_sub, toPoly_derivativeOne]
      have h1 := congrArg Polynomial.derivative hp1
      rw [Polynomial.derivative_mul, ← toPoly_derivativeOne, hp2] at h1
      linear_combination h1)
    hdegC (by simp)
    (by
      rw [hp1]
      simp only [productOfPowers, toPoly_one]
      ring)
  refine ⟨res, c⁻¹, ?_, inv_ne_zero hc0, ?_⟩
  · unfold squareFreeFactorization
    rw [if_neg (by unfold characteristic; simp), derivative_one_eq hpne, bind_ok, he, bind_ok, hn,
      bind_ok]
    simp only [getNum_intCast]
    rw [if_neg (fun h => hsN ((isZero_iff _).mp h)), hd1, bind_ok, hd2, bind_ok,
      derivative_one_eq hq1ne, bind_ok]
    exact hloop
  · apply toPoly_injective (wellFormed_productOfPowers res) (wellFormed_mulAssignCoeff hp _)
    rw [toPoly_mulAssignCoeff, ← hprod, mul_comm (toPoly (productOfPowers res)), ← mul_assoc,
      ← Polynomial.C_mul, inv_mul_cancel₀ hc0, Polynomial.C_1, one_mul]

/-! ## Runs of `reduce` and `gcd` -/

/-! ### evaluation in `ℚ[X]` -/

theorem toPoly_cons (a : ℚ) (p : List ℚ) :
    toPoly (a :: p) = Polynomial.C a + Polynomial.X * toPoly p := by
  ext i
  rw [coeff_toPoly, coeff_add, Polynomial.coeff_C]
  cases i with
  | zero => simp
  | succ j =>
    rw [Polynomial.coeff_X_mul, coeff_toPoly]
    simp

theorem eval_toPoly (p : List ℚ) (x : ℚ) : (toPoly p).eval x = evaluate p x := by
  induction p with
  | nil => simp [toPoly_nil, evaluate_nil]
  | cons a p ih => rw [toPoly_cons, evaluate_cons, ← ih]; simp

/-! ### unfolding `reduce` and `gcd_recursive` by one call -/

theorem reduce_unfold (dz fuel : ℕ) (p d : List ℚ) (hp : p ≠ []) (hd : d ≠ [])
    (hle : d.length ≤ p.length) (hl : d.getD (d.length - 1) 0 ≠ 0) :
    reduce dz (fuel + 1) p d =
      if degree dz (reduceResult p d) < degree dz d then Except.ok (reduceResult p d)
      else reduce dz fuel (reduceResult p d) d := by
  have hpl := List.length_pos.mpr hp
  have hdl := List.length_pos.mpr hd
  have h1 : assertThat (decide (degree dz p ≥ degree dz d)) = Except.ok () := by
    apply assertThat_of
    rw [degree_eq_length dz hp, degree_eq_length dz hd]
    simp only [ge_iff_le, decide_eq_true_eq]
    omega
  have h2 : assertThat (!isZero d) = Except.ok () := by
    apply assertThat_of
    cases h : isZero d
    · rfl
    · exact absurd ((isZero_iff d).mp h) hd
  conv_lhs => rw [reduce]
  rw [h1, bind_ok, h2, bind_ok, lcoeff_getD hp, bind_ok, lcoeff_getD hd, bind_ok]
  simp only [quotientQ, hl, if_false, pure_eq_ok, bind_ok, degree_eq_length dz hp,
    degree_eq_length dz hd, reduceResult]

theorem reduce_zero (dz fuel : ℕ) (d : List ℚ) (hd : d ≠ []) (hdz : d.length - 1 ≤ dz) :
    reduce dz (fuel + 1) [] d = Except.error Fault.undefinedBehaviour := by
  have h1 : assertThat (decide (degree dz [] ≥ degree dz d)) = Except.ok () := by
    apply assertThat_of
    rw [degree_eq_length dz hd]
    simpa [degree] using hdz
  have h2 : assertThat (!isZero d) = Except.ok () := by
    apply assertThat_of
    cases h : isZero d
    · rfl
    · exact absurd ((isZero_iff d).mp h) hd
  rw [reduce, h1, bind_ok, h2, bind_ok]
  rfl

theorem gcd_recursive_succ (dz fuel : ℕ) (a b : List ℚ) (hb : b ≠ []) :
    gcd_recursive dz (fuel + 1) a b = (reduce dz (fuel + 1) a b >>= gcd_recursive dz fuel b) := by
  rw [gcd_recursive, if_neg (fun h => hb ((isZero_iff b).mp h))]

theorem gcd_recursive_nil (dz fuel : ℕ) (a : List ℚ) :
    gcd_recursive dz (fuel + 1) a [] = Except.ok a := by
  rw [gcd_recursive]
  simp [isZero, pure_eq_ok]

theorem bind_error {α β : Type} (e : Fault) (f : α → Except Fault β) :
    ((Except.error e : Except Fault α) >>= f) = Except.error e := rfl

/-! ### the runs of `reduce` and `gcd` used below -/

theorem degree_cons (dz : ℕ) (a : ℚ) (p : List ℚ) : degree dz (a :: p) = p.length := by
  simp [degree]

theorem degree_nil (dz : ℕ) : degree dz [] = dz := by
  simp [degree]

theorem reduce_run1 (dz fuel : ℕ) :
    reduce dz (fuel + 1) [-1, 0, 1] [1, 2, 1] = Except.ok [-2, -2] := by
  rw [reduce_unfold dz fuel _ _ (by simp) (by simp) (by simp) (by norm_num)]
  have h : reduceResult [-1, 0, 1] [1, 2, 1] = [-2, -2] := by decide!
  rw [h]
  simp [degree_cons]

theorem reduce_run2 (dz fuel : ℕ) :
    reduce dz (fuel + 1) [1, 2, 1] [-2, -2] = reduce dz fuel [1, 1] [-2, -2] := by
  rw [reduce_unfold dz fuel _ _ (by simp) (by simp) (by simp) (by norm_num)]
  have h : reduceResult [1, 2, 1] [-2, -2] = [1, 1] := by decide!
  rw [h]
  simp [degree_cons]

theorem reduce_run3 (dz fuel : ℕ) :
    reduce dz (fuel + 1) [1, 1] [-2, -2]
      = if dz < 1 then Except.ok [] else reduce dz fuel [] [-2, -2] := by
  rw [reduce_unfold dz fuel _ _ (by simp) (by simp) (by simp) (by norm_num)]
  have h : reduceResult [1, 1] [-2, -2] = [] := by decide!
  rw [h]
  simp [degree_cons, degree_nil]

theorem reduce_run4 (dz fuel : ℕ) :
    reduce dz (fuel + 1) [1, 1] [0, 1] = Except.ok [1] := by
  rw [reduce_unfold dz fuel _ _ (by simp) (by simp) (by simp) (by norm_num)]
  have h : reduceResult [1, 1] [0, 1] = [1] := by decide!
  rw [h]
  simp [degree_cons]

theorem reduce_run5 (dz fuel : ℕ) :
    reduce dz (fuel + 1) [0, 1] [1] = reduce dz fuel [] [1] := by
  rw [reduce_unfold dz fuel _ _ (by simp) (by simp) (by simp) (by norm_num)]
  have h : reduceResult [0, 1] [1] = [] := by decide!
  rw [h]
  simp [degree_cons, degree_nil]

theorem gcd_example_unfold (dz fuel : ℕ) :
    gcd dz fuel [-1, 0, 1] [1, 2, 1] = gcd_recursive dz fuel [-1, 0, 1] [1, 2, 1] := by
  unfold gcd
  simp [degree_cons]

/-- Every outcome of `gcd` on `x^2 - 1` and `x^2 + 2x + 1`. -/
theorem gcd_example_cases (dz fuel : ℕ) :
    gcd dz fuel [-1, 0, 1] [1, 2, 1] = Except.ok [-2, -2] ∨
      ∃ f, gcd dz fuel [-1, 0, 1] [1, 2, 1] = Except.error f := by
  rw [gcd_example_unfold]
  rcases fuel with _ | fuel
  · exact Or.inr ⟨_, rfl⟩
  rw [gcd_recursive_succ _ _ _ _ (by simp), reduce_run1, bind_ok]
  rcases fuel with _ | fuel
  · exact Or.inr ⟨_, rfl⟩
  rw [gcd_recursive_succ _ _ _ _ (by simp), reduce_run2]
  rcases fuel with _ | fuel
  · exact Or.inr ⟨_, rfl⟩
  rw [reduce_run3]
  by_cases hdz : dz < 1
  · rw [if_pos hdz, bind_ok, gcd_recursive_nil]
    exact Or.inl rfl
  · rw [if_neg hdz]
    rcases fuel with _ | fuel
    · exact Or.inr ⟨_, rfl⟩
    · rw [reduce_zero dz fuel _ (by simp) (by simp; omega), bind_error]
      exact Or.inr ⟨_, rfl⟩

theorem gcd_example_zero (fuel : ℕ) :
    gcd 0 (fuel + 3) [-1, 0, 1] [1, 2, 1] = Except.ok [-2, -2] := by
  rw [gcd_example_unfold, gcd_recursive_succ _ _ _ _ (by simp), reduce_run1, bind_ok,
    gcd_recursive_succ _ _ _ _ (by simp), reduce_run2, reduce_run3, if_pos (by norm_num),
    bind_ok, gcd_recursive_nil]

/-! ## The claims -/

theorem assertThat_false {b : Bool} (h : ¬ b = true) :
    assertThat b = Except.error Fault.assertion := by
  cases b
  · rfl
  · exact absurd rfl h

/-- With a constant divisor `reduce` recurses until it is called on the zero polynomial. -/
theorem reduce_const_not_ok (dz : ℕ) (c : ℚ) :
    ∀ (fuel : ℕ) (p r : List ℚ), reduce dz fuel p [c] ≠ Except.ok r := by
  intro fuel
  induction fuel with
  | zero =>
    intro p r h
    rw [reduce] at h
    exact Except.noConfusion h
  | succ fuel ih =>
    intro p r h
    rw [reduce] at h
    by_cases h1 : decide (degree dz p ≥ degree dz [c]) = true
    · rw [assertThat_of h1, bind_ok] at h
      have h2 : (!isZero [c]) = true := rfl
      rw [assertThat_of h2, bind_ok] at h
      by_cases hp : p = []
      · subst hp
        exact Except.noConfusion h
      · rw [lcoeff_getD hp, bind_ok, lcoeff_getD (List.cons_ne_nil c []), bind_ok] at h
        by_cases hc : [c].getD ([c].length - 1) 0 = 0
        · simp only [quotientQ, hc, if_true] at h
          exact Except.noConfusion h
        · simp only [quotientQ, hc, if_false, pure_eq_ok, bind_ok, degree_cons,
            List.length_nil, Nat.not_lt_zero] at h
          exact ih _ _ h
    · rw [assertThat_false h1] at h
      exact Except.noConfusion h

theorem not_ok_of_eq_error {α : Type} {x : Except Fault α} {f : Fault}
    (h : x = Except.error f) (r : α) : x ≠ Except.ok r := by
  rw [h]; exact fun h' => Except.noConfusion h'

theorem bind_not_ok {α β : Type} {x : Except Fault α} (f : α → Except Fault β)
    (h : ∀ r, x ≠ Except.ok r) (s : β) : (x >>= f) ≠ Except.ok s := by
  cases x with
  | error e => exact fun h' => Except.noConfusion h'
  | ok a => exact absurd rfl (h a)

/-- C1 (the code at the failing input): dividing the zero polynomial by the constant
polynomial 1 never returns a quotient and a remainder, whatever `degree()` gives for the zero
polynomial; with fuel for one pass of the loop, the run ends in reading `lcoeff()` of the
empty coefficient vector. -/
theorem divide_zero_dividend_faults (dz fuel : ℕ) :
    divide dz (fuel + 1) [] [1] = Except.error Fault.undefinedBehaviour ∧
      ∀ r, divide dz fuel [] [1] ≠ Except.ok r := by
  have h1 : divide dz (fuel + 1) [] [1] = Except.error Fault.undefinedBehaviour := by
    with_unfolding_all rfl
  refine ⟨h1, ?_⟩
  rcases fuel with _ | fuel
  · have h0 : divide dz 0 [] [1] = Except.error Fault.outOfFuel := by
      with_unfolding_all rfl
    exact not_ok_of_eq_error h0
  · have h2 : divide dz (fuel + 1) [] [1] = Except.error Fault.undefinedBehaviour := by
      with_unfolding_all rfl
    exact not_ok_of_eq_error h2

/-- C2: for nonzero polynomials `a` and `b` (coefficient vectors satisfying the
representation invariant) and enough fuel, `extended_gcd(a, b, s, t)` returns, so none of its
assertions fails, and the returned `g` and the final `s`, `t` satisfy `s*a + t*b == g`. -/
theorem extended_gcd_bezout (dz fuel : ℕ) (a b : List ℚ) (ha : WellFormed a) (hane : a ≠ [])
    (hb : WellFormed b) (hbne : b ≠ []) (hfa : a.length ≤ fuel) (hfb : b.length ≤ fuel) :
    ∃ res, extended_gcd dz fuel a b = Except.ok res ∧
      add (mul res.s a) (mul res.t b) = res.g := by
  obtain ⟨res, h1, h2, _⟩ := extended_gcd_spec dz fuel a b ha hane hb hbne hfa hfb
  exact ⟨res, h1, h2.symm⟩

theorem extended_gcd_bezout_witness :
    ∃ res, extended_gcd 0 3 [-1, 0, 1] [1, 2, 1] = Except.ok res ∧
      add (mul res.s [-1, 0, 1]) (mul res.t [1, 2, 1]) = res.g :=
  extended_gcd_bezout 0 3 [-1, 0, 1] [1, 2, 1] (by decide) (by decide) (by decide) (by decide)
    (by decide) (by decide)

/-- C3: for nonzero polynomials `a` and `b` and enough fuel, the polynomial `g` returned by
`extended_gcd(a, b, s, t)` is monic (its leading coefficient is 1) and `a.divide(g)` and
`b.divide(g)` both return with the zero polynomial as remainder. -/
theorem extended_gcd_monic_common_divisor (dz fuel : ℕ) (a b : List ℚ) (ha : WellFormed a)
    (hane : a ≠ []) (hb : WellFormed b) (hbne : b ≠ []) (hfa : a.length ≤ fuel)
    (hfb : b.length ≤ fuel) :
    ∃ res ra rb, extended_gcd dz fuel a b = Except.ok res ∧
      lcoeff res.g = Except.ok 1 ∧
      divide dz fuel a res.g = Except.ok ra ∧ ra.remainder = [] ∧
      divide dz fuel b res.g = Except.ok rb ∧ rb.remainder = [] := by
  obtain ⟨res, h1, _, hwf, hne, hm, hdvd⟩ :=
    extended_gcd_spec dz fuel a b ha hane hb hbne hfa hfb
  obtain ⟨ra, ha1, ha2, _⟩ :=
    divide_exact dz fuel a res.g ha hane hwf hne hfa ((hdvd _).mp dvd_rfl).1
  obtain ⟨rb, hb1, hb2, _⟩ :=
    divide_exact dz fuel b res.g hb hbne hwf hne hfb ((hdvd _).mp dvd_rfl).2
  refine ⟨res, ra, rb, h1, ?_, ha1, ha2, hb1, hb2⟩
  rw [lcoeff_eq hwf hne, hm.leadingCoeff]

theorem extended_gcd_monic_common_divisor_witness :
    ∃ res ra rb, extended_gcd 0 3 [-1, 0, 1] [1, 2, 1] = Except.ok res ∧
      lcoeff res.g = Except.ok 1 ∧
      divide 0 3 [-1, 0, 1] res.g = Except.ok ra ∧ ra.remainder = [] ∧
      divide 0 3 [1, 2, 1] res.g = Except.ok rb ∧ rb.remainder = [] :=
  extended_gcd_monic_common_divisor 0 3 [-1, 0, 1] [1, 2, 1] (by decide) (by decide)
    (by decide) (by decide) (by decide) (by decide)

/-- C4 as stated fails: for no value of `degree()` on the zero polynomial and no amount of
fuel does `gcd` applied to `x^2 - 1` and `x^2 + 2x + 1` return `x + 1`. -/
theorem gcd_example_is_not_x_plus_one :
    ¬ ∃ dz fuel, gcd dz fuel [-1, 0, 1] [1, 2, 1] = Except.ok [1, 1] := by
  rintro ⟨dz, fuel, h⟩
  rcases gcd_example_cases dz fuel with h' | ⟨f, h'⟩
  · rw [h'] at h
    exact absurd (Except.ok.inj h) (by decide)
  · rw [h'] at h
    exact Except.noConfusion h

/-- C4 amended: `gcd` applied to `x^2 - 1` and `x^2 + 2x + 1` returns a constant multiple of
`x + 1`, not normalised to be monic: when `degree()` is 0 on the zero polynomial it returns
`-2x - 2`, which is `-2` times `x + 1`, and for every value of `degree()` on the zero
polynomial a run either returns `-2x - 2` or ends in a fault. -/
theorem gcd_example_value :
    (∀ fuel, gcd 0 (fuel + 3) [-1, 0, 1] [1, 2, 1] = Except.ok [-2, -2]) ∧
      mulAssignCoeff [1, 1] (-2) = [-2, -2] ∧
      (∀ dz fuel, gcd dz fuel [-1, 0, 1] [1, 2, 1] = Except.ok [-2, -2] ∨
        ∃ f, gcd dz fuel [-1, 0, 1] [1, 2, 1] = Except.error f) :=
  ⟨gcd_example_zero, by decide!, gcd_example_cases⟩

/-- C5 (the code at the failing input): `gcd` applied to the coprime polynomials `x + 1` and
`x` never returns, whatever `degree()` gives for the zero polynomial: the recursion calls
`reduce` with the constant remainder 1 as divisor, which ends in reading `lcoeff()` of the
zero polynomial. -/
theorem gcd_coprime_faults (dz fuel : ℕ) :
    gcd dz (fuel + 3) [1, 1] [0, 1] = Except.error Fault.undefinedBehaviour ∧
      ∀ r, gcd dz fuel [1, 1] [0, 1] ≠ Except.ok r := by
  have hun : ∀ n, gcd dz n [1, 1] [0, 1] = gcd_recursive dz n [1, 1] [0, 1] := by
    intro n
    unfold gcd
    simp [degree_cons]
  constructor
  · rw [hun, gcd_recursive_succ _ _ _ _ (by simp), reduce_run4, bind_ok,
      gcd_recursive_succ _ _ _ _ (by simp), reduce_run5,
      reduce_zero dz fuel _ (by simp) (by simp), bind_error]
  · intro r
    rw [hun]
    rcases fuel with _ | fuel
    · exact fun h => Except.noConfusion h
    rw [gcd_recursive_succ _ _ _ _ (by simp), reduce_run4, bind_ok]
    rcases fuel with _ | fuel
    · exact fun h => Except.noConfusion h
    rw [gcd_recursive_succ _ _ _ _ (by simp)]
    exact bind_not_ok _ (reduce_const_not_ok dz 1 (fuel + 1) [0, 1]) r

/-- C6 (the code at the failing input): `reduce` of `x` by the constant polynomial 1, which
divides `x` exactly, ends in reading `lcoeff()` of the zero polynomial; more generally
`reduce` by a constant divisor returns for no dividend, no amount of fuel and no value of
`degree()` on the zero polynomial. -/
theorem reduce_by_constant_faults (dz fuel : ℕ) :
    reduce dz (fuel + 2) [0, 1] [1] = Except.error Fault.undefinedBehaviour ∧
      ∀ (p : List ℚ) (c : ℚ) (r : List ℚ), reduce dz fuel p [c] ≠ Except.ok r := by
  constructor
  · rw [reduce_run5, reduce_zero dz fuel _ (by simp) (by simp)]
  · intro p c r
    exact reduce_const_not_ok dz c fuel p r

/-- C7: for a polynomial `p` with at least two coefficients and a value `r` with
`p.evaluate(r) == 0`, `p.syntheticDivision(r)` returns 0 and leaves in `p` a polynomial `q`
with exactly one coefficient fewer such that `(x - r)*q` is the old `p`: as functions of
`x`, and as coefficient vectors under `operator*` when `p` satisfies the representation
invariant. -/
theorem syntheticDivision_root (p : List ℚ) (r : ℚ) (h2 : 2 ≤ p.length)
    (hr : evaluate p r = 0) :
    (syntheticDivision p r).1 = 0 ∧
      (syntheticDivision p r).2.length + 1 = p.length ∧
      (∀ x, (x - r) * evaluate (syntheticDivision p r).2 x = evaluate p x) ∧
      (WellFormed p → mul [-r, 1] (syntheticDivision p r).2 = p) := by
  have hq := syntheticDivision_snd_of_eq p r h2 hr
  have hev : ∀ x, (x - r) * evaluate (thirdRow r p).tail x = evaluate p x := by
    intro x
    have := thirdRow_tail r p x
    rw [hr, add_zero] at this
    exact this
  refine ⟨by rw [syntheticDivision_fst, hr], ?_, ?_, ?_⟩
  · rw [hq, List.length_tail, thirdRow_length]
    omega
  · rw [hq]; exact hev
  · intro hwf
    rw [hq]
    apply toPoly_injective (wellFormed_mul _ _) hwf
    apply Polynomial.funext
    intro x
    rw [toPoly_mul, Polynomial.eval_mul, eval_toPoly, eval_toPoly, eval_toPoly, ← hev x,
      evaluate_cons, evaluate_cons, evaluate_nil]
    ring

theorem syntheticDivision_root_witness :
    (syntheticDivision [-1, 0, 1] 1).1 = 0 ∧
      (syntheticDivision [-1, 0, 1] 1).2.length + 1 = [(-1 : ℚ), 0, 1].length ∧
      (∀ x, (x - 1) * evaluate (syntheticDivision [-1, 0, 1] 1).2 x
        = evaluate [-1, 0, 1] x) ∧
      (WellFormed [-1, 0, 1] → mul [-1, 1] (syntheticDivision [-1, 0, 1] 1).2 = [-1, 0, 1]) :=
  syntheticDivision_root [-1, 0, 1] 1 (by decide) (by decide!)

/-- C8: for a polynomial `p` and a value `r` with `p.evaluate(r) != 0`,
`p.syntheticDivision(r)` returns exactly `p.evaluate(r)` and leaves the coefficient sequence
of `p` unchanged; and for every polynomial and value it returns 0 if and only if the
polynomial evaluates to 0 at the value. -/
theorem syntheticDivision_nonroot (p : List ℚ) (r : ℚ) (h : evaluate p r ≠ 0) :
    syntheticDivision p r = (evaluate p r, p) ∧
      ∀ (q : List ℚ) (s : ℚ), (syntheticDivision q s).1 = 0 ↔ evaluate q s = 0 := by
  constructor
  · exact Prod.ext (syntheticDivision_fst p r) (syntheticDivision_snd_of_ne p r h)
  · intro q s
    rw [syntheticDivision_fst]

theorem syntheticDivision_nonroot_witness :
    syntheticDivision [-1, 0, 1] 2 = (evaluate [-1, 0, 1] 2, [-1, 0, 1]) ∧
      ∀ (q : List ℚ) (s : ℚ), (syntheticDivision q s).1 = 0 ↔ evaluate q s = 0 :=
  syntheticDivision_nonroot [-1, 0, 1] 2 (by decide!)

/-- C9: for a nonconstant polynomial `p` (at least two coefficients, representation
invariant) and enough fuel, `p.squareFreeFactorization()` returns, and the product over its
entries `(i, f_i)` of `f_i` to the power `i` equals `c*p` for a nonzero rational `c`. -/
theorem squareFreeFactorization_product (dz fuel : ℕ) (p : List ℚ) (hp : WellFormed p)
    (hlen : 2 ≤ p.length) (hf : p.length ≤ fuel) :
    ∃ res c, squareFreeFactorization dz fuel p = Except.ok res ∧ c ≠ 0 ∧
      productOfPowers res = mulAssignCoeff p c :=
  squareFreeFactorization_spec dz fuel p hp hlen hf

theorem squareFreeFactorization_product_witness :
    ∃ res c, squareFreeFactorization 0 3 [1, 2, 1] = Except.ok res ∧ c ≠ 0 ∧
      productOfPowers res = mulAssignCoeff [1, 2, 1] c :=
  squareFreeFactorization_product 0 3 [1, 2, 1] (by decide) (by decide) (by decide)

/-- C10: `factorization()` of `x^2 - 1` returns exactly the map with the two entries
`x - 1 -> 1` and `x + 1 -> 1`, for every value of `degree()` on the zero polynomial. -/
theorem factorization_x_squared_minus_one (dz fuel : ℕ) :
    factorization dz (fuel + 1) [-1, 0, 1] = Except.ok [([-1, 1], 1), ([1, 1], 1)] := by
  with_unfolding_all rfl

/-! ## Horner values and the coefficients of `derivative` -/

/-! ### `evaluate` as a Horner value and as a sum -/

theorem hornerValue_cons (a : ℚ) (p : List ℚ) (x : ℚ) :
    hornerValue (a :: p) x = hornerValue p x * x + a := by
  simp [hornerValue]

theorem evaluate_hornerValue (p : List ℚ) (x : ℚ) : evaluate p x = hornerValue p x := by
  induction p with
  | nil => simp [evaluate_nil, hornerValue]
  | cons a p ih => rw [evaluate_cons, hornerValue_cons, ih]; ring

theorem evaluate_eq_sum (p : List ℚ) (x : ℚ) :
    evaluate p x = ∑ i in Finset.range p.length, p.getD i 0 * x ^ i := by
  induction p with
  | nil => simp [evaluate_nil]
  | cons a p ih =>
    rw [evaluate_cons, List.length_cons, Finset.sum_range_succ', ih, Finset.mul_sum]
    simp only [List.getD_cons_succ, List.getD_cons_zero, pow_zero, mul_one]
    rw [add_comm]
    congr 1
    apply Finset.sum_congr rfl
    intro i _
    ring

/-! ### `derivative(nth)` -/

theorem descFactorial_split (k m : ℕ) :
    (k + m + 1).descFactorial (m + 1) = (k + 1) * (k + m + 1).descFactorial m := by
  rw [Nat.descFactorial_succ]
  congr 1
  omega

theorem descFactorial_next (k m : ℕ) :
    (k + 1 + (m + 1)).descFactorial (m + 1) = (k + m + 2) * (k + m + 1).descFactorial m := by
  have h : k + 1 + (m + 1) = (k + m + 1) + 1 := by omega
  rw [h, Nat.succ_descFactorial_succ]

theorem descFactorial_eq_factorial_div (k n : ℕ) :
    (k + n).descFactorial n = (k + n).factorial / k.factorial := by
  rw [Nat.descFactorial_eq_div (Nat.le_add_left n k), Nat.add_sub_cancel]

theorem derivativeLoop_length (nth : ℕ) (l : List ℚ) (i c : ℕ) :
    (derivativeLoop nth l i c).length = l.length := by
  induction l generalizing i c with
  | nil => simp [derivativeLoop]
  | cons a l ih => simp [derivativeLoop, ih]

/-- The loop of `derivative` multiplies the coefficient at distance `j` by the falling
factorial, as long as the values of `c` that are used fit into an `unsigned`. -/
theorem getD_derivativeLoop (m : ℕ) (l : List ℚ) (k : ℕ)
    (hov : ∀ j, j < l.length → (k + j + (m + 1)).descFactorial (m + 1) < 2 ^ 32)
    (c : ℕ) (hl : l ≠ [] → c = (k + (m + 1)).descFactorial (m + 1)) (j : ℕ) (hj : j < l.length) :
    (derivativeLoop (m + 1) l (k + (m + 1)) c).getD j 0
      = ((k + j + (m + 1)).descFactorial (m + 1) : ℚ) * l.getD j 0 := by
  induction l generalizing k c j with
  | nil => simp at hj
  | cons a l ih =>
    have hc := hl (List.cons_ne_nil a l)
    cases j with
    | zero =>
      simp only [derivativeLoop, List.getD_cons_zero, add_zero]
      rw [hc]
    | succ j =>
      simp only [derivativeLoop, List.getD_cons_succ]
      have hj' : j < l.length := by simpa using hj
      have hidx : k + (m + 1) + 1 = (k + 1) + (m + 1) := by omega
      rw [hidx]
      rw [ih (k + 1) (fun i hi => by
          have := hov (i + 1) (by simp; omega)
          have e : k + (i + 1) + (m + 1) = k + 1 + i + (m + 1) := by omega
          rw [e] at this; exact this) _ (fun hne => ?_) j hj']
      · have e : k + 1 + j + (m + 1) = k + (j + 1) + (m + 1) := by omega
        rw [e]
      · have hlpos : 0 < l.length := List.length_pos.mpr hne
        have hb := hov 1 (by simp; omega)
        have e1 : k + 1 + (m + 1) - (m + 1) = k + 1 := by omega
        have e2 : k + 1 + (m + 1) = k + m + 2 := by omega
        have e3 : k + (m + 1) = k + m + 1 := by omega
        rw [hc, e1, e3, descFactorial_split, Nat.mul_div_cancel_left _ (Nat.succ_pos k),
          descFactorial_next, Nat.mul_comm, e2]
        apply Nat.mod_eq_of_lt
        rw [descFactorial_next] at hb
        exact hb

theorem derivative_eq_loop (m : ℕ) (hm : m ≠ 0) (p : List ℚ) (h : m + 1 ≤ p.length) :
    derivative (m + 1) p = Except.ok (derivativeLoop (m + 1) (p.drop (m + 1)) (m + 1)
      ((m + 1).factorial % 2 ^ 32)) := by
  unfold derivative
  rw [if_neg (by omega), if_neg (by omega), pure_eq_ok]

theorem getD_drop (p : List ℚ) (n i : ℕ) : (p.drop n).getD i 0 = p.getD (i + n) 0 := by
  rw [List.getD_eq_getElem?_getD, List.getD_eq_getElem?_getD, List.getElem?_drop, add_comm]

/-- The coefficients of `derivative(nth)`. -/
theorem derivative_coeff (nth : ℕ) (p : List ℚ) (h1 : 1 ≤ nth) (h2 : nth ≤ p.length)
    (hov : ∀ k, k + nth < p.length → (k + nth).descFactorial nth < 2 ^ 32) :
    ∃ r, derivative nth p = Except.ok r ∧ r.length = p.length - nth ∧
      ∀ k, k + nth < p.length →
        r.getD k 0 = ((k + nth).descFactorial nth : ℚ) * p.getD (k + nth) 0 := by
  obtain ⟨m, rfl⟩ : ∃ m, nth = m + 1 := ⟨nth - 1, by omega⟩
  by_cases hm : m = 0
  · subst hm
    have hne : p ≠ [] := by
      intro h; subst h; simp at h2
    refine ⟨_, derivative_one_eq hne, ?_, ?_⟩
    · rw [derivativeOne_length, List.length_drop]
    · intro k _
      rw [getD_derivativeOne, getD_drop_one]
      simp [Nat.descFactorial_one]
  · refine ⟨_, derivative_eq_loop m hm p h2, ?_, ?_⟩
    · rw [derivativeLoop_length, List.length_drop]
    · intro k hk
      have hlen : k < (p.drop (m + 1)).length := by rw [List.length_drop]; omega
      have := getD_derivativeLoop m (p.drop (m + 1)) 0
        (fun j hj => by
          rw [List.length_drop] at hj
          have := hov j (by omega)
          simpa using this)
        ((m + 1).factorial % 2 ^ 32)
        (fun hne => by
          have hpos : 0 < (p.drop (m + 1)).length := List.length_pos.mpr hne
          rw [List.length_drop] at hpos
          have := hov 0 (by omega)
          simp only [zero_add] at this ⊢
          rw [Nat.descFactorial_self] at this ⊢
          exact Nat.mod_eq_of_lt this)
        k hlen
      simp only [zero_add] at this
      rw [this, getD_drop]

theorem derivativeIterated_coeff (n : ℕ) :
    ∀ (p : List ℚ), n ≤ p.length →
      ∃ r, derivativeIterated n p = Except.ok r ∧ r.length = p.length - n ∧
        ∀ k, r.getD k 0 = ((k + n).descFactorial n : ℚ) * p.getD (k + n) 0 := by
  induction n with
  | zero =>
    intro p _
    exact ⟨p, rfl, rfl, fun k => by simp⟩
  | succ n ih =>
    intro p hp
    have hne : p ≠ [] := by
      intro h; subst h; simp at hp
    obtain ⟨r, h1, h2, h3⟩ := ih (derivativeOne (p.drop 1) 0) (by
      rw [derivativeOne_length, List.length_drop]; omega)
    refine ⟨r, ?_, ?_, ?_⟩
    · rw [derivativeIterated, derivative_one_eq hne, bind_ok]
      exact h1
    · rw [h2, derivativeOne_length, List.length_drop]; omega
    · intro k
      rw [h3, getD_derivativeOne, getD_drop_one]
      have e : k + (n + 1) = (k + n) + 1 := by omega
      rw [e, Nat.succ_descFactorial_succ]
      push_cast
      ring

theorem list_ext_getD {l₁ l₂ : List ℚ} (hlen : l₁.length = l₂.length)
    (h : ∀ k, k < l₁.length → l₁.getD k 0 = l₂.getD k 0) : l₁ = l₂ := by
  apply List.ext_get hlen
  intro n h1 h2
  have := h n h1
  rw [List.getD_eq_getElem _ _ h1, List.getD_eq_getElem _ _ h2] at this
  simpa using this

/-! ## The claims on `coprimeFactor`, `derivative`, `evaluate`, `cauchyBound` and `normalized` -/

/-- C11 (the code at the failing input): for `2x + 4`, whose numerators have gcd 2 and whose
denominators have lcm 1, `coprimeFactor()` is the truncated integer quotient `1/2 = 0` and not
the rational `1/2`, and `coprimeCoefficients()` are all 0, whose gcd is not 1. -/
theorem coprimeFactor_truncates :
    coprimeFactor [4, 2] = Except.ok 0 ∧ coprimeCoefficients [4, 2] = Except.ok [0, 0] ∧
      gcdZ (getNum 4) (getNum 2) = 2 ∧ lcmZ (getDenom 4) (getDenom 2) = 1 ∧
      quotient 1 2 = Except.ok 0 := by
  refine ⟨by decide!, by decide!, by decide!, by decide!, by decide!⟩

/-- C12: for `1 <= nth <= size()`, when the values `(k+nth)!/k!` that the loop uses fit
into an `unsigned`, `derivative(nth)` returns the polynomial whose coefficient at every index
`k` is `((k+nth)!/k!) * a_{k+nth}`, which is the result of applying `derivative(1)` `nth`
times; the divisor `k+1` of the running division always divides `(k+nth)!/k!`. -/
theorem derivative_falling_factorial (nth : ℕ) (p : List ℚ) (h1 : 1 ≤ nth)
    (h2 : nth ≤ p.length)
    (hov : ∀ k, k + nth < p.length → (k + nth).factorial / k.factorial < 2 ^ 32) :
    ∃ r, derivative nth p = Except.ok r ∧
      (∀ k, r.getD k 0 = (((k + nth).factorial / k.factorial : ℕ) : ℚ) * p.getD (k + nth) 0) ∧
      derivativeIterated nth p = Except.ok r ∧
      ∀ k, (k + 1) ∣ (k + nth).factorial / k.factorial := by
  obtain ⟨r, hr1, hr2, hr3⟩ := derivative_coeff nth p h1 h2 (fun k hk => by
    rw [descFactorial_eq_factorial_div]; exact hov k hk)
  obtain ⟨r', hi1, hi2, hi3⟩ := derivativeIterated_coeff nth p h2
  have hall : ∀ k, r.getD k 0
      = (((k + nth).factorial / k.factorial : ℕ) : ℚ) * p.getD (k + nth) 0 := by
    intro k
    by_cases hk : k + nth < p.length
    · rw [hr3 k hk, descFactorial_eq_factorial_div]
    · rw [List.getD_eq_default r 0 (by omega), List.getD_eq_default p 0 (by omega), mul_zero]
  have heq : r' = r := by
    apply list_ext_getD (by rw [hi2, hr2])
    intro k _
    rw [hi3, hall, descFactorial_eq_factorial_div]
  refine ⟨r, hr1, hall, by rw [hi1, heq], ?_⟩
  intro k
  obtain ⟨m, rfl⟩ : ∃ m, nth = m + 1 := ⟨nth - 1, by omega⟩
  rw [← descFactorial_eq_factorial_div, ← Nat.add_assoc, descFactorial_split]
  exact Nat.dvd_mul_right _ _

theorem derivative_falling_factorial_witness :
    ∃ r, derivative 2 [1, 2, 3, 4] = Except.ok r ∧
      (∀ k, r.getD k 0
        = (((k + 2).factorial / k.factorial : ℕ) : ℚ) * [(1 : ℚ), 2, 3, 4].getD (k + 2) 0) ∧
      derivativeIterated 2 [1, 2, 3, 4] = Except.ok r ∧
      ∀ k, (k + 1) ∣ (k + 2).factorial / k.factorial :=
  derivative_falling_factorial 2 [1, 2, 3, 4] (by decide) (by decide) (by
    intro k hk
    have hk' : k < 2 := by
      simp only [List.length_cons, List.length_nil] at hk
      omega
    interval_cases k <;> decide)

/-- C13: `evaluate(x)` equals the Horner value `(...(a_n*x + a_{n-1})*x + ...)*x + a_0`,
which is the sum of the `a_i * x^i`, and it is 0 for the zero polynomial. -/
theorem evaluate_eq_horner (p : List ℚ) (x : ℚ) :
    evaluate p x = hornerValue p x ∧
      evaluate p x = ∑ i in Finset.range p.length, p.getD i 0 * x ^ i ∧
      evaluate [] x = 0 :=
  ⟨evaluate_hornerValue p x, evaluate_eq_sum p x, evaluate_nil x⟩

/-- C14 (the code at the failing input): for `-x + 2`, of degree 1 with the root 2,
`cauchyBound()` divides by the negative leading coefficient itself and returns
`1 + 2/(-1) = -1`, which is not an upper bound of `|2|`. -/
theorem cauchyBound_negative_leading :
    cauchyBound [2, -1] = Except.ok (-1) ∧ evaluate [2, -1] 2 = 0 ∧
      ¬ (|(2 : ℚ)| ≤ -1) := by
  refine ⟨by decide!, by decide!, by norm_num⟩

/-- C15: for a nonzero polynomial `p` (representation invariant), `p.normalized()` returns a
polynomial `q` that is monic, `lcoeff(p)` times `q` is `p`, and `q.normalized()` is `q` again;
`normalized()` of the zero polynomial is the zero polynomial. -/
theorem normalized_monic (p : List ℚ) (hp : WellFormed p) (hne : p ≠ []) :
    ∃ q c, normalized p = Except.ok q ∧ lcoeff p = Except.ok c ∧ lcoeff q = Except.ok 1 ∧
      mulAssignCoeff q c = p ∧ normalized q = Except.ok q ∧
      normalized [] = Except.ok [] := by
  have hc := getD_last_ne_zero hp hne
  have hqne : p.map (fun a => a / p.getD (p.length - 1) 0) ≠ [] := by simpa using hne
  have hqwf := wellFormed_map_div hp hc
  have hlast : (p.map (fun a => a / p.getD (p.length - 1) 0)).getD
      ((p.map (fun a => a / p.getD (p.length - 1) 0)).length - 1) 0 = 1 := by
    rw [getD_map _ (by simp), List.length_map, div_self hc]
  refine ⟨_, _, normalized_eq hp hne, lcoeff_getD hne, ?_, ?_, ?_, rfl⟩
  · rw [lcoeff_getD hqne, hlast]
  · unfold mulAssignCoeff
    rw [if_neg hc, List.map_map]
    conv_rhs => rw [← List.map_id p]
    apply List.map_congr_left
    intro a _
    simp only [Function.comp_apply, id_eq]
    exact div_mul_cancel₀ a hc
  · rw [normalized_eq hqwf hqne, hlast]
    congr 1
    conv_rhs => rw [← List.map_id (p.map (fun a => a / p.getD (p.length - 1) 0))]
    apply List.map_congr_left
    intro a _
    simp

theorem normalized_monic_witness :
    ∃ q c, normalized [2, 4] = Except.ok q ∧ lcoeff [2, 4] = Except.ok c ∧
      lcoeff q = Except.ok 1 ∧ mulAssignCoeff q c = [2, 4] ∧ normalized q = Except.ok q ∧
      normalized [] = Except.ok [] :=
  normalized_monic [2, 4] (by decide) (by decide)

end UnivariatePolynomial

/-! ## Key orders and entries of factorizations -/

theorem KeyOrder.asymm {κ : Type} {eq lt : κ → κ → Bool}
    (ho : KeyOrder eq lt) {a b : κ} (h : lt a b = true) :
    lt b a = false := by
  cases h2 : lt b a with
  | false => rfl
  | true =>
    have h3 := ho.trans a b a h h2
    rw [ho.irrefl] at h3
    cases h3

theorem KeyOrder.ne_of_lt {κ : Type} {eq lt : κ → κ → Bool}
    (ho : KeyOrder eq lt) {a b : κ} (h : lt a b = true) : a ≠ b := by
  rintro rfl
  rw [ho.irrefl] at h
  cases h

theorem KeyOrder.eq_false_of_ne {κ : Type} {eq lt : κ → κ → Bool}
    (ho : KeyOrder eq lt) {a b : κ} (h : a ≠ b) :
    eq a b = false := by
  cases h2 : eq a b with
  | false => rfl
  | true => exact absurd ((ho.eq_iff a b).1 h2) h

theorem KeyOrder.eq_self {κ : Type} {eq lt : κ → κ → Bool}
    (ho : KeyOrder eq lt) (a : κ) : eq a a = true :=
  (ho.eq_iff a a).2 rfl

theorem KeyOrder.lt_of_not {κ : Type} {eq lt : κ → κ → Bool}
    (ho : KeyOrder eq lt) {a b : κ} (hne : a ≠ b)
    (h : lt a b = false) : lt b a = true := by
  rcases ho.total a b with h1 | h1 | h1
  · rw [h] at h1; cases h1
  · exact absurd h1 hne
  · exact h1

theorem keysSorted_cons {κ : Type} {lt : κ → κ → Bool} (x : κ × ℕ) (m : List (κ × ℕ)) :
    KeysSorted lt (x :: m) ↔ (∀ e ∈ m, lt x.1 e.1 = true) ∧ KeysSorted lt m := by
  unfold KeysSorted
  exact List.pairwise_cons

theorem keysSorted_snoc {κ : Type} {lt : κ → κ → Bool} (x : κ × ℕ) (m : List (κ × ℕ)) :
    KeysSorted lt (m ++ [x]) ↔ KeysSorted lt m ∧ ∀ e ∈ m, lt e.1 x.1 = true := by
  unfold KeysSorted
  rw [List.pairwise_append]
  simp

theorem keysSorted_nil {κ : Type} {lt : κ → κ → Bool} : KeysSorted lt ([] : List (κ × ℕ)) := by
  unfold KeysSorted
  exact List.Pairwise.nil

theorem insertAtEnd_eq {κ : Type} {eq lt : κ → κ → Bool}
    (ho : KeyOrder eq lt) (x : κ × ℕ) (m : List (κ × ℕ))
    (h : ∀ e ∈ m, lt e.1 x.1 = true) : insertAtEnd lt x m = m ++ [x] := by
  unfold insertAtEnd
  induction m with
  | nil => rfl
  | cons e m ih =>
    obtain ⟨k, v⟩ := e
    have he : lt k x.1 = true := h (k, v) (List.mem_cons_self _ _)
    have he2 : lt x.1 k = false := ho.asymm he
    have ih2 := ih (fun e hm => h e (List.mem_cons_of_mem _ hm))
    simp only [mapInsert, he, he2, Bool.false_eq_true, if_false, if_true, List.cons_append]
    rw [ih2]

theorem lookup_cons_eq {κ : Type} [DecidableEq κ] (f k : κ) (v : ℕ) (m : List (κ × ℕ)) :
    List.lookup f ((k, v) :: m) = if f = k then some v else List.lookup f m := by
  by_cases h : f = k
  · subst h
    simp [List.lookup]
  · have : (f == k) = false := by simpa using h
    simp [List.lookup, this, h]

theorem lookup_append_singleton {κ : Type} [DecidableEq κ]
    (f : κ) (acc : List (κ × ℕ)) (x : κ × ℕ) :
    List.lookup f (acc ++ [x]) =
      (List.lookup f acc).or (if f = x.1 then some x.2 else none) := by
  induction acc with
  | nil =>
    obtain ⟨k, v⟩ := x
    rw [List.nil_append, lookup_cons_eq]
    simp [List.lookup]
  | cons e acc ih =>
    obtain ⟨k, v⟩ := e
    rw [List.cons_append, lookup_cons_eq, lookup_cons_eq, ih]
    by_cases h : f = k
    · simp [h]
    · simp [h]

theorem lookup_eq_none_of_ne {κ : Type} [DecidableEq κ]
    (f : κ) (m : List (κ × ℕ)) (h : ∀ e ∈ m, e.1 ≠ f) :
    List.lookup f m = none := by
  induction m with
  | nil => rfl
  | cons e m ih =>
    obtain ⟨k, v⟩ := e
    rw [lookup_cons_eq]
    have hk : f ≠ k := fun hf => h (k, v) (List.mem_cons_self _ _) hf.symm
    rw [if_neg hk]
    exact ih (fun e hm => h e (List.mem_cons_of_mem _ hm))

theorem lookup_eq_none_of_above {κ : Type} [DecidableEq κ] {eq lt : κ → κ → Bool}
    (ho : KeyOrder eq lt) (f : κ) (m : List (κ × ℕ))
    (h : ∀ e ∈ m, lt f e.1 = true) : List.lookup f m = none :=
  lookup_eq_none_of_ne f m (fun e hm => (ho.ne_of_lt (h e hm)).symm)

theorem lookup_eq_none_of_below {κ : Type} [DecidableEq κ] {eq lt : κ → κ → Bool}
    (ho : KeyOrder eq lt) (f : κ) (m : List (κ × ℕ))
    (h : ∀ e ∈ m, lt e.1 f = true) : List.lookup f m = none :=
  lookup_eq_none_of_ne f m (fun e hm => ho.ne_of_lt (h e hm))

theorem mem_of_lookup_eq_some {κ : Type} [DecidableEq κ] (f : κ) (v : ℕ) (m : List (κ × ℕ))
    (h : List.lookup f m = some v) : (f, v) ∈ m := by
  induction m with
  | nil => cases h
  | cons e m ih =>
    obtain ⟨k, w⟩ := e
    rw [lookup_cons_eq] at h
    by_cases hk : f = k
    · rw [if_pos hk] at h
      cases h
      rw [hk]
      exact List.mem_cons_self _ _
    · rw [if_neg hk] at h
      exact List.mem_cons_of_mem _ (ih h)

theorem keyOrder_nat : KeyOrder eqNat ltNat where
  eq_iff := by intro a b; simp [eqNat]
  irrefl := by intro a; simp [ltNat]
  trans := by
    intro a b c h1 h2
    simp only [ltNat, decide_eq_true_eq] at *
    omega
  total := by
    intro a b
    simp only [ltNat, decide_eq_true_eq]
    omega

/-- Two key-sorted factorizations with the same entry at every factor are the same list. -/
theorem eq_of_keysSorted_of_lookup {κ : Type} [DecidableEq κ] {eq lt : κ → κ → Bool}
    (ho : KeyOrder eq lt) :
    ∀ (m₁ m₂ : List (κ × ℕ)), KeysSorted lt m₁ → KeysSorted lt m₂ →
      (∀ f, List.lookup f m₁ = List.lookup f m₂) → m₁ = m₂ := by
  intro m₁
  induction m₁ with
  | nil =>
    intro m₂ _ _ h
    cases m₂ with
    | nil => rfl
    | cons e m₂ =>
      obtain ⟨k, v⟩ := e
      have := h k
      rw [lookup_cons_eq, if_pos rfl] at this
      cases this
  | cons e₁ m₁ ih =>
    intro m₂ hs₁ hs₂ h
    obtain ⟨k₁, v₁⟩ := e₁
    cases m₂ with
    | nil =>
      have := h k₁
      rw [lookup_cons_eq, if_pos rfl] at this
      cases this
    | cons e₂ m₂ =>
      obtain ⟨k₂, v₂⟩ := e₂
      rw [keysSorted_cons] at hs₁ hs₂
      have hk : k₁ = k₂ := by
        by_contra hne
        have h1 := h k₁
        rw [lookup_cons_eq, if_pos rfl, lookup_cons_eq, if_neg hne] at h1
        have h2 := h k₂
        rw [lookup_cons_eq, if_neg (Ne.symm hne), lookup_cons_eq, if_pos rfl] at h2
        have m1 := hs₂.1 _ (mem_of_lookup_eq_some _ _ _ h1.symm)
        have m2 := hs₁.1 _ (mem_of_lookup_eq_some _ _ _ h2)
        have := ho.asymm m1
        simp only at m2 this
        rw [m2] at this
        cases this
      subst hk
      have hv : v₁ = v₂ := by
        have h1 := h k₁
        rw [lookup_cons_eq, if_pos rfl, lookup_cons_eq, if_pos rfl] at h1
        exact Option.some.inj h1
      subst hv
      have ht : m₁ = m₂ := by
        apply ih m₂ hs₁.2 hs₂.2
        intro f
        by_cases hf : f = k₁
        · subst hf
          rw [lookup_eq_none_of_above ho f m₁ hs₁.1, lookup_eq_none_of_above ho f m₂ hs₂.1]
        · have h1 := h f
          rw [lookup_cons_eq, if_neg hf, lookup_cons_eq, if_neg hf] at h1
          exact h1
      rw [ht]

/-! ## The loops of `lazyDiv` -/

theorem lazyDivLoop_spec {κ : Type} [DecidableEq κ] {eq lt : κ → κ → Bool} (ho : KeyOrder eq lt) :
    ∀ (fuel : ℕ) (as bs acc : List (κ × ℕ)), as.length + bs.length ≤ fuel →
      KeysSorted lt as → KeysSorted lt bs → KeysSorted lt acc →
      (∀ e ∈ acc, ∀ x ∈ as, lt e.1 x.1 = true) →
      ∃ R, lazyDivLoop eq lt fuel as bs acc = Except.ok R ∧ KeysSorted lt R ∧
        ∀ f, List.lookup f R =
          (List.lookup f acc).or (lazyDivEntry (List.lookup f as) (List.lookup f bs)) := by
  intro fuel
  induction fuel with
  | zero =>
    intro as bs acc hf _ _ hacc _
    cases as with
    | nil => exact ⟨acc, by simp [lazyDivLoop, pure, Except.pure], hacc, by simp [lazyDivEntry]⟩
    | cons a as => simp at hf
  | succ fuel ih =>
    intro as bs acc hf hsa hsb hacc hbelow
    cases as with
    | nil => exact ⟨acc, by simp [lazyDivLoop, pure, Except.pure], hacc, by simp [lazyDivEntry]⟩
    | cons a as =>
      obtain ⟨ka, va⟩ := a
      rw [keysSorted_cons] at hsa
      have hacca : ∀ e ∈ acc, lt e.1 ka = true :=
        fun e he => hbelow e he (ka, va) (List.mem_cons_self _ _)
      have hbelow2 : ∀ e ∈ acc, ∀ x ∈ as, lt e.1 x.1 = true :=
        fun e he x hx => hbelow e he x (List.mem_cons_of_mem _ hx)
      have hla : List.lookup ka acc = none := lookup_eq_none_of_below ho ka acc hacca
      have hlas : List.lookup ka as = none := lookup_eq_none_of_above ho ka as hsa.1
      have hpush : ∀ v : ℕ, KeysSorted lt (acc ++ [(ka, v)]) ∧
          ∀ e ∈ acc ++ [(ka, v)], ∀ x ∈ as, lt e.1 x.1 = true := by
        intro v
        refine ⟨(keysSorted_snoc _ _).2 ⟨hacc, hacca⟩, ?_⟩
        intro e he x hx
        rcases List.mem_append.1 he with he | he
        · exact hbelow2 e he x hx
        · rw [List.mem_singleton] at he
          subst he
          exact hsa.1 x hx
      cases bs with
      | nil =>
        rw [lazyDivLoop, insertAtEnd_eq ho _ _ hacca]
        obtain ⟨R, hR, hRs, hRl⟩ := ih as [] (acc ++ [(ka, va)])
          (by simp at hf ⊢; omega) hsa.2 hsb (hpush va).1 (hpush va).2
        refine ⟨R, hR, hRs, ?_⟩
        intro f
        rw [hRl f, lookup_append_singleton, lookup_cons_eq]
        by_cases hfa : f = ka
        · subst hfa
          simp [hla, hlas, lazyDivEntry]
        · simp [hfa]
      | cons b bs =>
        obtain ⟨kb, vb⟩ := b
        rw [keysSorted_cons] at hsb
        have hlbs : List.lookup kb bs = none := lookup_eq_none_of_above ho kb bs hsb.1
        rw [lazyDivLoop]
        by_cases hk : ka = kb
        · subst hk
          simp only [ho.eq_self, if_true]
          by_cases hv : va > vb
          · simp only [hv, if_true]
            rw [insertAtEnd_eq ho _ _ hacca]
            obtain ⟨R, hR, hRs, hRl⟩ := ih as bs (acc ++ [(ka, va - vb)])
              (by simp at hf ⊢; omega) hsa.2 hsb.2 (hpush _).1 (hpush _).2
            refine ⟨R, hR, hRs, ?_⟩
            intro f
            rw [hRl f, lookup_append_singleton, lookup_cons_eq, lookup_cons_eq]
            by_cases hfa : f = ka
            · subst hfa
              simp [hla, hlas, hlbs, lazyDivEntry, hv]
            · simp [hfa]
          · simp only [hv, if_false]
            obtain ⟨R, hR, hRs, hRl⟩ := ih as bs acc
              (by simp at hf ⊢; omega) hsa.2 hsb.2 hacc hbelow2
            refine ⟨R, hR, hRs, ?_⟩
            intro f
            rw [hRl f, lookup_cons_eq, lookup_cons_eq]
            by_cases hfa : f = ka
            · subst hfa
              simp [hlas, hlbs, lazyDivEntry, hv]
            · simp [hfa]
        · simp only [ho.eq_false_of_ne hk, Bool.false_eq_true, if_false]
          by_cases hlt : lt ka kb = true
          · simp only [hlt, if_true]
            rw [insertAtEnd_eq ho _ _ hacca]
            obtain ⟨R, hR, hRs, hRl⟩ := ih as ((kb, vb) :: bs) (acc ++ [(ka, va)])
              (by simp at hf ⊢; omega) hsa.2 ((keysSorted_cons _ _).2 hsb) (hpush _).1
              (hpush _).2
            refine ⟨R, hR, hRs, ?_⟩
            intro f
            rw [hRl f, lookup_append_singleton, lookup_cons_eq, lookup_cons_eq]
            have hlb : List.lookup ka bs = none :=
              lookup_eq_none_of_above ho ka bs (fun e he => ho.trans _ _ _ hlt (hsb.1 e he))
            by_cases hfa : f = ka
            · subst hfa
              simp [hla, hlas, hlb, hk, lazyDivEntry]
            · simp [hfa]
          · simp only [hlt, Bool.false_eq_true, if_false]
            have hgt : lt kb ka = true :=
              ho.lt_of_not hk (by simpa using hlt)
            obtain ⟨R, hR, hRs, hRl⟩ := ih ((ka, va) :: as) bs acc
              (by simp at hf ⊢; omega) ((keysSorted_cons _ _).2 hsa) hsb.2 hacc hbelow
            refine ⟨R, hR, hRs, ?_⟩
            intro f
            rw [hRl f, lookup_cons_eq, lookup_cons_eq]
            have hla2 : List.lookup kb as = none :=
              lookup_eq_none_of_above ho kb as (fun e he => ho.trans _ _ _ hgt (hsa.1 e he))
            by_cases hfb : f = kb
            · subst hfb
              simp [hla2, Ne.symm hk, lazyDivEntry]
            · simp [hfb]

/-! ## The loops of `commonMultiple` -/

theorem keysSorted_push {κ : Type} {lt : κ → κ → Bool} (acc : List (κ × ℕ)) (k : κ) (v : ℕ)
    (hacc : KeysSorted lt acc) (hk : ∀ e ∈ acc, lt e.1 k = true) :
    KeysSorted lt (acc ++ [(k, v)]) :=
  (keysSorted_snoc _ _).2 ⟨hacc, hk⟩

theorem below_push {κ : Type} {lt : κ → κ → Bool} (acc rest : List (κ × ℕ)) (k : κ) (v : ℕ)
    (hb : ∀ e ∈ acc, ∀ x ∈ rest, lt e.1 x.1 = true) (hk : ∀ x ∈ rest, lt k x.1 = true) :
    ∀ e ∈ acc ++ [(k, v)], ∀ x ∈ rest, lt e.1 x.1 = true := by
  intro e he x hx
  rcases List.mem_append.1 he with he | he
  · exact hb e he x hx
  · rw [List.mem_singleton] at he
    subst he
    exact hk x hx

theorem below_tail {κ : Type} {lt : κ → κ → Bool} (acc rest : List (κ × ℕ)) (x : κ × ℕ)
    (hb : ∀ e ∈ acc, ∀ y ∈ x :: rest, lt e.1 y.1 = true) :
    (∀ e ∈ acc, lt e.1 x.1 = true) ∧ ∀ e ∈ acc, ∀ y ∈ rest, lt e.1 y.1 = true :=
  ⟨fun e he => hb e he x (List.mem_cons_self _ _),
    fun e he y hy => hb e he y (List.mem_cons_of_mem _ hy)⟩

theorem below_nil {κ : Type} {lt : κ → κ → Bool} (acc : List (κ × ℕ)) :
    ∀ e ∈ acc, ∀ y ∈ ([] : List (κ × ℕ)), lt e.1 y.1 = true := by
  intro e _ y hy
  cases hy

theorem above_of_lt {κ : Type} {eq lt : κ → κ → Bool}
    (ho : KeyOrder eq lt) (k k' : κ) (v : ℕ) (rest : List (κ × ℕ))
    (hlt : lt k k' = true) (hs : ∀ e ∈ rest, lt k' e.1 = true) :
    ∀ x ∈ (k', v) :: rest, lt k x.1 = true := by
  intro x hx
  rcases List.mem_cons.1 hx with hx | hx
  · subst hx
    exact hlt
  · exact ho.trans _ _ _ hlt (hs x hx)

theorem commonMultipleLoop_spec {κ : Type} [DecidableEq κ] {eq lt : κ → κ → Bool}
    (ho : KeyOrder eq lt) :
    ∀ (fuel : ℕ) (as bs acc : List (κ × ℕ)), as.length + bs.length ≤ fuel →
      KeysSorted lt as → KeysSorted lt bs → KeysSorted lt acc →
      (∀ e ∈ acc, ∀ x ∈ as, lt e.1 x.1 = true) →
      (∀ e ∈ acc, ∀ x ∈ bs, lt e.1 x.1 = true) →
      ∃ R, commonMultipleLoop eq lt fuel as bs acc = Except.ok R ∧ KeysSorted lt R ∧
        ∀ f, List.lookup f R =
          (List.lookup f acc).or
            (commonMultipleEntry (List.lookup f as) (List.lookup f bs)) := by
  intro fuel
  induction fuel with
  | zero =>
    intro as bs acc hf _ _ hacc _ _
    cases as with
    | nil =>
      cases bs with
      | nil =>
        exact ⟨acc, by simp [commonMultipleLoop, pure, Except.pure], hacc,
          by simp [commonMultipleEntry]⟩
      | cons b bs => simp at hf
    | cons a as => simp at hf
  | succ fuel ih =>
    intro as bs acc hf hsa hsb hacc hba hbb
    cases as with
    | nil =>
      cases bs with
      | nil =>
        exact ⟨acc, by simp [commonMultipleLoop, pure, Except.pure], hacc,
          by simp [commonMultipleEntry]⟩
      | cons b bs =>
        obtain ⟨kb, vb⟩ := b
        rw [keysSorted_cons] at hsb
        obtain ⟨hbk, hbb2⟩ := below_tail acc bs (kb, vb) hbb
        rw [commonMultipleLoop, insertAtEnd_eq ho _ _ hbk]
        obtain ⟨R, hR, hRs, hRl⟩ := ih [] bs (acc ++ [(kb, vb)])
          (by simp at hf ⊢; omega) hsa hsb.2 (keysSorted_push _ _ _ hacc hbk)
          (below_nil _) (below_push _ _ _ _ hbb2 hsb.1)
        refine ⟨R, hR, hRs, ?_⟩
        intro f
        rw [hRl f, lookup_append_singleton, lookup_cons_eq]
        have h1 : List.lookup kb acc = none := lookup_eq_none_of_below ho kb acc hbk
        have h2 : List.lookup kb bs = none := lookup_eq_none_of_above ho kb bs hsb.1
        by_cases hfb : f = kb
        · subst hfb
          simp [h1, h2, commonMultipleEntry]
        · simp [hfb]
    | cons a as =>
      obtain ⟨ka, va⟩ := a
      rw [keysSorted_cons] at hsa
      obtain ⟨hak, hba2⟩ := below_tail acc as (ka, va) hba
      have hla : List.lookup ka acc = none := lookup_eq_none_of_below ho ka acc hak
      have hlas : List.lookup ka as = none := lookup_eq_none_of_above ho ka as hsa.1
      cases bs with
      | nil =>
        rw [commonMultipleLoop, insertAtEnd_eq ho _ _ hak]
        obtain ⟨R, hR, hRs, hRl⟩ := ih as [] (acc ++ [(ka, va)])
          (by simp at hf ⊢; omega) hsa.2 hsb (keysSorted_push _ _ _ hacc hak)
          (below_push _ _ _ _ hba2 hsa.1) (below_nil _)
        refine ⟨R, hR, hRs, ?_⟩
        intro f
        rw [hRl f, lookup_append_singleton, lookup_cons_eq]
        by_cases hfa : f = ka
        · subst hfa
          simp [hla, hlas, commonMultipleEntry]
        · simp [hfa]
      | cons b bs =>
        obtain ⟨kb, vb⟩ := b
        rw [keysSorted_cons] at hsb
        obtain ⟨hbk, hbb2⟩ := below_tail acc bs (kb, vb) hbb
        have hlbs : List.lookup kb bs = none := lookup_eq_none_of_above ho kb bs hsb.1
        rw [commonMultipleLoop]
        by_cases hk : ka = kb
        · subst hk
          simp only [ho.eq_self, if_true]
          have hx : (if va > vb then (ka, va) else (ka, vb)) = (ka, max va vb) := by
            split
            · rw [max_eq_left (by omega)]
            · rw [max_eq_right (by omega)]
          rw [hx, insertAtEnd_eq ho (ka, max va vb) acc hak]
          obtain ⟨R, hR, hRs, hRl⟩ := ih as bs (acc ++ [(ka, max va vb)])
            (by simp at hf ⊢; omega) hsa.2 hsb.2 (keysSorted_push _ _ _ hacc hak)
            (below_push _ _ _ _ hba2 hsa.1) (below_push _ _ _ _ hbb2 hsb.1)
          refine ⟨R, hR, hRs, ?_⟩
          intro f
          rw [hRl f, lookup_append_singleton, lookup_cons_eq, lookup_cons_eq]
          by_cases hfa : f = ka
          · subst hfa
            simp [hla, hlas, hlbs, commonMultipleEntry]
          · simp [hfa]
        · simp only [ho.eq_false_of_ne hk, Bool.false_eq_true, if_false]
          by_cases hlt : lt ka kb = true
          · simp only [hlt, if_true]
            rw [insertAtEnd_eq ho _ _ hak]
            have hab := above_of_lt ho ka kb vb bs hlt hsb.1
            obtain ⟨R, hR, hRs, hRl⟩ := ih as ((kb, vb) :: bs) (acc ++ [(ka, va)])
              (by simp at hf ⊢; omega) hsa.2 ((keysSorted_cons _ _).2 hsb)
              (keysSorted_push _ _ _ hacc hak)
              (below_push _ _ _ _ hba2 hsa.1) (below_push _ _ _ _ hbb hab)
            refine ⟨R, hR, hRs, ?_⟩
            intro f
            rw [hRl f, lookup_append_singleton, lookup_cons_eq, lookup_cons_eq]
            have hlb : List.lookup ka bs = none :=
              lookup_eq_none_of_above ho ka bs (fun e he => ho.trans _ _ _ hlt (hsb.1 e he))
            by_cases hfa : f = ka
            · subst hfa
              simp [hla, hlas, hlb, hk, commonMultipleEntry]
            · simp [hfa]
          · simp only [hlt, Bool.false_eq_true, if_false]
            have hgt : lt kb ka = true := ho.lt_of_not hk (by simpa using hlt)
            rw [insertAtEnd_eq ho _ _ hbk]
            have hba3 := above_of_lt ho kb ka va as hgt hsa.1
            obtain ⟨R, hR, hRs, hRl⟩ := ih ((ka, va) :: as) bs (acc ++ [(kb, vb)])
              (by simp at hf ⊢; omega) ((keysSorted_cons _ _).2 hsa) hsb.2
              (keysSorted_push _ _ _ hacc hbk)
              (below_push _ _ _ _ hba hba3) (below_push _ _ _ _ hbb2 hsb.1)
            refine ⟨R, hR, hRs, ?_⟩
            intro f
            rw [hRl f, lookup_append_singleton, lookup_cons_eq, lookup_cons_eq]
            have hla2 : List.lookup kb as = none :=
              lookup_eq_none_of_above ho kb as (fun e he => ho.trans _ _ _ hgt (hsa.1 e he))
            have hlb1 : List.lookup kb acc = none := lookup_eq_none_of_below ho kb acc hbk
            by_cases hfb : f = kb
            · subst hfb
              simp [hla2, hlb1, hlbs, Ne.symm hk, commonMultipleEntry]
            · simp [hfb]

/-! ## The loops of `commonDivisor` -/

theorem commonDivisorLoop_spec {κ : Type} [DecidableEq κ] {eq lt : κ → κ → Bool}
    (ho : KeyOrder eq lt) :
    ∀ (fuel : ℕ) (as bs cd ra rb : List (κ × ℕ)), as.length + bs.length ≤ fuel →
      KeysSorted lt as → KeysSorted lt bs →
      KeysSorted lt cd → KeysSorted lt ra → KeysSorted lt rb →
      (∀ e ∈ cd, ∀ x ∈ as, lt e.1 x.1 = true) →
      (∀ e ∈ ra, ∀ x ∈ as, lt e.1 x.1 = true) →
      (∀ e ∈ rb, ∀ x ∈ bs, lt e.1 x.1 = true) →
      ∃ R, commonDivisorLoop eq lt fuel as bs ⟨cd, ra, rb⟩ = Except.ok R ∧
        KeysSorted lt R.cdFactorization ∧ KeysSorted lt R.restAFactorization ∧
        KeysSorted lt R.restBFactorization ∧
        ∀ f,
          List.lookup f R.cdFactorization =
            (List.lookup f cd).or
              (commonDivisorEntry (List.lookup f as) (List.lookup f bs)) ∧
          List.lookup f R.restAFactorization =
            (List.lookup f ra).or (restEntry (List.lookup f as) (List.lookup f bs)) ∧
          List.lookup f R.restBFactorization =
            (List.lookup f rb).or (restEntry (List.lookup f bs) (List.lookup f as)) := by
  intro fuel
  induction fuel with
  | zero =>
    intro as bs cd ra rb hf _ _ hcd hra hrb _ _ _
    cases as with
    | nil =>
      cases bs with
      | nil =>
        exact ⟨⟨cd, ra, rb⟩, by simp [commonDivisorLoop, pure, Except.pure], hcd, hra, hrb,
          by simp [commonDivisorEntry, restEntry]⟩
      | cons b bs => simp at hf
    | cons a as => simp at hf
  | succ fuel ih =>
    intro as bs cd ra rb hf hsa hsb hcd hra hrb hbc hba hbb
    cases as with
    | nil =>
      cases bs with
      | nil =>
        exact ⟨⟨cd, ra, rb⟩, by simp [commonDivisorLoop, pure, Except.pure], hcd, hra, hrb,
          by simp [commonDivisorEntry, restEntry]⟩
      | cons b bs =>
        obtain ⟨kb, vb⟩ := b
        rw [keysSorted_cons] at hsb
        obtain ⟨hbk, hbb2⟩ := below_tail rb bs (kb, vb) hbb
        rw [commonDivisorLoop]
        simp only
        rw [insertAtEnd_eq ho _ _ hbk]
        obtain ⟨R, hR, h1, h2, h3, hRl⟩ := ih [] bs cd ra (rb ++ [(kb, vb)])
          (by simp at hf ⊢; omega) hsa hsb.2 hcd hra (keysSorted_push _ _ _ hrb hbk)
          (below_nil _) (below_nil _) (below_push _ _ _ _ hbb2 hsb.1)
        refine ⟨R, hR, h1, h2, h3, fun f => ?_⟩
        obtain ⟨e1, e2, e3⟩ := hRl f
        rw [e1, e2, e3, lookup_append_singleton, lookup_cons_eq]
        have l1 : List.lookup kb rb = none := lookup_eq_none_of_below ho kb rb hbk
        have l2 : List.lookup kb bs = none := lookup_eq_none_of_above ho kb bs hsb.1
        by_cases hfb : f = kb
        · subst hfb
          simp [l1, l2, commonDivisorEntry, restEntry]
        · simp [hfb]
    | cons a as =>
      obtain ⟨ka, va⟩ := a
      rw [keysSorted_cons] at hsa
      obtain ⟨hak, hba2⟩ := below_tail ra as (ka, va) hba
      obtain ⟨hck, hbc2⟩ := below_tail cd as (ka, va) hbc
      have hla : List.lookup ka ra = none := lookup_eq_none_of_below ho ka ra hak
      have hlc : List.lookup ka cd = none := lookup_eq_none_of_below ho ka cd hck
      have hlas : List.lookup ka as = none := lookup_eq_none_of_above ho ka as hsa.1
      cases bs with
      | nil =>
        rw [commonDivisorLoop]
        simp only
        rw [insertAtEnd_eq ho _ _ hak]
        obtain ⟨R, hR, h1, h2, h3, hRl⟩ := ih as [] cd (ra ++ [(ka, va)]) rb
          (by simp at hf ⊢; omega) hsa.2 hsb hcd (keysSorted_push _ _ _ hra hak) hrb
          hbc2 (below_push _ _ _ _ hba2 hsa.1) (below_nil _)
        refine ⟨R, hR, h1, h2, h3, fun f => ?_⟩
        obtain ⟨e1, e2, e3⟩ := hRl f
        rw [e1, e2, e3, lookup_append_singleton, lookup_cons_eq]
        by_cases hfa : f = ka
        · subst hfa
          simp [hla, hlas, commonDivisorEntry, restEntry]
        · simp [hfa]
      | cons b bs =>
        obtain ⟨kb, vb⟩ := b
        rw [keysSorted_cons] at hsb
        obtain ⟨hbk, hbb2⟩ := below_tail rb bs (kb, vb) hbb
        have hlbs : List.lookup kb bs = none := lookup_eq_none_of_above ho kb bs hsb.1
        have hlb : List.lookup kb rb = none := lookup_eq_none_of_below ho kb rb hbk
        rw [commonDivisorLoop]
        simp only
        by_cases hk : ka = kb
        · subst hk
          simp only [ho.eq_self, if_true]
          have hx : (if va < vb then (ka, va) else (ka, vb)) = (ka, min va vb) := by
            split
            · rw [min_eq_left (by omega)]
            · rw [min_eq_right (by omega)]
          rw [hx, insertAtEnd_eq ho (ka, min va vb) cd hck]
          obtain ⟨R, hR, h1, h2, h3, hRl⟩ := ih as bs (cd ++ [(ka, min va vb)]) ra rb
            (by simp at hf ⊢; omega) hsa.2 hsb.2 (keysSorted_push _ _ _ hcd hck) hra hrb
            (below_push _ _ _ _ hbc2 hsa.1) hba2 hbb2
          refine ⟨R, hR, h1, h2, h3, fun f => ?_⟩
          obtain ⟨e1, e2, e3⟩ := hRl f
          rw [e1, e2, e3, lookup_append_singleton, lookup_cons_eq, lookup_cons_eq]
          by_cases hfa : f = ka
          · subst hfa
            simp [hla, hlb, hlc, hlas, hlbs, commonDivisorEntry, restEntry]
          · simp [hfa]
        · simp only [ho.eq_false_of_ne hk, Bool.false_eq_true, if_false]
          by_cases hlt : lt ka kb = true
          · simp only [hlt, if_true]
            rw [insertAtEnd_eq ho _ _ hak]
            obtain ⟨R, hR, h1, h2, h3, hRl⟩ := ih as ((kb, vb) :: bs) cd (ra ++ [(ka, va)]) rb
              (by simp at hf ⊢; omega) hsa.2 ((keysSorted_cons _ _).2 hsb) hcd
              (keysSorted_push _ _ _ hra hak) hrb
              hbc2 (below_push _ _ _ _ hba2 hsa.1) hbb
            refine ⟨R, hR, h1, h2, h3, fun f => ?_⟩
            obtain ⟨e1, e2, e3⟩ := hRl f
            rw [e1, e2, e3, lookup_append_singleton, lookup_cons_eq, lookup_cons_eq]
            have hlb2 : List.lookup ka bs = none :=
              lookup_eq_none_of_above ho ka bs (fun e he => ho.trans _ _ _ hlt (hsb.1 e he))
            by_cases hfa : f = ka
            · subst hfa
              simp [hla, hlas, hlb2, hk, commonDivisorEntry, restEntry]
            · simp [hfa]
          · simp only [hlt, Bool.false_eq_true, if_false]
            have hgt : lt kb ka = true := ho.lt_of_not hk (by simpa using hlt)
            rw [insertAtEnd_eq ho _ _ hbk]
            obtain ⟨R, hR, h1, h2, h3, hRl⟩ := ih ((ka, va) :: as) bs cd ra (rb ++ [(kb, vb)])
              (by simp at hf ⊢; omega) ((keysSorted_cons _ _).2 hsa) hsb.2 hcd hra
              (keysSorted_push _ _ _ hrb hbk)
              hbc hba (below_push _ _ _ _ hbb2 hsb.1)
            refine ⟨R, hR, h1, h2, h3, fun f => ?_⟩
            obtain ⟨e1, e2, e3⟩ := hRl f
            rw [e1, e2, e3, lookup_append_singleton, lookup_cons_eq, lookup_cons_eq]
            have hla2 : List.lookup kb as = none :=
              lookup_eq_none_of_above ho kb as (fun e he => ho.trans _ _ _ hgt (hsa.1 e he))
            by_cases hfb : f = kb
            · subst hfb
              simp [hla2, hlb, hlbs, Ne.symm hk, commonDivisorEntry, restEntry]
            · simp [hfb]

/-! ## Coefficients and runs of the merges -/

theorem quotientQ_of_ne (n d : ℚ) (h : d ≠ 0) : quotientQ n d = Except.ok (n / d) := by
  simp [quotientQ, h, pure, Except.pure]

theorem gcdQ_eq (a b : ℚ) :
    gcdQ a b = Except.ok (((Int.gcd a.num b.num : ℕ) : ℚ) / ((Nat.lcm a.den b.den : ℕ) : ℚ)) := by
  have hl : Nat.lcm a.den b.den ≠ 0 := Nat.lcm_ne_zero a.den_nz b.den_nz
  have h2 : ((Nat.lcm a.den b.den : ℕ) : ℚ) ≠ 0 := by exact_mod_cast hl
  unfold gcdQ gcdZ lcmZ getNum getDenom
  have h3 : Int.lcm (a.den : ℤ) (b.den : ℤ) = Nat.lcm a.den b.den := by
    simp [Int.lcm]
  rw [h3]
  push_cast
  exact quotientQ_of_ne _ _ h2

theorem gcdQ_value_ne_zero (a b : ℚ) (h : a ≠ 0 ∨ b ≠ 0) :
    ((Int.gcd a.num b.num : ℕ) : ℚ) / ((Nat.lcm a.den b.den : ℕ) : ℚ) ≠ 0 := by
  have hl : Nat.lcm a.den b.den ≠ 0 := Nat.lcm_ne_zero a.den_nz b.den_nz
  have h2 : ((Nat.lcm a.den b.den : ℕ) : ℚ) ≠ 0 := by exact_mod_cast hl
  have hg : Int.gcd a.num b.num ≠ 0 := by
    intro h0
    rw [Int.gcd_eq_zero_iff] at h0
    rcases h with h | h
    · exact h (Rat.num_eq_zero.1 h0.1)
    · exact h (Rat.num_eq_zero.1 h0.2)
  have h3 : ((Int.gcd a.num b.num : ℕ) : ℚ) ≠ 0 := by exact_mod_cast hg
  exact div_ne_zero h3 h2

theorem lcmQ_eq (a b : ℚ) :
    lcmQ a b = Except.ok (((Int.lcm a.num b.num : ℕ) : ℚ) / ((Nat.gcd a.den b.den : ℕ) : ℚ)) := by
  have hl : Nat.gcd a.den b.den ≠ 0 := Nat.gcd_ne_zero_left a.den_nz
  have h2 : ((Nat.gcd a.den b.den : ℕ) : ℚ) ≠ 0 := by exact_mod_cast hl
  unfold lcmQ gcdZ lcmZ getNum getDenom
  have h3 : Int.gcd (a.den : ℤ) (b.den : ℤ) = Nat.gcd a.den b.den := by
    simp [Int.gcd]
  rw [h3]
  push_cast
  exact quotientQ_of_ne _ _ h2

theorem lcmQ_comm (a b : ℚ) : lcmQ a b = lcmQ b a := by
  rw [lcmQ_eq, lcmQ_eq, Int.lcm_comm, Nat.gcd_comm]

theorem commonMultipleEntry_comm (x y : Option ℕ) :
    commonMultipleEntry x y = commonMultipleEntry y x := by
  cases x <;> cases y <;> simp [commonMultipleEntry, max_comm]

theorem below_of_nil {κ : Type} {lt : κ → κ → Bool} (as : List (κ × ℕ)) :
    ∀ e ∈ ([] : List (κ × ℕ)), ∀ x ∈ as, lt e.1 x.1 = true := by
  intro e he
  cases he

theorem lazyDiv_run {κ : Type} [DecidableEq κ] {eq lt : κ → κ → Bool}
    (ho : KeyOrder eq lt) (fuel : ℕ) (a b : FactorizedPolynomial κ)
    (hc : a.cache = b.cache) (hsa : KeysSorted lt a.factorization)
    (hsb : KeysSorted lt b.factorization) (hb : b.coefficient ≠ 0)
    (hf : a.factorization.length + b.factorization.length ≤ fuel) :
    ∃ R, lazyDiv eq lt fuel a b = Except.ok ⟨a.cache, R, a.coefficient / b.coefficient⟩ ∧
      KeysSorted lt R ∧
      ∀ f, List.lookup f R =
        lazyDivEntry (List.lookup f a.factorization) (List.lookup f b.factorization) := by
  obtain ⟨R, hR, hRs, hRl⟩ := lazyDivLoop_spec ho fuel a.factorization b.factorization []
    hf hsa hsb keysSorted_nil (below_of_nil _)
  refine ⟨R, ?_, hRs, fun f => by rw [hRl f]; simp⟩
  unfold lazyDiv
  rw [UnivariatePolynomial.assertThat_of (by simp [hc]), hR, quotientQ_of_ne _ _ hb]
  rfl

theorem commonMultiple_run {κ : Type} [DecidableEq κ] {eq lt : κ → κ → Bool}
    (ho : KeyOrder eq lt) (fuel : ℕ) (a b : FactorizedPolynomial κ)
    (hc : a.cache = b.cache) (hsa : KeysSorted lt a.factorization)
    (hsb : KeysSorted lt b.factorization)
    (hf : a.factorization.length + b.factorization.length ≤ fuel) :
    ∃ R, commonMultiple eq lt fuel a b = Except.ok ⟨a.cache, R,
        ((Int.lcm a.coefficient.num b.coefficient.num : ℕ) : ℚ) /
          ((Nat.gcd a.coefficient.den b.coefficient.den : ℕ) : ℚ)⟩ ∧
      KeysSorted lt R ∧
      ∀ f, List.lookup f R =
        commonMultipleEntry (List.lookup f a.factorization)
          (List.lookup f b.factorization) := by
  obtain ⟨R, hR, hRs, hRl⟩ := commonMultipleLoop_spec ho fuel a.factorization
    b.factorization [] hf hsa hsb keysSorted_nil (below_of_nil _) (below_of_nil _)
  refine ⟨R, ?_, hRs, fun f => by rw [hRl f]; simp⟩
  unfold commonMultiple
  rw [UnivariatePolynomial.assertThat_of (by simp [hc]), hR, lcmQ_eq]
  rfl

theorem commonDivisor_run {κ : Type} [DecidableEq κ] {eq lt : κ → κ → Bool}
    (ho : KeyOrder eq lt) (fuel : ℕ)
    (a b restA restB : FactorizedPolynomial κ)
    (hc : a.cache = b.cache) (hsa : KeysSorted lt a.factorization)
    (hsb : KeysSorted lt b.factorization)
    (hne : a.coefficient ≠ 0 ∨ b.coefficient ≠ 0)
    (hf : a.factorization.length + b.factorization.length ≤ fuel) :
    ∃ R : CommonDivisorState κ,
      commonDivisor eq lt fuel a b restA restB = Except.ok
        ⟨⟨a.cache, R.cdFactorization,
            ((Int.gcd a.coefficient.num b.coefficient.num : ℕ) : ℚ) /
              ((Nat.lcm a.coefficient.den b.coefficient.den : ℕ) : ℚ)⟩,
          ⟨restA.cache, R.restAFactorization, restA.coefficient⟩,
          ⟨restB.cache, R.restBFactorization, restB.coefficient⟩⟩ ∧
      KeysSorted lt R.cdFactorization ∧ KeysSorted lt R.restAFactorization ∧
      KeysSorted lt R.restBFactorization ∧
      ∀ f,
        List.lookup f R.cdFactorization =
          commonDivisorEntry (List.lookup f a.factorization)
            (List.lookup f b.factorization) ∧
        List.lookup f R.restAFactorization =
          restEntry (List.lookup f a.factorization) (List.lookup f b.factorization) ∧
        List.lookup f R.restBFactorization =
          restEntry (List.lookup f b.factorization) (List.lookup f a.factorization) := by
  obtain ⟨R, hR, h1, h2, h3, hRl⟩ := commonDivisorLoop_spec ho fuel a.factorization
    b.factorization [] [] [] hf hsa hsb keysSorted_nil keysSorted_nil keysSorted_nil
    (below_of_nil _) (below_of_nil _) (below_of_nil _)
  refine ⟨R, ?_, h1, h2, h3, fun f => by
    obtain ⟨e1, e2, e3⟩ := hRl f
    rw [e1, e2, e3]
    simp⟩
  unfold commonDivisor
  rw [UnivariatePolynomial.assertThat_of (by simp [hc]), hR, gcdQ_eq]
  simp only [UnivariatePolynomial.bind_ok]
  rw [quotientQ_of_ne _ _ (gcdQ_value_ne_zero _ _ hne),
    quotientQ_of_ne _ _ (gcdQ_value_ne_zero _ _ hne)]
  simp only [UnivariatePolynomial.bind_ok, FactorizedPolynomial.assign]
  rw [UnivariatePolynomial.assertThat_of (by simp),
    UnivariatePolynomial.assertThat_of (by simp)]
  rfl

/-! ## The claims on `lazyDiv`, `commonDivisor` and `commonMultiple` -/

/-- C16: for handles `a` and `b` on the same cache with key-sorted factorizations (`b` with
a coefficient other than 0, the division by which is a fault), `lazyDiv(a, b)` returns a
handle on that cache whose coefficient is `coeffA / coeffB` and whose factorization is
key-sorted and has, at every factor `f`, the entry `multA(f)` when `f` is a factor of `a`
absent from `b`, the entry `multA(f) - multB(f)` when `multA(f) > multB(f)`, and no entry
otherwise; hence whenever the multiplicities of `b` are at most those of `a`, the
multiplicities of the result and of `b` add up to those of `a`. -/
theorem lazyDiv_factors {κ : Type} [DecidableEq κ] (eq lt : κ → κ → Bool)
    (ho : KeyOrder eq lt) (fuel : ℕ) (a b : FactorizedPolynomial κ)
    (hc : a.cache = b.cache) (hsa : KeysSorted lt a.factorization)
    (hsb : KeysSorted lt b.factorization) (hb : b.coefficient ≠ 0)
    (hf : a.factorization.length + b.factorization.length ≤ fuel) :
    ∃ r, lazyDiv eq lt fuel a b = Except.ok r ∧ r.cache = a.cache ∧
      r.coefficient = a.coefficient / b.coefficient ∧
      KeysSorted lt r.factorization ∧
      (∀ f, List.lookup f r.factorization =
        lazyDivEntry (List.lookup f a.factorization) (List.lookup f b.factorization)) ∧
      ((∀ f, multiplicityIn b.factorization f ≤ multiplicityIn a.factorization f) →
        ∀ f, multiplicityIn r.factorization f + multiplicityIn b.factorization f =
          multiplicityIn a.factorization f) := by
  obtain ⟨R, hR, hRs, hRl⟩ := lazyDiv_run ho fuel a b hc hsa hsb hb hf
  refine ⟨_, hR, rfl, rfl, hRs, hRl, ?_⟩
  intro hsub f
  have h1 := hsub f
  have h2 := hRl f
  unfold multiplicityIn at h1 ⊢
  simp only at h2 ⊢
  rw [h2]
  cases ha : List.lookup f a.factorization with
  | none =>
    cases hb2 : List.lookup f b.factorization with
    | none => simp [lazyDivEntry]
    | some n =>
      rw [ha, hb2] at h1
      simp only [Option.getD_some, Option.getD_none] at h1
      simp only [lazyDivEntry, Option.getD_some, Option.getD_none]
      omega
  | some m =>
    cases hb2 : List.lookup f b.factorization with
    | none => simp [lazyDivEntry]
    | some n =>
      rw [ha, hb2] at h1
      simp only [Option.getD_some] at h1
      simp only [lazyDivEntry]
      split
      · simp only [Option.getD_some]
        omega
      · simp only [Option.getD_some, Option.getD_none]
        omega

theorem lazyDiv_factors_witness :
    ∃ r, lazyDiv eqNat ltNat 3 ⟨0, [(1, 2), (2, 1)], 6⟩ ⟨0, [(1, 1)], 3⟩ = Except.ok r ∧
      r.cache = 0 ∧ r.coefficient = 6 / 3 ∧ KeysSorted ltNat r.factorization ∧
      (∀ f, List.lookup f r.factorization =
        lazyDivEntry (List.lookup f [(1, 2), (2, 1)]) (List.lookup f [(1, 1)])) ∧
      ((∀ f, multiplicityIn [(1, 1)] f ≤ multiplicityIn [(1, 2), (2, 1)] f) →
        ∀ f, multiplicityIn r.factorization f + multiplicityIn [(1, 1)] f =
          multiplicityIn [(1, 2), (2, 1)] f) :=
  lazyDiv_factors eqNat ltNat keyOrder_nat 3 ⟨0, [(1, 2), (2, 1)], 6⟩ ⟨0, [(1, 1)], 3⟩ rfl
    (by decide) (by decide) (by norm_num) (by decide)

/-- C17 (counterexample): for two handles on the same cache with the key-sorted
factorization `{f: 1}` and the coefficient 0, `commonDivisor` returns no handle:
`carl::gcd(0, 0)` is 0 and the division of the coefficient of `a` by it is a division by
zero. -/
theorem commonDivisor_zero_coefficients_faults :
    gcdQ 0 0 = Except.ok 0 ∧
      commonDivisor eqNat ltNat 2 ⟨0, [(1, 1)], 0⟩ ⟨0, [(1, 1)], 0⟩ ⟨0, [], 1⟩ ⟨0, [], 1⟩ =
        Except.error Fault.divisionByZero ∧
      KeysSorted ltNat [(1, 1)] := by
  decide!

/-- C17 (amended): for handles `a` and `b` on the same cache with key-sorted factorizations
and coefficients that are not both 0, `commonDivisor` returns a handle whose coefficient is
`carl::gcd(coeffA, coeffB)`, the gcd of the numerators over the lcm of the denominators, and
whose factorization has exactly the factors of both `a` and `b`, with the smaller of the two
multiplicities; the factorization of `restA` has exactly the factors of `a` absent from `b`
and that of `restB` exactly the factors of `b` absent from `a`, with their multiplicities. -/
theorem commonDivisor_factors {κ : Type} [DecidableEq κ] (eq lt : κ → κ → Bool)
    (ho : KeyOrder eq lt) (fuel : ℕ) (a b restA restB : FactorizedPolynomial κ)
    (hc : a.cache = b.cache) (hsa : KeysSorted lt a.factorization)
    (hsb : KeysSorted lt b.factorization)
    (hne : a.coefficient ≠ 0 ∨ b.coefficient ≠ 0)
    (hf : a.factorization.length + b.factorization.length ≤ fuel) :
    ∃ r, commonDivisor eq lt fuel a b restA restB = Except.ok r ∧
      r.divisor.cache = a.cache ∧
      gcdQ a.coefficient b.coefficient = Except.ok r.divisor.coefficient ∧
      r.divisor.coefficient =
        ((Int.gcd a.coefficient.num b.coefficient.num : ℕ) : ℚ) /
          ((Nat.lcm a.coefficient.den b.coefficient.den : ℕ) : ℚ) ∧
      KeysSorted lt r.divisor.factorization ∧ KeysSorted lt r.restA.factorization ∧
      KeysSorted lt r.restB.factorization ∧
      ∀ f,
        List.lookup f r.divisor.factorization =
          commonDivisorEntry (List.lookup f a.factorization)
            (List.lookup f b.factorization) ∧
        List.lookup f r.restA.factorization =
          restEntry (List.lookup f a.factorization) (List.lookup f b.factorization) ∧
        List.lookup f r.restB.factorization =
          restEntry (List.lookup f b.factorization) (List.lookup f a.factorization) := by
  obtain ⟨R, hR, h1, h2, h3, hRl⟩ :=
    commonDivisor_run ho fuel a b restA restB hc hsa hsb hne hf
  exact ⟨_, hR, rfl, gcdQ_eq _ _, rfl, h1, h2, h3, hRl⟩

theorem commonDivisor_factors_witness :
    ∃ r, commonDivisor eqNat ltNat 4 ⟨0, [(1, 2), (3, 1)], 6⟩ ⟨0, [(1, 1), (2, 5)], 4⟩
        ⟨0, [], 1⟩ ⟨0, [], 1⟩ = Except.ok r ∧
      r.divisor.cache = 0 ∧
      gcdQ 6 4 = Except.ok r.divisor.coefficient ∧
      r.divisor.coefficient =
        ((Int.gcd (6 : ℚ).num (4 : ℚ).num : ℕ) : ℚ) /
          ((Nat.lcm (6 : ℚ).den (4 : ℚ).den : ℕ) : ℚ) ∧
      KeysSorted ltNat r.divisor.factorization ∧ KeysSorted ltNat r.restA.factorization ∧
      KeysSorted ltNat r.restB.factorization ∧
      ∀ f,
        List.lookup f r.divisor.factorization =
          commonDivisorEntry (List.lookup f [(1, 2), (3, 1)])
            (List.lookup f [(1, 1), (2, 5)]) ∧
        List.lookup f r.restA.factorization =
          restEntry (List.lookup f [(1, 2), (3, 1)]) (List.lookup f [(1, 1), (2, 5)]) ∧
        List.lookup f r.restB.factorization =
          restEntry (List.lookup f [(1, 1), (2, 5)]) (List.lookup f [(1, 2), (3, 1)]) :=
  commonDivisor_factors eqNat ltNat keyOrder_nat 4 ⟨0, [(1, 2), (3, 1)], 6⟩
    ⟨0, [(1, 1), (2, 5)], 4⟩ ⟨0, [], 1⟩ ⟨0, [], 1⟩ rfl (by decide) (by decide)
    (Or.inl (by norm_num)) (by decide)

/-- C18 (the code at the failing input): `commonDivisor` on `a` with coefficient 6 and `b`
with coefficient 4, the rests holding the coefficient 1 before the call, computes the gcd 2
and leaves both rests with the coefficient 1, where `6 / 2 = 3` and `4 / 2 = 2` are due:
`operator=` takes over the cache reference of the temporary and not its coefficient, as
`FactorizedPolynomial.assign` shows on a handle with coefficient 1. -/
theorem commonDivisor_rest_coefficients_kept :
    commonDivisor eqNat ltNat 2 ⟨0, [(1, 1)], 6⟩ ⟨0, [(2, 1)], 4⟩ ⟨0, [], 1⟩ ⟨0, [], 1⟩ =
        Except.ok ⟨⟨0, [], 2⟩, ⟨0, [(1, 1)], 1⟩, ⟨0, [(2, 1)], 1⟩⟩ ∧
      gcdQ 6 4 = Except.ok 2 ∧ quotientQ 6 2 = Except.ok 3 ∧ quotientQ 4 2 = Except.ok 2 ∧
      FactorizedPolynomial.assign (⟨0, [], 1⟩ : FactorizedPolynomial ℕ) ⟨0, [(1, 1)], 3⟩ =
        Except.ok ⟨0, [(1, 1)], 1⟩ := by
  decide!

/-- C19 (the code at the failing input): for `a = f^2` and `b = f` with coefficients 1,
`commonDivisor` returns `d = f` and leaves `restA` without a factor, so that
`multD(f) + multRestA(f) = 1` where `multA(f) = 2`; `lazyDiv` on the same handles keeps the
difference of the multiplicities. -/
theorem commonDivisor_drops_surplus :
    KeysSorted ltNat [(1, 2)] ∧ KeysSorted ltNat [(1, 1)] ∧
      commonDivisor eqNat ltNat 2 ⟨0, [(1, 2)], 1⟩ ⟨0, [(1, 1)], 1⟩ ⟨0, [], 1⟩ ⟨0, [], 1⟩ =
        Except.ok ⟨⟨0, [(1, 1)], 1⟩, ⟨0, [], 1⟩, ⟨0, [], 1⟩⟩ ∧
      multiplicityIn [(1, 1)] 1 + multiplicityIn ([] : List (ℕ × ℕ)) 1 = 1 ∧
      multiplicityIn [(1, 2)] 1 = 2 ∧
      lazyDiv eqNat ltNat 2 ⟨0, [(1, 2)], 1⟩ ⟨0, [(1, 1)], 1⟩ =
        Except.ok ⟨0, [(1, 1)], 1⟩ := by
  decide!

/-- C20: for handles `a` and `b` on the same cache with key-sorted factorizations,
`commonMultiple(a, b)` returns a handle whose coefficient is `carl::lcm(coeffA, coeffB)`,
the lcm of the numerators over the gcd of the denominators, and whose factorization has
exactly the factors of `a` or of `b`: the larger multiplicity for a factor of both, the
multiplicity itself for a factor of one of them; `commonMultiple(b, a)` returns the same
handle. -/
theorem commonMultiple_factors {κ : Type} [DecidableEq κ] (eq lt : κ → κ → Bool)
    (ho : KeyOrder eq lt) (fuel : ℕ) (a b : FactorizedPolynomial κ)
    (hc : a.cache = b.cache) (hsa : KeysSorted lt a.factorization)
    (hsb : KeysSorted lt b.factorization)
    (hf : a.factorization.length + b.factorization.length ≤ fuel) :
    ∃ r, commonMultiple eq lt fuel a b = Except.ok r ∧ r.cache = a.cache ∧
      lcmQ a.coefficient b.coefficient = Except.ok r.coefficient ∧
      r.coefficient =
        ((Int.lcm a.coefficient.num b.coefficient.num : ℕ) : ℚ) /
          ((Nat.gcd a.coefficient.den b.coefficient.den : ℕ) : ℚ) ∧
      KeysSorted lt r.factorization ∧
      (∀ f, List.lookup f r.factorization =
        commonMultipleEntry (List.lookup f a.factorization)
          (List.lookup f b.factorization)) ∧
      commonMultiple eq lt fuel b a = Except.ok r := by
  obtain ⟨R, hR, hRs, hRl⟩ := commonMultiple_run ho fuel a b hc hsa hsb hf
  obtain ⟨R', hR', hRs', hRl'⟩ := commonMultiple_run ho fuel b a hc.symm hsb hsa
    (by omega)
  refine ⟨_, hR, rfl, lcmQ_eq _ _, rfl, hRs, hRl, ?_⟩
  have hRR : R' = R := by
    apply eq_of_keysSorted_of_lookup ho R' R hRs' hRs
    intro f
    rw [hRl f, hRl' f, commonMultipleEntry_comm]
  rw [hR', hRR, hc, Int.lcm_comm, Nat.gcd_comm]

theorem commonMultiple_factors_witness :
    ∃ r, commonMultiple eqNat ltNat 4 ⟨0, [(1, 2), (3, 1)], 6⟩ ⟨0, [(1, 1), (2, 5)], 4⟩ =
        Except.ok r ∧ r.cache = 0 ∧
      lcmQ 6 4 = Except.ok r.coefficient ∧
      r.coefficient =
        ((Int.lcm (6 : ℚ).num (4 : ℚ).num : ℕ) : ℚ) /
          ((Nat.gcd (6 : ℚ).den (4 : ℚ).den : ℕ) : ℚ) ∧
      KeysSorted ltNat r.factorization ∧
      (∀ f, List.lookup f r.factorization =
        commonMultipleEntry (List.lookup f [(1, 2), (3, 1)])
          (List.lookup f [(1, 1), (2, 5)])) ∧
      commonMultiple eqNat ltNat 4 ⟨0, [(1, 1), (2, 5)], 4⟩ ⟨0, [(1, 2), (3, 1)], 6⟩ =
        Except.ok r :=
  commonMultiple_factors eqNat ltNat keyOrder_nat 4 ⟨0, [(1, 2), (3, 1)], 6⟩
    ⟨0, [(1, 1), (2, 5)], 4⟩ rfl (by decide) (by decide) (by decide)

/-! ## `carl::quotient` and `carl::mod` on integers -/

/-! ### `carl::quotient` and `carl::mod` on integers -/

theorem quotient_eq_tdiv (n m : ℤ) (hm : m ≠ 0) : quotient n m = Except.ok (Int.tdiv n m) := by
  unfold quotient
  rw [if_neg hm]
  simp only [pure, Except.pure]
  congr 1
  rw [Int.ofNat_tdiv]
  by_cases hn : n < 0
  · have h1 : ((n.natAbs : ℕ) : ℤ) = -n := by omega
    by_cases hd : m < 0
    · have h2 : ((m.natAbs : ℕ) : ℤ) = -m := by omega
      simp only [hn, hd, decide_True, if_true]
      rw [h1, h2, Int.neg_tdiv_neg]
    · have h2 : ((m.natAbs : ℕ) : ℤ) = m := by omega
      simp only [hn, hd, decide_True, decide_False, Bool.true_eq_false, if_false]
      rw [h1, h2, Int.neg_tdiv, neg_neg]
  · have h1 : ((n.natAbs : ℕ) : ℤ) = n := by omega
    by_cases hd : m < 0
    · have h2 : ((m.natAbs : ℕ) : ℤ) = -m := by omega
      simp only [hn, hd, decide_True, decide_False, Bool.false_eq_true, if_false]
      rw [h1, h2, Int.tdiv_neg, neg_neg]
    · have h2 : ((m.natAbs : ℕ) : ℤ) = m := by omega
      simp only [hn, hd, decide_False, if_true]
      rw [h1, h2]

theorem mod_eq_tmod (n m : ℤ) (hm : m ≠ 0) : mod n m = Except.ok (Int.tmod n m) := by
  unfold mod
  rw [if_neg hm]
  simp only [pure, Except.pure]
  congr 1
  rw [Int.ofNat_tmod]
  by_cases hn : n < 0
  · have h1 : ((n.natAbs : ℕ) : ℤ) = -n := by omega
    rw [if_pos hn, h1]
    by_cases hd : m < 0
    · have h2 : ((m.natAbs : ℕ) : ℤ) = -m := by omega
      rw [h2, Int.tmod_neg, Int.tmod_def, Int.tmod_def, Int.neg_tdiv]
      ring
    · have h2 : ((m.natAbs : ℕ) : ℤ) = m := by omega
      rw [h2, Int.tmod_def, Int.tmod_def, Int.neg_tdiv]
      ring
  · have h1 : ((n.natAbs : ℕ) : ℤ) = n := by omega
    rw [if_neg hn, h1]
    by_cases hd : m < 0
    · have h2 : ((m.natAbs : ℕ) : ℤ) = -m := by omega
      rw [h2, Int.tmod_neg]
    · have h2 : ((m.natAbs : ℕ) : ℤ) = m := by omega
      rw [h2]

theorem mod_bounds (n m : ℤ) (hm : m ≠ 0) :
    ∃ r, mod n m = Except.ok r ∧ |r| < |m| ∧ (r = 0 ∨ Int.sign r = Int.sign n) := by
  have hb : 0 < m.natAbs := Int.natAbs_pos.mpr hm
  have hlt : ((n.natAbs % m.natAbs : ℕ) : ℤ) < |m| := by
    rw [← Int.natCast_natAbs m]
    exact_mod_cast Nat.mod_lt _ hb
  have hnn : (0 : ℤ) ≤ ((n.natAbs % m.natAbs : ℕ) : ℤ) := Int.natCast_nonneg _
  unfold mod
  rw [if_neg hm]
  simp only [pure, Except.pure]
  by_cases hn : n < 0
  · refine ⟨_, rfl, ?_, ?_⟩
    · rw [if_pos hn, abs_neg, abs_of_nonneg hnn]
      exact hlt
    · rw [if_pos hn]
      rcases hnn.eq_or_lt with h0 | h0
      · left
        rw [← h0]
        rfl
      · right
        rw [Int.sign_eq_neg_one_of_neg (by omega), Int.sign_eq_neg_one_of_neg hn]
  · refine ⟨_, rfl, ?_, ?_⟩
    · rw [if_neg hn, abs_of_nonneg hnn]
      exact hlt
    · rw [if_neg hn]
      rcases hnn.eq_or_lt with h0 | h0
      · left
        exact h0.symm
      · right
        have hn0 : 0 < n := by
          rcases (not_lt.mp hn).eq_or_lt with h | h
          · subst h
            simp at h0
          · exact h
        rw [Int.sign_eq_one_of_pos h0, Int.sign_eq_one_of_pos hn0]

/-- C30: for all integers `n` and `m` with `m != 0`, `carl::quotient(n, m)` and
`carl::mod(n, m)` return the quotient and the remainder of the truncating division of native
signed integers: `quotient(n, m) * m + mod(n, m) == n`, `|mod(n, m)| < |m|`, and `mod(n, m)`
is zero or has the sign of `n`. -/
theorem quotient_mod_truncating (n m : ℤ) (hm : m ≠ 0) :
    ∃ q r, quotient n m = Except.ok q ∧ mod n m = Except.ok r ∧
      q = Int.tdiv n m ∧ r = Int.tmod n m ∧
      q * m + r = n ∧ |r| < |m| ∧ (r = 0 ∨ Int.sign r = Int.sign n) := by
  obtain ⟨r, hr, h1, h2⟩ := mod_bounds n m hm
  have hr2 : r = Int.tmod n m := by
    have := mod_eq_tmod n m hm
    rw [hr] at this
    exact Except.ok.inj this
  refine ⟨Int.tdiv n m, r, quotient_eq_tdiv n m hm, hr, rfl, hr2, ?_, h1, h2⟩
  rw [hr2]
  exact Int.tdiv_add_tmod' n m

theorem quotient_mod_truncating_witness :
    ∃ q r, quotient (-7) 2 = Except.ok q ∧ mod (-7) 2 = Except.ok r ∧
      q = Int.tdiv (-7) 2 ∧ r = Int.tmod (-7) 2 ∧
      q * 2 + r = -7 ∧ |r| < |(2 : ℤ)| ∧ (r = 0 ∨ Int.sign r = Int.sign (-7)) :=
  quotient_mod_truncating (-7) 2 (by decide)

/-! ## The order `operator<` -/

namespace UnivariatePolynomial

/-! ### the comparison from the highest index down -/

theorem ltFromTop_irrefl (as : List ℚ) : ltFromTop as as = false := by
  induction as with
  | nil => rfl
  | cons a as ih => simp [ltFromTop, ih]

theorem ltFromTop_trans : ∀ (as bs cs : List ℚ), ltFromTop as bs = true →
    ltFromTop bs cs = true → ltFromTop as cs = true := by
  intro as
  induction as with
  | nil => intro bs cs h; simp [ltFromTop] at h
  | cons a as ih =>
    intro bs cs h1 h2
    cases bs with
    | nil => simp [ltFromTop] at h1
    | cons b bs =>
      cases cs with
      | nil => simp [ltFromTop] at h2
      | cons c cs =>
        simp only [ltFromTop] at h1 h2 ⊢
        by_cases hab : a = b
        · subst hab
          rw [if_pos rfl] at h1
          by_cases hbc : a = c
          · subst hbc
            rw [if_pos rfl] at h2 ⊢
            exact ih bs cs h1 h2
          · rw [if_neg hbc] at h2 ⊢
            exact h2
        · rw [if_neg hab] at h1
          have hlt : a < b := by simpa using h1
          by_cases hbc : b = c
          · subst hbc
            rw [if_neg hab]
            exact h1
          · rw [if_neg hbc] at h2
            have hlt2 : b < c := by simpa using h2
            have hac : a ≠ c := ne_of_lt (lt_trans hlt hlt2)
            rw [if_neg hac]
            simpa using lt_trans hlt hlt2

theorem ltFromTop_total : ∀ (as bs : List ℚ), as.length = bs.length → as ≠ bs →
    ltFromTop as bs = true ∨ ltFromTop bs as = true := by
  intro as
  induction as with
  | nil =>
    intro bs hl hne
    cases bs with
    | nil => exact absurd rfl hne
    | cons b bs => simp at hl
  | cons a as ih =>
    intro bs hl hne
    cases bs with
    | nil => simp at hl
    | cons b bs =>
      simp only [ltFromTop]
      by_cases hab : a = b
      · subst hab
        rw [if_pos rfl, if_pos rfl]
        apply ih bs (by simpa using hl)
        intro h
        exact hne (by rw [h])
      · rw [if_neg hab, if_neg (Ne.symm hab)]
        rcases lt_or_gt_of_ne hab with h | h
        · left; simpa using h
        · right; simpa using h

theorem ltFromTop_iff : ∀ (as bs : List ℚ), as.length = bs.length →
    (ltFromTop as bs = true ↔
      ∃ i, i < as.length ∧ as.getD i 0 < bs.getD i 0 ∧
        ∀ j, j < i → as.getD j 0 = bs.getD j 0) := by
  intro as
  induction as with
  | nil =>
    intro bs _
    simp [ltFromTop]
  | cons a as ih =>
    intro bs hl
    cases bs with
    | nil => simp at hl
    | cons b bs =>
      have hl2 : as.length = bs.length := by simpa using hl
      simp only [ltFromTop]
      by_cases hab : a = b
      · subst hab
        rw [if_pos rfl, ih bs hl2]
        constructor
        · rintro ⟨i, hi, h1, h2⟩
          refine ⟨i + 1, by simpa using hi, by simpa using h1, ?_⟩
          intro j hj
          cases j with
          | zero => simp
          | succ j => simpa using h2 j (by omega)
        · rintro ⟨i, hi, h1, h2⟩
          cases i with
          | zero => simp at h1
          | succ i =>
            refine ⟨i, by simpa using hi, by simpa using h1, ?_⟩
            intro j hj
            simpa using h2 (j + 1) (by omega)
      · rw [if_neg hab]
        constructor
        · intro h
          exact ⟨0, by simp, by simpa using h, fun j hj => absurd hj (Nat.not_lt_zero j)⟩
        · rintro ⟨i, _, h1, h2⟩
          cases i with
          | zero => simpa using h1
          | succ i =>
            have := h2 0 (Nat.succ_pos i)
            simp at this
            exact absurd this hab

theorem getD_reverse (p : List ℚ) (i : ℕ) (hi : i < p.length) :
    p.reverse.getD i 0 = p.getD (p.length - 1 - i) 0 := by
  rw [List.getD_eq_getElem?_getD, List.getD_eq_getElem?_getD, List.getElem?_reverse hi]

/-! ### `operator<` -/

theorem operatorLt_irrefl (p : List ℚ) : lt p p = false := by
  unfold lt
  rw [if_pos rfl]
  exact ltFromTop_irrefl _

theorem operatorLt_trans (p q r : List ℚ) (h1 : lt p q = true) (h2 : lt q r = true) :
    lt p r = true := by
  unfold lt at h1 h2 ⊢
  by_cases hpq : p.length = q.length
  · rw [if_pos hpq] at h1
    by_cases hqr : q.length = r.length
    · rw [if_pos hqr] at h2
      rw [if_pos (hpq.trans hqr)]
      exact ltFromTop_trans _ _ _ h1 h2
    · rw [if_neg hqr] at h2
      have : q.length < r.length := by simpa using h2
      rw [if_neg (by omega)]
      simp only [decide_eq_true_eq]
      omega
  · rw [if_neg hpq] at h1
    have h1' : p.length < q.length := by simpa using h1
    by_cases hqr : q.length = r.length
    · rw [if_neg (by omega)]
      simp only [decide_eq_true_eq]
      omega
    · rw [if_neg hqr] at h2
      have : q.length < r.length := by simpa using h2
      rw [if_neg (by omega)]
      simp only [decide_eq_true_eq]
      omega

theorem operatorLt_total (p q : List ℚ) : lt p q = true ∨ p = q ∨ lt q p = true := by
  by_cases hpq : p = q
  · exact Or.inr (Or.inl hpq)
  · unfold lt
    by_cases hl : p.length = q.length
    · rw [if_pos hl, if_pos hl.symm]
      have hne : p.reverse ≠ q.reverse := fun h => hpq (List.reverse_injective h)
      rcases ltFromTop_total p.reverse q.reverse (by simpa using hl) hne with h | h
      · exact Or.inl h
      · exact Or.inr (Or.inr h)
    · rw [if_neg hl, if_neg (Ne.symm hl)]
      rcases Nat.lt_or_gt_of_ne hl with h | h
      · left; simpa using h
      · right; right; simpa using h

theorem operatorLt_iff (p q : List ℚ) :
    lt p q = true ↔ p.length < q.length ∨ (p.length = q.length ∧
      ∃ i, i < p.length ∧ p.getD i 0 < q.getD i 0 ∧
        ∀ j, i < j → j < p.length → p.getD j 0 = q.getD j 0) := by
  unfold lt
  by_cases hl : p.length = q.length
  · rw [if_pos hl, ltFromTop_iff _ _ (by simpa using hl)]
    simp only [List.length_reverse]
    constructor
    · rintro ⟨i, hi, h1, h2⟩
      right
      refine ⟨hl, p.length - 1 - i, by omega, ?_, ?_⟩
      · rw [getD_reverse p i hi, getD_reverse q i (by omega), ← hl] at h1
        exact h1
      · intro j hj hjp
        have := h2 (p.length - 1 - j) (by omega)
        rw [getD_reverse p _ (by omega), getD_reverse q _ (by omega), ← hl] at this
        have e : p.length - 1 - (p.length - 1 - j) = j := by omega
        rw [e] at this
        exact this
    · rintro (h | ⟨_, i, hi, h1, h2⟩)
      · omega
      · refine ⟨p.length - 1 - i, by omega, ?_, ?_⟩
        · rw [getD_reverse p _ (by omega), getD_reverse q _ (by omega), ← hl]
          have e : p.length - 1 - (p.length - 1 - i) = i := by omega
          rw [e]
          exact h1
        · intro j hj
          rw [getD_reverse p _ (by omega), getD_reverse q _ (by omega), ← hl]
          exact h2 _ (by omega) (by omega)
  · rw [if_neg hl]
    simp only [decide_eq_true_eq]
    constructor
    · intro h; exact Or.inl h
    · rintro (h | ⟨h, _⟩)
      · exact h
      · exact absurd h hl

/-- C24: on polynomials in the same main variable, `p < q` holds exactly when `p` has fewer
coefficients than `q`, or equally many and at the highest index where the coefficients differ
that of `p` is the smaller one; the relation is irreflexive, transitive, and total on unequal
polynomials. -/
theorem lt_strict_total_order (p q r : List ℚ) :
    (lt p q = true ↔ p.length < q.length ∨ (p.length = q.length ∧
      ∃ i, i < p.length ∧ p.getD i 0 < q.getD i 0 ∧
        ∀ j, i < j → j < p.length → p.getD j 0 = q.getD j 0)) ∧
    lt p p = false ∧
    (lt p q = true → lt q r = true → lt p r = true) ∧
    (p ≠ q → lt p q = true ∨ lt q p = true) := by
  refine ⟨operatorLt_iff p q, operatorLt_irrefl p, operatorLt_trans p q r, ?_⟩
  intro hne
  rcases operatorLt_total p q with h | h | h
  · exact Or.inl h
  · exact absurd h hne
  · exact Or.inr h

end UnivariatePolynomial

/-! ## Maps of factors and the start of `excludeLinearFactors` -/

/-! ### `insert` followed by `+=` on a key-sorted map -/

theorem insertOrAdd_nil {κ : Type} (lt : κ → κ → Bool) (k : κ) (n : ℕ) :
    insertOrAdd lt k n [] = [(k, n)] := rfl

theorem insertOrAdd_cons {κ : Type} (lt : κ → κ → Bool) (k : κ) (n : ℕ) (k' : κ) (v' : ℕ)
    (rest : List (κ × ℕ)) :
    insertOrAdd lt k n ((k', v') :: rest) =
      if lt k k' then (k, n) :: (k', v') :: rest
      else if lt k' k then (k', v') :: insertOrAdd lt k n rest
      else (k', v' + n) :: rest := by
  unfold insertOrAdd
  simp only [mapInsert]
  by_cases h1 : lt k k' = true
  · simp [h1]
  · by_cases h2 : lt k' k = true
    · simp only [h1, h2, Bool.false_eq_true, if_false, if_true]
      by_cases h3 : (mapInsert lt k n rest).2.2 = true
      · simp [h3]
      · simp [h3, List.modify_succ_cons]
    · simp [h1, h2]

theorem insertOrAdd_spec {κ : Type} [DecidableEq κ] {eq lt : κ → κ → Bool}
    (ho : KeyOrder eq lt) (k : κ) (n : ℕ) :
    ∀ (m : List (κ × ℕ)), KeysSorted lt m →
      KeysSorted lt (insertOrAdd lt k n m) ∧
      List.lookup k (insertOrAdd lt k n m) = some (multiplicityIn m k + n) ∧
      (∀ f, f ≠ k → List.lookup f (insertOrAdd lt k n m) = List.lookup f m) ∧
      (∀ e ∈ insertOrAdd lt k n m, e.1 = k ∨ ∃ e' ∈ m, e'.1 = e.1) := by
  intro m
  induction m with
  | nil =>
    intro _
    refine ⟨?_, ?_, ?_, ?_⟩
    · rw [insertOrAdd_nil]
      exact (keysSorted_cons _ _).2 ⟨by simp, keysSorted_nil⟩
    · rw [insertOrAdd_nil, lookup_cons_eq, if_pos rfl]
      simp [multiplicityIn]
    · intro f hf
      rw [insertOrAdd_nil, lookup_cons_eq, if_neg hf]
    · intro e he
      rw [insertOrAdd_nil, List.mem_singleton] at he
      left
      rw [he]
  | cons e m ih =>
    intro hs
    obtain ⟨k', v'⟩ := e
    rw [keysSorted_cons] at hs
    obtain ⟨ih1, ih2, ih3, ih4⟩ := ih hs.2
    rw [insertOrAdd_cons]
    by_cases h1 : lt k k' = true
    · rw [if_pos h1]
      have hne : k ≠ k' := ho.ne_of_lt h1
      refine ⟨?_, ?_, ?_, ?_⟩
      · refine (keysSorted_cons _ _).2 ⟨above_of_lt ho k k' v' m h1 hs.1,
          (keysSorted_cons _ _).2 hs⟩
      · rw [lookup_cons_eq, if_pos rfl]
        unfold multiplicityIn
        rw [lookup_cons_eq, if_neg hne,
          lookup_eq_none_of_above ho k m (fun e he => ho.trans _ _ _ h1 (hs.1 e he))]
        simp
      · intro f hf
        rw [lookup_cons_eq, if_neg hf]
      · intro e he
        rcases List.mem_cons.1 he with he | he
        · left; rw [he]
        · right; exact ⟨e, he, rfl⟩
    · rw [if_neg h1]
      by_cases h2 : lt k' k = true
      · rw [if_pos h2]
        have hne : k ≠ k' := (ho.ne_of_lt h2).symm
        refine ⟨?_, ?_, ?_, ?_⟩
        · refine (keysSorted_cons _ _).2 ⟨?_, ih1⟩
          intro e he
          rcases ih4 e he with h | ⟨e', he', h⟩
          · rw [h]; exact h2
          · rw [← h]; exact hs.1 e' he'
        · rw [lookup_cons_eq, if_neg hne, ih2]
          unfold multiplicityIn
          rw [lookup_cons_eq, if_neg hne]
        · intro f hf
          rw [lookup_cons_eq, lookup_cons_eq, ih3 f hf]
        · intro e he
          rcases List.mem_cons.1 he with he | he
          · right; exact ⟨(k', v'), List.mem_cons_self _ _, by rw [he]⟩
          · rcases ih4 e he with h | ⟨e', he', h⟩
            · left; exact h
            · right; exact ⟨e', List.mem_cons_of_mem _ he', h⟩
      · rw [if_neg h2]
        have hk : k = k' := by
          rcases ho.total k k' with h | h | h
          · exact absurd h h1
          · exact h
          · exact absurd h h2
        subst hk
        refine ⟨?_, ?_, ?_, ?_⟩
        · exact (keysSorted_cons _ _).2 hs
        · rw [lookup_cons_eq, if_pos rfl]
          unfold multiplicityIn
          rw [lookup_cons_eq, if_pos rfl]
          simp
        · intro f hf
          rw [lookup_cons_eq, lookup_cons_eq, if_neg hf, if_neg hf]
        · intro e he
          rcases List.mem_cons.1 he with he | he
          · left; rw [he]
          · right; exact ⟨e, List.mem_cons_of_mem _ he, rfl⟩

namespace UnivariatePolynomial

theorem keyOrder_operatorLt : KeyOrder (fun (a b : List ℚ) => decide (a = b)) lt where
  eq_iff := by intro a b; simp
  irrefl := operatorLt_irrefl
  trans := operatorLt_trans
  total := operatorLt_total

/-! ### the start of `excludeLinearFactors` -/

theorem takeWhile_zero_length (p : List ℚ) (k : ℕ) (hlen : k < p.length)
    (hz : ∀ i, i < k → p.getD i 0 = 0) (hnz : p.getD k 0 ≠ 0) :
    (p.takeWhile (fun c => c == 0)).length = k := by
  induction p generalizing k with
  | nil => simp at hlen
  | cons a p ih =>
    cases k with
    | zero =>
      have ha : a ≠ 0 := by simpa using hnz
      have hb : (a == 0) = false := by simpa using ha
      simp [List.takeWhile, hb]
    | succ k =>
      have ha : a = 0 := by simpa using hz 0 (Nat.succ_pos k)
      subst ha
      have := ih k (by simpa using hlen) (fun i hi => by simpa using hz (i + 1) (by omega))
        (by simpa using hnz)
      have hb : ((0 : ℚ) == 0) = true := by simp
      simp [List.takeWhile, hb, this]

theorem getD_drop_add (p : List ℚ) (k i : ℕ) : (p.drop k).getD i 0 = p.getD (i + k) 0 := by
  rw [List.getD_eq_getElem?_getD, List.getD_eq_getElem?_getD, List.getElem?_drop, add_comm]

theorem headD_eq_getD (p : List ℚ) : p.headD 0 = p.getD 0 0 := by
  cases p <;> rfl

theorem excludeLinearFactors_shift (dz fuel : ℕ) (p : List ℚ)
    (factors : List (List ℚ × ℕ)) (maxInt : ℤ) (k : ℕ) (hk : 1 ≤ k) (hlen : k < p.length)
    (hz : ∀ i, i < k → p.getD i 0 = 0) (hnz : p.getD k 0 ≠ 0) :
    excludeLinearFactors dz fuel p factors maxInt =
      excludeLinearFactors dz fuel (p.drop k) (insertOrAdd lt [0, 1] k factors) maxInt := by
  have h1 := takeWhile_zero_length p k hlen hz hnz
  have h2 : ((p.drop k).takeWhile (fun c => c == 0)).length = 0 := by
    apply takeWhile_zero_length (p.drop k) 0
    · rw [List.length_drop]; omega
    · intro i hi; omega
    · rw [getD_drop_add]; simpa using hnz
  have h3 : 0 ≠ (p.drop k).length := by rw [List.length_drop]; omega
  have h4 : k ≠ 0 := by omega
  conv_lhs => rw [excludeLinearFactors]
  conv_rhs => rw [excludeLinearFactors]
  simp only [h1, h2, h3, h4, ne_eq, not_true_eq_false, not_false_eq_true, if_true, if_false,
    ne_of_lt hlen]

end UnivariatePolynomial

/-! ## The early exit of `excludeLinearFactors` and the representation invariant -/

namespace UnivariatePolynomial

theorem excludeLinearFactors_bound_exceeded (dz fuel : ℕ) (p : List ℚ)
    (factors : List (List ℚ × ℕ)) (maxInt : ℤ) (hlen : 3 ≤ p.length) (h0 : p.headD 0 ≠ 0)
    (hm : maxInt ≠ 0)
    (hbig : |getNum (p.getD (p.length - 1) 0)| > maxInt ∨ |getNum (p.headD 0)| > maxInt) :
    excludeLinearFactors dz fuel p factors maxInt = Except.ok (p, factors) := by
  have hne : p ≠ [] := by
    intro h; subst h; simp at hlen
  have h1 : (p.takeWhile (fun c => c == 0)).length = 0 :=
    takeWhile_zero_length p 0 (by omega) (fun i hi => by omega)
      (by rw [← headD_eq_getD]; exact h0)
  have h3 : 0 ≠ p.length := by omega
  have hdeg : degree dz p > 1 := by
    rw [degree_eq_length dz hne]; omega
  have hcond : maxInt ≠ 0 ∧ (|getNum (p.headD 0)| > maxInt ∨
      |getNum (p.getD (p.length - 1) 0)| > maxInt) := ⟨hm, hbig.symm⟩
  conv_lhs => rw [excludeLinearFactors]
  simp only [h1, h3, ne_eq, not_true_eq_false, if_false]
  rw [if_pos hdeg, assertThat_of (by simpa using (by omega : p.length > 1)), lcoeff_getD hne]
  simp only [bind_ok]
  rw [if_pos hcond]
  rfl

/-! ### the representation invariant under `derivative` and `divide` -/

theorem divideLoop_nil_not_ok (dz : ℕ) (d : List ℚ) (fuel : ℕ) (quot : List ℚ)
    (r : DivisionResult) : divideLoop dz d fuel ⟨quot, []⟩ ≠ Except.ok r := by
  cases fuel with
  | zero =>
    rw [divideLoop]
    exact fun h => Except.noConfusion h
  | succ fuel =>
    rw [divideLoop]
    have h : lcoeff ([] : List ℚ) = Except.error Fault.undefinedBehaviour := rfl
    simp only [h]
    exact fun h' => Except.noConfusion h'

theorem divide_nil (dz fuel : ℕ) (d : List ℚ) (res : DivisionResult)
    (h : divide dz fuel [] d = Except.ok res) : res = ⟨[], []⟩ := by
  unfold divide at h
  by_cases hz : isZero d = true
  · rw [assertThat_false (by simp [hz])] at h
    exact Except.noConfusion h
  · rw [assertThat_of (by simpa using hz)] at h
    have ha : decide (([] : List ℚ) = add (mul d []) []) = true := by
      simp [mul, mulAssign, add, addAssign, isZero]
    rw [assertThat_of ha] at h
    simp only [bind_ok] at h
    split_ifs at h with h1 h2
    · exact (Except.ok.inj h).symm
    · exact absurd h (bind_not_ok _ (fun r => divideLoop_nil_not_ok dz d fuel _ r) res)

theorem divide_zero_divisor_not_ok (dz fuel : ℕ) (p : List ℚ) (res : DivisionResult) :
    divide dz fuel p [] ≠ Except.ok res := by
  unfold divide
  rw [assertThat_false (by simp [isZero])]
  exact fun h => Except.noConfusion h

theorem divide_wellFormed (dz fuel : ℕ) (p d : List ℚ) (hp : WellFormed p)
    (hd : WellFormed d) (hf : p.length ≤ fuel) (res : DivisionResult)
    (h : divide dz fuel p d = Except.ok res) :
    WellFormed res.quotient ∧ WellFormed res.remainder := by
  by_cases hdne : d = []
  · subst hdne
    exact absurd h (divide_zero_divisor_not_ok dz fuel p res)
  · by_cases hpne : p = []
    · subst hpne
      rw [divide_nil dz fuel d res h]
      exact ⟨wellFormed_nil, wellFormed_nil⟩
    · obtain ⟨res', h1, _, _, h4, h5, _⟩ := divide_spec dz fuel p d hp hpne hd hdne hf
      rw [h1] at h
      rw [← Except.ok.inj h]
      exact ⟨h4, h5⟩

theorem derivative_one_wellFormed (p : List ℚ) (hp : WellFormed p) (r : List ℚ)
    (h : derivative 1 p = Except.ok r) : WellFormed r := by
  unfold derivative at h
  split_ifs at h with h1 h2
  · rw [← Except.ok.inj h]
    exact wellFormed_derivativeOne hp
  · exact absurd rfl h2

theorem derivative_one_returns (p : List ℚ) (hne : p ≠ []) :
    derivative 1 p = Except.ok (derivativeOne (p.drop 1) 0) := by
  unfold derivative
  have : ¬ p.length < 1 := by
    have := List.length_pos.mpr hne
    omega
  rw [if_neg this, if_pos rfl]
  rfl

theorem divAssign_wellFormed (p : List ℚ) (c : ℚ) (hp : WellFormed p) (hc : c ≠ 0) :
    ∃ r, divAssign p c = Except.ok r ∧ WellFormed r := by
  refine ⟨p.map (fun a => a / c), ?_, wellFormed_map hp _ (fun a ha => div_ne_zero ha hc)⟩
  unfold divAssign
  rw [assertThat_of (by simpa using hc)]
  rfl

end UnivariatePolynomial

/-! ## The cache and the construction of handles -/

/-! ### `Cache::cache` -/

theorem cache_cases (c : List CacheSlot) (x : PolynomialFactorizationPair) :
    (Cache.cache c x = (c ++ [⟨x, x⟩], c.length, true) ∧ ∀ s ∈ c, s.key ≠ x) ∨
    (∃ i s, Cache.cache c x = (c, i, false) ∧ c.get? i = some s ∧ s.key = x) := by
  induction c with
  | nil =>
    left
    exact ⟨rfl, by simp⟩
  | cons slot rest ih =>
    by_cases hk : slot.key = x
    · right
      refine ⟨0, slot, ?_, rfl, hk⟩
      simp [Cache.cache, hk]
    · rcases ih with ⟨h1, h2⟩ | ⟨i, s, h1, h2, h3⟩
      · left
        refine ⟨?_, ?_⟩
        · simp [Cache.cache, hk, h1]
        · intro s hs
          rcases List.mem_cons.1 hs with h | h
          · rw [h]; exact hk
          · exact h2 s h
      · right
        refine ⟨i + 1, s, ?_, by simpa using h2, h3⟩
        simp [Cache.cache, hk, h1]

theorem cache_append_found (c : List CacheSlot) (x y : PolynomialFactorizationPair)
    (h : ∀ s ∈ c, s.key ≠ x) :
    Cache.cache (c ++ [⟨x, y⟩]) x = (c ++ [⟨x, y⟩], c.length, false) := by
  induction c with
  | nil => simp [Cache.cache]
  | cons slot rest ih =>
    have hk : slot.key ≠ x := h slot (List.mem_cons_self _ _)
    have := ih (fun s hs => h s (List.mem_cons_of_mem _ hs))
    simp [Cache.cache, hk, this]

theorem modify_append_length {α : Type} (f : α → α) (c : List α) (a : α) :
    (c ++ [a]).modify f c.length = c ++ [f a] := by
  induction c with
  | nil => rfl
  | cons b c ih => simp [List.modify_succ_cons, ih]

/-! ### the construction of a handle from a polynomial -/

theorem coprimeFactor_fold_num_zero (rest : List ℚ) (n d : ℤ)
    (h : (rest.foldl (fun (nd : ℤ × ℤ) c => (gcdZ nd.1 (getNum c), lcmZ nd.2 (getDenom c)))
      (n, d)).1 = 0) : n = 0 ∧ ∀ c ∈ rest, c = 0 := by
  induction rest generalizing n d with
  | nil => exact ⟨by simpa using h, by simp⟩
  | cons a rest ih =>
    rw [List.foldl_cons] at h
    obtain ⟨h1, h2⟩ := ih _ _ h
    have h3 : Int.gcd n (getNum a) = 0 := by
      unfold gcdZ at h1
      exact_mod_cast h1
    rw [Int.gcd_eq_zero_iff] at h3
    refine ⟨h3.1, ?_⟩
    intro c hc
    rcases List.mem_cons.1 hc with hc | hc
    · rw [hc]
      exact Rat.num_eq_zero.1 h3.2
    · exact h2 c hc

theorem coprimeFactor_returns (p : List ℚ) (hp : UnivariatePolynomial.WellFormed p)
    (hne : p ≠ []) : ∃ f, UnivariatePolynomial.coprimeFactor p = Except.ok f := by
  cases p with
  | nil => exact absurd rfl hne
  | cons a rest =>
    unfold UnivariatePolynomial.coprimeFactor
    simp only
    have hnum : (rest.foldl
        (fun (nd : ℤ × ℤ) c => (gcdZ nd.1 (getNum c), lcmZ nd.2 (getDenom c)))
        (getNum a, getDenom a)).1 ≠ 0 := by
      intro h0
      obtain ⟨h1, h2⟩ := coprimeFactor_fold_num_zero rest _ _ h0
      have ha : a = 0 := Rat.num_eq_zero.1 h1
      have hall : ∀ c ∈ a :: rest, c = 0 := by
        intro c hc
        rcases List.mem_cons.1 hc with hc | hc
        · rw [hc]; exact ha
        · exact h2 c hc
      apply hp
      have hl := List.getLast?_eq_getLast (a :: rest) (List.cons_ne_nil _ _)
      rw [hl, hall _ (List.getLast_mem (List.cons_ne_nil _ _))]
    unfold quotient
    rw [if_neg hnum]
    exact ⟨_, rfl⟩

theorem ofPolynomial_run (p : List ℚ) (cache : List CacheSlot) (f : ℚ)
    (hf : UnivariatePolynomial.coprimeFactor p = Except.ok f) :
    FactorizedPolynomial.ofPolynomial p cache = Except.ok
      (if (Cache.cache cache ⟨[], some (p.map (fun coeff => coeff * f))⟩).2.2 then
        (⟨(Cache.cache cache ⟨[], some (p.map (fun coeff => coeff * f))⟩).2.1, f⟩,
          (Cache.cache cache ⟨[], some (p.map (fun coeff => coeff * f))⟩).1.modify
            (fun slot => ⟨slot.key,
              ⟨[((Cache.cache cache ⟨[], some (p.map (fun coeff => coeff * f))⟩).2.1, 1)],
                slot.content.mpPolynomial⟩⟩)
            (Cache.cache cache ⟨[], some (p.map (fun coeff => coeff * f))⟩).2.1)
      else
        (⟨(Cache.cache cache ⟨[], some (p.map (fun coeff => coeff * f))⟩).2.1, f⟩,
          (Cache.cache cache ⟨[], some (p.map (fun coeff => coeff * f))⟩).1)) := by
  unfold FactorizedPolynomial.ofPolynomial UnivariatePolynomial.coprimeCoefficients
  rw [hf]
  simp only [UnivariatePolynomial.bind_ok, UnivariatePolynomial.pure_eq_ok]
  split_ifs <;> rfl

/-- The two outcomes of the construction: a slot is appended and its factorization set, or a
slot with the key of the new content is found and the cache is left as it is. -/
theorem ofPolynomial_cases (p : List ℚ) (cache : List CacheSlot) (f : ℚ)
    (hf : UnivariatePolynomial.coprimeFactor p = Except.ok f) :
    (FactorizedPolynomial.ofPolynomial p cache = Except.ok (⟨cache.length, f⟩,
        cache ++ [⟨⟨[], some (p.map (fun coeff => coeff * f))⟩,
          ⟨[(cache.length, 1)], some (p.map (fun coeff => coeff * f))⟩⟩]) ∧
      (∀ s ∈ cache, s.key ≠ ⟨[], some (p.map (fun coeff => coeff * f))⟩) ∧
      Cache.cache cache ⟨[], some (p.map (fun coeff => coeff * f))⟩ =
        (cache ++ [⟨⟨[], some (p.map (fun coeff => coeff * f))⟩,
          ⟨[], some (p.map (fun coeff => coeff * f))⟩⟩], cache.length, true)) ∨
    (∃ i s, FactorizedPolynomial.ofPolynomial p cache = Except.ok (⟨i, f⟩, cache) ∧
      cache.get? i = some s ∧ s.key = ⟨[], some (p.map (fun coeff => coeff * f))⟩ ∧
      Cache.cache cache ⟨[], some (p.map (fun coeff => coeff * f))⟩ = (cache, i, false)) := by
  rcases cache_cases cache ⟨[], some (p.map (fun coeff => coeff * f))⟩ with
    ⟨h1, h2⟩ | ⟨i, s, h1, h2, h3⟩
  · left
    refine ⟨?_, h2, h1⟩
    rw [ofPolynomial_run p cache f hf, h1]
    simp only [if_true]
    rw [modify_append_length]
  · right
    refine ⟨i, s, ?_, h2, h3, h1⟩
    rw [ofPolynomial_run p cache f hf, h1]
    simp

/-! ## The claims on the construction of handles, `excludeLinearFactors`, `mod` and the representation invariant -/

/-- C21 (the code at the failing input): the handle constructed from `x/2` on an empty cache
has the coefficient `coprimeFactor() = 2`, and its cache slot holds the polynomial
`coprimeCoefficients() = x`; the coefficient multiplied by the stored polynomial is `2x`, not
`x/2`. -/
theorem ofPolynomial_coefficient_reciprocal :
    FactorizedPolynomial.ofPolynomial [0, 1 / 2] [] =
        Except.ok (⟨0, 2⟩, [⟨⟨[], some [0, 1]⟩, ⟨[(0, 1)], some [0, 1]⟩⟩]) ∧
      UnivariatePolynomial.coprimeFactor [0, 1 / 2] = Except.ok 2 ∧
      UnivariatePolynomial.coprimeCoefficients [0, 1 / 2] = Except.ok [0, 1] ∧
      UnivariatePolynomial.mulAssignCoeff [0, 1] 2 = [0, 2] ∧
      ([0, 2] : List ℚ) ≠ [0, 1 / 2] := by
  decide!

/-- C22: two constructions of a handle from the same nonzero polynomial, one after the
other on the same cache, return, pass the same content (an empty factorization with
`coprimeCoefficients()`) to `Cache::cache`, and give handles with the same cache reference;
the instance at the coefficients `{0, 2}` is the polynomial `2x`. -/
theorem ofPolynomial_same_slot (p : List ℚ) (cache : List CacheSlot)
    (hp : UnivariatePolynomial.WellFormed p) (hne : p ≠ []) :
    ∃ h1 c1 h2 c2 stored,
      FactorizedPolynomial.ofPolynomial p cache = Except.ok (h1, c1) ∧
      FactorizedPolynomial.ofPolynomial p c1 = Except.ok (h2, c2) ∧
      h2.mCacheRef = h1.mCacheRef ∧
      UnivariatePolynomial.coprimeCoefficients p = Except.ok stored ∧
      (Cache.cache cache ⟨[], some stored⟩).2.1 = h1.mCacheRef ∧
      (Cache.cache c1 ⟨[], some stored⟩).2.1 = h1.mCacheRef := by
  obtain ⟨f, hf⟩ := coprimeFactor_returns p hp hne
  have hst : UnivariatePolynomial.coprimeCoefficients p =
      Except.ok (p.map (fun coeff => coeff * f)) := by
    unfold UnivariatePolynomial.coprimeCoefficients
    rw [hf]
    rfl
  rcases ofPolynomial_cases p cache f hf with ⟨h1, h2, h3⟩ | ⟨i, s, h1, h2, h3, h4⟩
  · have h5 := cache_append_found cache ⟨[], some (p.map (fun coeff => coeff * f))⟩
      ⟨[(cache.length, 1)], some (p.map (fun coeff => coeff * f))⟩ h2
    have h6 : FactorizedPolynomial.ofPolynomial p
        (cache ++ [⟨⟨[], some (p.map (fun coeff => coeff * f))⟩,
          ⟨[(cache.length, 1)], some (p.map (fun coeff => coeff * f))⟩⟩]) =
        Except.ok (⟨cache.length, f⟩,
          cache ++ [⟨⟨[], some (p.map (fun coeff => coeff * f))⟩,
            ⟨[(cache.length, 1)], some (p.map (fun coeff => coeff * f))⟩⟩]) := by
      rw [ofPolynomial_run p _ f hf, h5]
      simp
    exact ⟨_, _, _, _, _, h1, h6, rfl, hst, by rw [h3], by rw [h5]⟩
  · exact ⟨_, _, _, _, _, h1, h1, rfl, hst, by rw [h4], by rw [h4]⟩

theorem ofPolynomial_same_slot_witness :
    ∃ h1 c1 h2 c2 stored,
      FactorizedPolynomial.ofPolynomial [0, 2] [] = Except.ok (h1, c1) ∧
      FactorizedPolynomial.ofPolynomial [0, 2] c1 = Except.ok (h2, c2) ∧
      h2.mCacheRef = h1.mCacheRef ∧
      UnivariatePolynomial.coprimeCoefficients [0, 2] = Except.ok stored ∧
      (Cache.cache [] ⟨[], some stored⟩).2.1 = h1.mCacheRef ∧
      (Cache.cache c1 ⟨[], some stored⟩).2.1 = h1.mCacheRef :=
  ofPolynomial_same_slot [0, 2] [] (by decide) (by decide)

/-- C25: after the construction of a handle `h` from a nonzero polynomial, on a cache in
which the slots made by such constructions hold their one-entry factorization (the empty
cache is one, and the construction keeps the property), the factorization in the cache slot
of `h` is the single entry of a key referencing that slot, with multiplicity 1. -/
theorem ofPolynomial_self_factor (p : List ℚ) (cache : List CacheSlot)
    (hb : Bootstrapped cache) (hp : UnivariatePolynomial.WellFormed p) (hne : p ≠ []) :
    ∃ h c slot, FactorizedPolynomial.ofPolynomial p cache = Except.ok (h, c) ∧
      c.get? h.mCacheRef = some slot ∧
      slot.content.mFactorization = [(h.mCacheRef, 1)] ∧
      Bootstrapped c ∧ Bootstrapped [] := by
  have hnil : Bootstrapped [] := by
    intro i slot h
    simp at h
  obtain ⟨f, hf⟩ := coprimeFactor_returns p hp hne
  rcases ofPolynomial_cases p cache f hf with ⟨h1, _, _⟩ | ⟨i, s, h1, h2, h3, _⟩
  · refine ⟨_, _, ⟨⟨[], some (p.map (fun coeff => coeff * f))⟩,
      ⟨[(cache.length, 1)], some (p.map (fun coeff => coeff * f))⟩⟩, h1, ?_, rfl, ?_, hnil⟩
    · simp
    · intro i slot hi hk1 hk2
      rcases Nat.lt_or_ge i cache.length with hlt | hge
      · rw [List.get?_eq_getElem?, List.getElem?_append_left hlt] at hi
        exact hb i slot (by rw [List.get?_eq_getElem?]; exact hi) hk1 hk2
      · rw [List.get?_eq_getElem?, List.getElem?_append_right hge] at hi
        rcases Nat.eq_or_lt_of_le hge with he | hgt
        · rw [← he] at hi
          simp only [Nat.sub_self, List.getElem?_cons_zero, Option.some.injEq] at hi
          rw [← hi, ← he]
        · have : i - cache.length ≠ 0 := by omega
          obtain ⟨j, hj⟩ := Nat.exists_eq_succ_of_ne_zero this
          rw [hj] at hi
          simp at hi
  · refine ⟨_, _, s, h1, h2, ?_, hb, hnil⟩
    apply hb i s h2
    · rw [h3]
    · rw [h3]
      simp

theorem ofPolynomial_self_factor_witness :
    ∃ h c slot, FactorizedPolynomial.ofPolynomial [1, 2] [] = Except.ok (h, c) ∧
      c.get? h.mCacheRef = some slot ∧
      slot.content.mFactorization = [(h.mCacheRef, 1)] ∧
      Bootstrapped c ∧ Bootstrapped [] :=
  ofPolynomial_self_factor [1, 2] [] (by intro i slot h; simp at h) (by decide) (by decide)

namespace UnivariatePolynomial

/-- C23 (the code at the failing input): for `2x^3 - x^2 + 2x - 1 = (2x - 1)(x^2 + 1)`, a
primitive integer polynomial of degree 3 with leading coefficient 2 and trailing coefficient
-1, `excludeLinearFactors` with `maxInt = INT_MAX` returns the polynomial as it is and adds
no factor, although it has the rational root `1/2`. -/
theorem excludeLinearFactors_misses_root (dz fuel : ℕ) :
    excludeLinearFactors dz (fuel + 2) [-1, 2, -1, 2] [] INT_MAX =
        Except.ok ([-1, 2, -1, 2], []) ∧
      evaluate [-1, 2, -1, 2] (1 / 2) = 0 := by
  constructor
  · with_unfolding_all rfl
  · decide!

/-! ### the factor `x` in the map of `excludeLinearFactors` -/

theorem bind_ok_elim {α β : Type} {x : Except Fault α} {f : α → Except Fault β} {b : β}
    (h : (x >>= f) = Except.ok b) : ∃ a, x = Except.ok a ∧ f a = Except.ok b := by
  cases x with
  | error e => exact Except.noConfusion h
  | ok a => exact ⟨a, rfl, h⟩

theorem mapInsert_not_inserted {κ ν : Type} (lt : κ → κ → Bool) (k : κ) (v : ν) :
    ∀ m : List (κ × ν), (mapInsert lt k v m).2.2 = false → (mapInsert lt k v m).1 = m := by
  intro m
  induction m with
  | nil => intro h; simp [mapInsert] at h
  | cons e m ih =>
    obtain ⟨k', v'⟩ := e
    intro h
    simp only [mapInsert] at h ⊢
    split_ifs at h ⊢ with h1 h2
    · simp only at h ⊢
      rw [ih h]
    · rfl

theorem mapInsert_spec {κ : Type} [DecidableEq κ] {eq lt : κ → κ → Bool}
    (ho : KeyOrder eq lt) (k : κ) (n : ℕ) (m : List (κ × ℕ)) (hs : KeysSorted lt m) :
    KeysSorted lt (mapInsert lt k n m).1 ∧
      (∀ f, f ≠ k → List.lookup f (mapInsert lt k n m).1 = List.lookup f m) ∧
      (∀ e ∈ (mapInsert lt k n m).1, e.1 = k ∨ ∃ e' ∈ m, e'.1 = e.1) := by
  by_cases h : (mapInsert lt k n m).2.2 = true
  · have h' : (mapInsert lt k n m).1 = insertOrAdd lt k n m := by
      unfold insertOrAdd
      simp [h]
    rw [h']
    obtain ⟨h1, _, h3, h4⟩ := insertOrAdd_spec ho k n m hs
    exact ⟨h1, h3, h4⟩
  · rw [mapInsert_not_inserted lt k n m (by simpa using h)]
    exact ⟨hs, fun _ _ => rfl, fun e he => Or.inr ⟨e, he, rfl⟩⟩

theorem evaluate_zero (p : List ℚ) : evaluate p 0 = p.headD 0 := by
  cases p with
  | nil => simp [evaluate_nil]
  | cons a p => rw [evaluate_cons]; simp

theorem syntheticDivision_head_ne (p : List ℚ) (r : ℚ) (hp : p.headD 0 ≠ 0) :
    (syntheticDivision p r).2.headD 0 ≠ 0 := by
  by_cases h : evaluate p r = 0
  · have h2 : 2 ≤ p.length := by
      rcases p with _ | ⟨a, _ | ⟨b, p⟩⟩
      · simp at hp
      · rw [evaluate_cons, evaluate_nil] at h
        simp at h hp
        exact absurd h hp
      · simp
    rw [syntheticDivision_snd_of_eq p r h2 h]
    have h3 := thirdRow_tail r p 0
    rw [h, evaluate_zero, evaluate_zero] at h3
    intro h0
    rw [h0] at h3
    apply hp
    rw [← h3]
    ring
  · rw [syntheticDivision_snd_of_ne p r h]
    exact hp

theorem insertOrAdd_keeps_x (key : List ℚ) (n : ℕ) (m : List (List ℚ × ℕ))
    (hk : key ≠ [0, 1]) (hs : KeysSorted lt m) :
    KeysSorted lt (insertOrAdd lt key n m) ∧
      multiplicityIn (insertOrAdd lt key n m) [0, 1] = multiplicityIn m [0, 1] := by
  obtain ⟨h1, _, h3, _⟩ := insertOrAdd_spec keyOrder_operatorLt key n m hs
  refine ⟨h1, ?_⟩
  unfold multiplicityIn
  rw [h3 _ (Ne.symm hk)]

theorem mapInsert_keeps_x (key : List ℚ) (n : ℕ) (m : List (List ℚ × ℕ))
    (hk : key ≠ [0, 1]) (hs : KeysSorted lt m) :
    KeysSorted lt (mapInsert lt key n m).1 ∧
      multiplicityIn (mapInsert lt key n m).1 [0, 1] = multiplicityIn m [0, 1] := by
  obtain ⟨h1, h3, _⟩ := mapInsert_spec keyOrder_operatorLt key n m hs
  refine ⟨h1, ?_⟩
  unfold multiplicityIn
  rw [h3 _ (Ne.symm hk)]

theorem tail_keeps_x (first : List ℚ × ℕ) (rest : List (List ℚ × ℕ))
    (hk : first.1 ≠ [0, 1]) (hs : KeysSorted lt (first :: rest)) :
    KeysSorted lt rest ∧ multiplicityIn rest [0, 1] = multiplicityIn (first :: rest) [0, 1] := by
  obtain ⟨k, v⟩ := first
  refine ⟨((keysSorted_cons _ _).1 hs).2, ?_⟩
  unfold multiplicityIn
  rw [lookup_cons_eq, if_neg (Ne.symm hk)]

theorem ne_x_of_length_le_one (key : List ℚ) (h : key.length ≤ 1) : key ≠ [0, 1] := by
  rintro rfl
  simp at h

theorem ne_x_of_head_ne (key : List ℚ) (h : key.headD 0 ≠ 0) : key ≠ [0, 1] := by
  rintro rfl
  simp at h

theorem addConstantFactor_keeps_x (invert : Bool) (factor : ℚ) (m : List (List ℚ × ℕ))
    (mk : ℚ → List ℚ) (hmk : ∀ f, (mk f).length ≤ 1) (hs : KeysSorted lt m)
    (m' : List (List ℚ × ℕ)) (h : addConstantFactor invert factor m mk = Except.ok m') :
    KeysSorted lt m' ∧ multiplicityIn m' [0, 1] = multiplicityIn m [0, 1] := by
  unfold addConstantFactor at h
  cases m with
  | nil => exact Except.noConfusion h
  | cons first rest =>
    simp only at h
    by_cases hc : isConstant first.1 = true
    · rw [if_pos hc] at h
      have hf : first.1 ≠ [0, 1] :=
        ne_x_of_length_le_one _ (by simpa [isConstant] using hc)
      obtain ⟨t1, t2⟩ := tail_keeps_x first rest hf hs
      have hkey : ∀ f1 c : ℚ, (pure (mapInsert lt (mk (f1 * c)) 1 rest).1 :
          Except Fault (List (List ℚ × ℕ))) = Except.ok m' →
          KeysSorted lt m' ∧ multiplicityIn m' [0, 1] = multiplicityIn (first :: rest) [0, 1] := by
        intro f1 c h
        simp only [pure, Except.pure, Except.ok.injEq] at h
        subst h
        obtain ⟨i1, i2⟩ := mapInsert_keeps_x (mk (f1 * c)) 1 rest
          (ne_x_of_length_le_one _ (hmk _)) t1
        exact ⟨i1, i2.trans t2⟩
      split_ifs at h
      · obtain ⟨f1, _, h⟩ := bind_ok_elim h
        obtain ⟨c, _, h⟩ := bind_ok_elim h
        exact hkey f1 c h
      · obtain ⟨f1, _, h⟩ := bind_ok_elim h
        obtain ⟨c, _, h⟩ := bind_ok_elim h
        exact hkey f1 c h
    · rw [if_neg hc] at h
      simp only [pure, Except.pure, Except.ok.injEq] at h
      subst h
      exact mapInsert_keeps_x (mk factor) 1 (first :: rest)
        (ne_x_of_length_le_one _ (hmk _)) hs

theorem ofCoeff_zero_length (f : ℚ) : (ofCoeff f 0).length ≤ 1 := by
  unfold ofCoeff
  split_ifs <;> simp

theorem linearFactorRemains_keeps_x (result : List ℚ) (m : List (List ℚ × ℕ))
    (h0 : result.headD 0 ≠ 0) (hs : KeysSorted lt m) (res : List ℚ × List (List ℚ × ℕ))
    (h : linearFactorRemains result m = Except.ok res) :
    KeysSorted lt res.2 ∧ multiplicityIn res.2 [0, 1] = multiplicityIn m [0, 1] := by
  unfold linearFactorRemains at h
  obtain ⟨factor, _, h⟩ := bind_ok_elim h
  by_cases hf : factor ≠ 1
  · rw [if_pos hf] at h
    obtain ⟨result', hd, h⟩ := bind_ok_elim h
    obtain ⟨m1, hm1, h⟩ := bind_ok_elim h
    simp only [pure, Except.pure, Except.ok.injEq] at h
    subst h
    unfold divAssign at hd
    obtain ⟨_, ha, hd⟩ := bind_ok_elim hd
    simp only [pure, Except.pure, Except.ok.injEq] at hd
    have hfz : factor ≠ 0 := by
      intro hz
      subst hz
      exact Except.noConfusion ha
    have hr : result'.headD 0 ≠ 0 := by
      subst hd
      cases result with
      | nil => simp at h0
      | cons a rest =>
        simp only [List.map_cons, List.headD_cons] at h0 ⊢
        exact div_ne_zero h0 hfz
    obtain ⟨a1, a2⟩ := addConstantFactor_keeps_x false factor m _ ofCoeff_zero_length hs m1 hm1
    obtain ⟨i1, i2⟩ := insertOrAdd_keeps_x result' 1 m1 (ne_x_of_head_ne _ hr) a1
    exact ⟨i1, i2.trans a2⟩
  · rw [if_neg hf] at h
    simp only [pure, Except.pure, Except.ok.injEq] at h
    subst h
    exact insertOrAdd_keeps_x result 1 m (ne_x_of_head_ne _ h0) hs

theorem removeZeroLoop_keeps_x (dz : ℕ) (r : ℚ) (hr : r ≠ 0) :
    ∀ (fuel : ℕ) (result : List ℚ) (m : List (List ℚ × ℕ)), result.headD 0 ≠ 0 →
      KeysSorted lt m → ∀ out, removeZeroLoop dz r [-r, 1] fuel result m = Except.ok out →
      out.2.1.headD 0 ≠ 0 ∧ KeysSorted lt out.2.2 ∧
        multiplicityIn out.2.2 [0, 1] = multiplicityIn m [0, 1] := by
  intro fuel
  induction fuel with
  | zero =>
    intro result m _ _ out h
    exact Except.noConfusion h
  | succ fuel ih =>
    intro result m h0 hs out h
    have hkey : ([-r, 1] : List ℚ) ≠ [0, 1] := by
      intro hx
      apply hr
      have := (List.cons.inj hx).1
      linarith
    obtain ⟨i1, i2⟩ := insertOrAdd_keeps_x [-r, 1] 1 m hkey hs
    rw [removeZeroLoop] at h
    simp only at h
    by_cases hd : degree dz result ≤ 1
    · rw [if_pos hd] at h
      simp only [pure, Except.pure, Except.ok.injEq] at h
      subst h
      exact ⟨h0, i1, i2⟩
    · rw [if_neg hd] at h
      by_cases hz : (syntheticDivision result r).1 = 0
      · rw [if_pos hz] at h
        obtain ⟨j0, j1, j2⟩ := ih _ _ (syntheticDivision_head_ne result r h0) i1 out h
        exact ⟨j0, j1, j2.trans i2⟩
      · rw [if_neg hz] at h
        simp only [pure, Except.pure, Except.ok.injEq] at h
        subst h
        exact ⟨syntheticDivision_head_ne result r h0, i1, i2⟩

theorem nextCombination_frame (lcAsInt tcAsInt halfOfLcAsInt halfOfTcAsInt : ℤ) (fuel : ℕ)
    (atEnd : Bool) (st : ElfState) (out : ElfStep)
    (h : nextCombination lcAsInt tcAsInt halfOfLcAsInt halfOfTcAsInt fuel atEnd st =
      Except.ok out) :
    (∃ st', out = ElfStep.next st' ∧ st'.result = st.result ∧
        st'.linearFactors = st.linearFactors) ∨
      out = ElfStep.done st.result st.linearFactors ∨
      ∃ factor m', addConstantFactor true factor st.linearFactors (fun f => [f]) =
          Except.ok m' ∧ out = ElfStep.done (mulAssignCoeff st.result factor) m' := by
  unfold nextCombination at h
  by_cases c1 : (atEnd && st.positive) = true
  · rw [if_pos c1] at h
    simp only [pure, Except.pure, Except.ok.injEq] at h
    subst h
    exact Or.inl ⟨_, rfl, rfl, rfl⟩
  · rw [if_neg c1] at h
    simp only at h
    obtain ⟨st1, hst1, h⟩ := bind_ok_elim h
    have f1 : st1.result = st.result ∧ st1.linearFactors = st.linearFactors := by
      simp only [bind, Except.bind, pure, Except.pure] at hst1
      repeat' split at hst1
      all_goals first
        | exact Except.noConfusion hst1
        | (simp only [Except.ok.injEq] at hst1
           subst hst1
           exact ⟨rfl, rfl⟩)
    by_cases c2 : st1.lcFactor = st1.lcFactors.length
    · rw [if_pos c2] at h
      obtain ⟨st2, hst2, h⟩ := bind_ok_elim h
      have f2 : st2.result = st1.result ∧ st2.linearFactors = st1.linearFactors := by
        simp only [bind, Except.bind, pure, Except.pure] at hst2
        repeat' split at hst2
        all_goals first
          | exact Except.noConfusion hst2
          | (simp only [Except.ok.injEq] at hst2
             subst hst2
             exact ⟨rfl, rfl⟩)
      by_cases c3 : st2.tcFactor = st2.tcFactors.length
      · rw [if_pos c3] at h
        obtain ⟨factor, _, h⟩ := bind_ok_elim h
        by_cases c4 : factor ≠ 1
        · rw [if_pos c4] at h
          obtain ⟨m', hm', h⟩ := bind_ok_elim h
          simp only [pure, Except.pure, Except.ok.injEq] at h
          subst h
          rw [f2.1, f1.1]
          rw [f2.2, f1.2] at hm'
          exact Or.inr (Or.inr ⟨_, _, hm', rfl⟩)
        · rw [if_neg c4] at h
          simp only [pure, Except.pure, Except.ok.injEq] at h
          subst h
          rw [f2.1, f1.1, f2.2, f1.2]
          exact Or.inr (Or.inl rfl)
      · rw [if_neg c3] at h
        simp only [pure, Except.pure, Except.ok.injEq] at h
        subst h
        exact Or.inl ⟨_, rfl, f2.1.trans f1.1, f2.2.trans f1.2⟩
    · rw [if_neg c2] at h
      simp only [pure, Except.pure, Except.ok.injEq] at h
      subst h
      exact Or.inl ⟨_, rfl, f1.1, f1.2⟩

theorem nextCombination_keeps_x (lcAsInt tcAsInt halfOfLcAsInt halfOfTcAsInt : ℤ) (fuel : ℕ)
    (atEnd : Bool) (st : ElfState) (out : ElfStep) (h0 : st.result.headD 0 ≠ 0)
    (hs : KeysSorted lt st.linearFactors)
    (h : nextCombination lcAsInt tcAsInt halfOfLcAsInt halfOfTcAsInt fuel atEnd st =
      Except.ok out) :
    (∀ st', out = ElfStep.next st' → st'.result.headD 0 ≠ 0 ∧
        KeysSorted lt st'.linearFactors ∧
        multiplicityIn st'.linearFactors [0, 1] = multiplicityIn st.linearFactors [0, 1]) ∧
      (∀ r m', out = ElfStep.done r m' → KeysSorted lt m' ∧
        multiplicityIn m' [0, 1] = multiplicityIn st.linearFactors [0, 1]) ∧
      (∀ r m', out = ElfStep.remains r m' → r.headD 0 ≠ 0 ∧ KeysSorted lt m' ∧
        multiplicityIn m' [0, 1] = multiplicityIn st.linearFactors [0, 1]) := by
  rcases nextCombination_frame _ _ _ _ _ _ _ _ h with ⟨st', rfl, e1, e2⟩ | rfl | ⟨f, m', hm, rfl⟩
  · refine ⟨?_, fun _ _ hx => ElfStep.noConfusion hx, fun _ _ hx => ElfStep.noConfusion hx⟩
    intro st'' hx
    cases hx
    rw [e1, e2]
    exact ⟨h0, hs, rfl⟩
  · refine ⟨fun _ hx => ElfStep.noConfusion hx, ?_, fun _ _ hx => ElfStep.noConfusion hx⟩
    intro r m' hx
    cases hx
    exact ⟨hs, rfl⟩
  · refine ⟨fun _ hx => ElfStep.noConfusion hx, ?_, fun _ _ hx => ElfStep.noConfusion hx⟩
    intro r m'' hx
    cases hx
    exact addConstantFactor_keeps_x true f st.linearFactors _ (fun _ => by simp) hs _ hm

theorem searchStep_keeps_x (dz : ℕ) (maxInt lcAsInt tcAsInt halfOfLcAsInt halfOfTcAsInt : ℤ)
    (fuel : ℕ) (st : ElfState) (out : ElfStep) (h0 : st.result.headD 0 ≠ 0)
    (hs : KeysSorted lt st.linearFactors)
    (h : searchStep dz maxInt lcAsInt tcAsInt halfOfLcAsInt halfOfTcAsInt fuel st =
      Except.ok out) :
    (∀ st', out = ElfStep.next st' → st'.result.headD 0 ≠ 0 ∧
        KeysSorted lt st'.linearFactors ∧
        multiplicityIn st'.linearFactors [0, 1] = multiplicityIn st.linearFactors [0, 1]) ∧
      (∀ r m', out = ElfStep.done r m' → KeysSorted lt m' ∧
        multiplicityIn m' [0, 1] = multiplicityIn st.linearFactors [0, 1]) ∧
      (∀ r m', out = ElfStep.remains r m' → r.headD 0 ≠ 0 ∧ KeysSorted lt m' ∧
        multiplicityIn m' [0, 1] = multiplicityIn st.linearFactors [0, 1]) := by
  have key : ∀ (atEnd : Bool) (st2 : ElfState), st2.result.headD 0 ≠ 0 →
      KeysSorted lt st2.linearFactors →
      multiplicityIn st2.linearFactors [0, 1] = multiplicityIn st.linearFactors [0, 1] →
      nextCombination lcAsInt tcAsInt halfOfLcAsInt halfOfTcAsInt fuel atEnd st2 =
        Except.ok out →
      (∀ st', out = ElfStep.next st' → st'.result.headD 0 ≠ 0 ∧
        KeysSorted lt st'.linearFactors ∧
        multiplicityIn st'.linearFactors [0, 1] = multiplicityIn st.linearFactors [0, 1]) ∧
      (∀ r m', out = ElfStep.done r m' → KeysSorted lt m' ∧
        multiplicityIn m' [0, 1] = multiplicityIn st.linearFactors [0, 1]) ∧
      (∀ r m', out = ElfStep.remains r m' → r.headD 0 ≠ 0 ∧ KeysSorted lt m' ∧
        multiplicityIn m' [0, 1] = multiplicityIn st.linearFactors [0, 1]) := by
    intro atEnd st2 g0 gs gm hn
    rw [← gm]
    exact nextCombination_keeps_x _ _ _ _ _ _ _ _ g0 gs hn
  unfold searchStep at h
  obtain ⟨lcFactor, _, h⟩ := bind_ok_elim h
  obtain ⟨tcFactor, _, h⟩ := bind_ok_elim h
  obtain ⟨shiftedTc, _, h⟩ := bind_ok_elim h
  by_cases c1 : shiftedTc = st.shiftedTcs.length
  · rw [if_pos c1] at h
    obtain ⟨q, _, h⟩ := bind_ok_elim h
    simp only at h
    generalize (if st.positive = true then q else -q) = z at h
    by_cases c2 : (syntheticDivision st.result z).1 = 0
    · rw [if_pos c2] at h
      obtain ⟨r, hr, h⟩ := bind_ok_elim h
      have hne : z ≠ 0 := by
        intro hz
        rw [hz, syntheticDivision_fst, evaluate_zero] at c2
        exact h0 c2
      obtain ⟨r0, r1, r2⟩ := removeZeroLoop_keeps_x dz _ hne fuel _ _
        (syntheticDivision_head_ne st.result _ h0) hs r hr
      by_cases c3 : r.1 = true
      · rw [if_pos c3] at h
        simp only [pure, Except.pure, Except.ok.injEq] at h
        subst h
        refine ⟨fun _ hx => ElfStep.noConfusion hx, fun _ _ hx => ElfStep.noConfusion hx, ?_⟩
        intro r' m' hx
        cases hx
        exact ⟨r0, r1, r2⟩
      · rw [if_neg c3] at h
        refine key _ _ ?_ ?_ ?_ h
        · exact r0
        · exact r1
        · exact r2
    · rw [if_neg c2] at h
      have hsd : (syntheticDivision st.result z).2.headD 0 ≠ 0 :=
        syntheticDivision_head_ne st.result _ h0
      by_cases c3 : isInteger z = true
      · rw [if_pos c3] at h
        obtain ⟨_, _, h⟩ := bind_ok_elim h
        split_ifs at h
        · obtain ⟨_, _, h⟩ := bind_ok_elim h
          obtain ⟨_, _, h⟩ := bind_ok_elim h
          refine key _ _ ?_ ?_ ?_ h
          · exact hsd
          · exact hs
          · rfl
        · refine key _ _ ?_ ?_ ?_ h
          · exact hsd
          · exact hs
          · rfl
      · rw [if_neg c3] at h
        refine key _ _ ?_ ?_ ?_ h
        · exact hsd
        · exact hs
        · rfl
  · rw [if_neg c1] at h
    exact key _ _ h0 hs rfl h

theorem searchLoop_keeps_x (dz : ℕ) (maxInt lcAsInt tcAsInt halfOfLcAsInt halfOfTcAsInt : ℤ)
    (inner : ℕ) :
    ∀ (fuel : ℕ) (st : ElfState) (out : ElfStep), st.result.headD 0 ≠ 0 →
      KeysSorted lt st.linearFactors →
      searchLoop dz maxInt lcAsInt tcAsInt halfOfLcAsInt halfOfTcAsInt inner fuel st =
        Except.ok out →
      (∀ r m', out = ElfStep.done r m' → KeysSorted lt m' ∧
        multiplicityIn m' [0, 1] = multiplicityIn st.linearFactors [0, 1]) ∧
      (∀ r m', out = ElfStep.remains r m' → r.headD 0 ≠ 0 ∧ KeysSorted lt m' ∧
        multiplicityIn m' [0, 1] = multiplicityIn st.linearFactors [0, 1]) ∧
      ∀ st', out ≠ ElfStep.next st' := by
  intro fuel
  induction fuel with
  | zero =>
    intro st out _ _ h
    exact Except.noConfusion h
  | succ fuel ih =>
    intro st out h0 hs h
    rw [searchLoop] at h
    obtain ⟨r, hr, h⟩ := bind_ok_elim h
    obtain ⟨s1, s2, s3⟩ := searchStep_keeps_x _ _ _ _ _ _ _ _ _ h0 hs hr
    cases r with
    | next st' =>
      simp only at h
      obtain ⟨a0, a1, a2⟩ := s1 st' rfl
      obtain ⟨b1, b2, b3⟩ := ih st' out a0 a1 h
      rw [a2] at b1 b2
      exact ⟨b1, b2, b3⟩
    | done r m =>
      simp only [pure, Except.pure, Except.ok.injEq] at h
      subst h
      exact ⟨s2, fun _ _ hx => ElfStep.noConfusion hx, fun _ hx => ElfStep.noConfusion hx⟩
    | remains r m =>
      simp only [pure, Except.pure, Except.ok.injEq] at h
      subst h
      exact ⟨fun _ _ hx => ElfStep.noConfusion hx, s3, fun _ hx => ElfStep.noConfusion hx⟩

theorem excludeLinearFactors_keeps_x (dz fuel : ℕ) (p : List ℚ) (factors : List (List ℚ × ℕ))
    (maxInt : ℤ) (h0 : p.headD 0 ≠ 0) (hs : KeysSorted lt factors)
    (res : List ℚ × List (List ℚ × ℕ))
    (h : excludeLinearFactors dz fuel p factors maxInt = Except.ok res) :
    KeysSorted lt res.2 ∧ multiplicityIn res.2 [0, 1] = multiplicityIn factors [0, 1] := by
  have hk : (p.takeWhile (fun c => c == 0)).length = 0 := by
    cases p with
    | nil => rfl
    | cons a p =>
      have hb : (a == 0) = false := by simpa using h0
      simp [List.takeWhile, hb]
  have hp : p ≠ [] := by
    rintro rfl
    simp at h0
  have hl : 0 ≠ p.length := fun hx => hp (List.length_eq_zero.mp hx.symm)
  rw [excludeLinearFactors] at h
  simp only [hk, hl, ne_eq, not_true_eq_false, not_false_eq_true, if_true, if_false] at h
  by_cases hd : degree dz p > 1
  · rw [if_pos hd] at h
    obtain ⟨_, _, h⟩ := bind_ok_elim h
    obtain ⟨_, _, h⟩ := bind_ok_elim h
    obtain ⟨lc, _, h⟩ := bind_ok_elim h
    by_cases c1 : ¬maxInt = 0 ∧ (|getNum (p.headD 0)| > maxInt ∨ |getNum lc| > maxInt)
    · rw [if_pos c1] at h
      simp only [pure, Except.pure, Except.ok.injEq] at h
      subst h
      exact ⟨hs, rfl⟩
    · rw [if_neg c1] at h
      obtain ⟨lcAsInt, _, h⟩ := bind_ok_elim h
      obtain ⟨tcAsInt, _, h⟩ := bind_ok_elim h
      obtain ⟨r, hr, h⟩ := bind_ok_elim h
      obtain ⟨s1, s2, s3⟩ := searchLoop_keeps_x _ _ _ _ _ _ _ _ _ _ h0 hs hr
      cases r with
      | next st' => exact absurd rfl (s3 st')
      | done r m =>
        simp only [pure, Except.pure, Except.ok.injEq] at h
        subst h
        exact s1 r m rfl
      | remains r m =>
        simp only at h
        obtain ⟨a0, a1, a2⟩ := s2 r m rfl
        obtain ⟨b1, b2⟩ := linearFactorRemains_keeps_x r m a0 a1 res h
        exact ⟨b1, b2.trans a2⟩
  · rw [if_neg hd] at h
    exact linearFactorRemains_keeps_x p factors h0 hs res h

theorem addConstantFactor_returns (factor : ℚ) (m : List (List ℚ × ℕ)) (mk : ℚ → List ℚ)
    (hm : m ≠ []) (hkeys : ∀ e ∈ m, e.1 ≠ []) :
    ∃ m', addConstantFactor false factor m mk = Except.ok m' := by
  unfold addConstantFactor
  cases m with
  | nil => exact absurd rfl hm
  | cons first rest =>
    simp only
    by_cases hc : isConstant first.1 = true
    · rw [if_pos hc]
      rw [lcoeff_getD (hkeys first (List.mem_cons_self _ _))]
      exact ⟨_, rfl⟩
    · rw [if_neg hc]
      exact ⟨_, rfl⟩

theorem ofCoeff_one_zero : ofCoeff 1 0 = [1] := by decide!

theorem linearFactorRemains_returns (result : List ℚ) (m : List (List ℚ × ℕ))
    (hr : result ≠ []) (hwf : WellFormed result) (hm : m ≠ [])
    (hkeys : ∀ e ∈ m, e.1 ≠ []) :
    ∃ res, linearFactorRemains result m = Except.ok res ∧ res.1 = [1] := by
  have hl : result.getD (result.length - 1) 0 ≠ 0 := by
    intro hz
    apply hwf
    rw [getLast?_eq_getD result hr, hz]
  unfold linearFactorRemains
  rw [lcoeff_getD hr, bind_ok]
  by_cases hf : result.getD (result.length - 1) 0 ≠ 1
  · rw [if_pos hf]
    unfold divAssign
    rw [assertThat_of (by simpa using hl), bind_ok, pure_eq_ok, bind_ok]
    obtain ⟨m', hm'⟩ := addConstantFactor_returns (result.getD (result.length - 1) 0) m
      (fun f => ofCoeff f 0) hm hkeys
    rw [hm', bind_ok]
    exact ⟨_, rfl, ofCoeff_one_zero⟩
  · rw [if_neg hf]
    exact ⟨_, rfl, ofCoeff_one_zero⟩

theorem insertOrAdd_ne_nil {κ : Type} (lt : κ → κ → Bool) (k : κ) (n : ℕ) (m : List (κ × ℕ)) :
    insertOrAdd lt k n m ≠ [] := by
  cases m with
  | nil => simp [insertOrAdd_nil]
  | cons e m =>
    obtain ⟨k', v'⟩ := e
    rw [insertOrAdd_cons]
    split_ifs <;> simp

theorem excludeLinearFactors_linear_returns (dz fuel : ℕ) (p : List ℚ)
    (factors : List (List ℚ × ℕ)) (maxInt : ℤ) (h0 : p.headD 0 ≠ 0) (hlen : p.length ≤ 2)
    (hwf : WellFormed p) (hm : factors ≠ []) (hkeys : ∀ e ∈ factors, e.1 ≠ []) :
    ∃ res, excludeLinearFactors dz fuel p factors maxInt = Except.ok res ∧ res.1 = [1] := by
  have hk : (p.takeWhile (fun c => c == 0)).length = 0 := by
    cases p with
    | nil => rfl
    | cons a p =>
      have hb : (a == 0) = false := by simpa using h0
      simp [List.takeWhile, hb]
  have hp : p ≠ [] := by
    rintro rfl
    simp at h0
  have hl : 0 ≠ p.length := fun hx => hp (List.length_eq_zero.mp hx.symm)
  have hd : ¬ degree dz p > 1 := by
    rw [degree_eq_length dz hp]
    omega
  rw [excludeLinearFactors]
  simp only [hk, hl, ne_eq, not_true_eq_false, not_false_eq_true, if_true, if_false]
  rw [if_neg hd]
  exact linearFactorRemains_returns p factors hp hwf hm hkeys

theorem wellFormed_drop (p : List ℚ) (k : ℕ) (hlen : k < p.length) (hwf : WellFormed p) :
    WellFormed (p.drop k) := by
  unfold WellFormed at hwf ⊢
  rw [List.getLast?_drop, if_neg (by omega)]
  exact hwf

/-- C26: for a polynomial `p` whose `k >= 1` lowest coefficients are zero and whose
coefficient at `k` is not, and a key-sorted map `factors`,
`excludeLinearFactors(p, factors, maxInt)` goes on as on the coefficients of `p` shifted down
by `k`, which have a nonzero constant term, with the map in which the multiplicity of the
factor `x` is raised by `k` (entered with `k` when `x` was no key) and nothing else is
changed; the map that the run leaves when it returns is key-sorted and has the factor `x`
with the multiplicity it had in `factors` plus `k`, no later step adding or removing a factor
`x`; and the run does return, with the constant polynomial 1, when at most two coefficients
are left after the shift, the leading coefficient of `p` is not zero and no key of `factors`
is the zero polynomial. -/
theorem excludeLinearFactors_power_of_x (dz fuel : ℕ) (p : List ℚ)
    (factors : List (List ℚ × ℕ)) (maxInt : ℤ) (k : ℕ) (hk : 1 ≤ k) (hlen : k < p.length)
    (hz : ∀ i, i < k → p.getD i 0 = 0) (hnz : p.getD k 0 ≠ 0)
    (hs : KeysSorted lt factors) :
    excludeLinearFactors dz fuel p factors maxInt =
        excludeLinearFactors dz fuel (p.drop k) (insertOrAdd lt [0, 1] k factors) maxInt ∧
      (∀ i, (p.drop k).getD i 0 = p.getD (i + k) 0) ∧
      (p.drop k).headD 0 ≠ 0 ∧
      multiplicityIn (insertOrAdd lt [0, 1] k factors) [0, 1] =
        multiplicityIn factors [0, 1] + k ∧
      (∀ f, f ≠ [0, 1] →
        multiplicityIn (insertOrAdd lt [0, 1] k factors) f = multiplicityIn factors f) ∧
      KeysSorted lt (insertOrAdd lt [0, 1] k factors) ∧
      (∀ res, excludeLinearFactors dz fuel p factors maxInt = Except.ok res →
        KeysSorted lt res.2 ∧
          multiplicityIn res.2 [0, 1] = multiplicityIn factors [0, 1] + k) ∧
      (p.length ≤ k + 2 → WellFormed p → (∀ e ∈ factors, e.1 ≠ []) →
        ∃ res, excludeLinearFactors dz fuel p factors maxInt = Except.ok res ∧
          res.1 = [1]) := by
  obtain ⟨h1, h2, h3, h4⟩ := insertOrAdd_spec keyOrder_operatorLt [0, 1] k factors hs
  have hshift := excludeLinearFactors_shift dz fuel p factors maxInt k hk hlen hz hnz
  have hhead : (p.drop k).headD 0 ≠ 0 := by
    rw [headD_eq_getD, getD_drop_add]
    simpa using hnz
  have hmult : multiplicityIn (insertOrAdd lt [0, 1] k factors) [0, 1] =
      multiplicityIn factors [0, 1] + k := by
    conv_lhs => rw [multiplicityIn, h2]
    rfl
  refine ⟨hshift, getD_drop_add p k, hhead, hmult, ?_, h1, ?_, ?_⟩
  · intro f hf
    unfold multiplicityIn
    rw [h3 f hf]
  · intro res hres
    rw [hshift] at hres
    obtain ⟨a1, a2⟩ := excludeLinearFactors_keeps_x dz fuel _ _ maxInt hhead h1 res hres
    exact ⟨a1, a2.trans hmult⟩
  · intro hl hwf hkeys
    rw [hshift]
    refine excludeLinearFactors_linear_returns dz fuel _ _ maxInt hhead
      (by rw [List.length_drop]; omega) (wellFormed_drop p k hlen hwf)
      (insertOrAdd_ne_nil _ _ _ _) ?_
    intro e he
    rcases h4 e he with h | ⟨e', he', h⟩
    · rw [h]
      simp
    · rw [← h]
      exact hkeys e' he'

theorem excludeLinearFactors_power_of_x_witness :
    excludeLinearFactors 0 5 [0, 0, 3, 1] [([0, 1], 2)] INT_MAX =
        Except.ok ([1], [([0, 1], 4), ([3, 1], 1)]) ∧
      excludeLinearFactors 0 5 [0, 0, 3, 1] [([0, 1], 2)] INT_MAX =
        excludeLinearFactors 0 5 (List.drop 2 [0, 0, 3, 1])
          (insertOrAdd lt [0, 1] 2 [([0, 1], 2)]) INT_MAX ∧
      (∀ i, (List.drop 2 [(0 : ℚ), 0, 3, 1]).getD i 0 = [(0 : ℚ), 0, 3, 1].getD (i + 2) 0) ∧
      (List.drop 2 [(0 : ℚ), 0, 3, 1]).headD 0 ≠ 0 ∧
      multiplicityIn (insertOrAdd lt [0, 1] 2 [([0, 1], 2)]) [0, 1] =
        multiplicityIn [([0, 1], 2)] [0, 1] + 2 ∧
      (∀ f, f ≠ [0, 1] →
        multiplicityIn (insertOrAdd lt [0, 1] 2 [([0, 1], 2)]) f =
          multiplicityIn [([0, 1], 2)] f) ∧
      KeysSorted lt (insertOrAdd lt [0, 1] 2 [([0, 1], 2)]) ∧
      (∀ res, excludeLinearFactors 0 5 [0, 0, 3, 1] [([0, 1], 2)] INT_MAX = Except.ok res →
        KeysSorted lt res.2 ∧
          multiplicityIn res.2 [0, 1] = multiplicityIn [([0, 1], 2)] [0, 1] + 2) ∧
      ∃ res, excludeLinearFactors 0 5 [0, 0, 3, 1] [([0, 1], 2)] INT_MAX = Except.ok res ∧
        res.1 = [1] := by
  obtain ⟨h1, h2, h3, h4, h5, h6, h7, h8⟩ :=
    excludeLinearFactors_power_of_x 0 5 [0, 0, 3, 1] [([0, 1], 2)] INT_MAX 2 (by decide)
      (by decide) (by
        intro i hi
        interval_cases i <;> rfl) (by decide!) (by decide)
  exact ⟨by decide!, h1, h2, h3, h4, h5, h6, h7,
    h8 (by decide) (by decide!) (by
      intro e he
      rw [List.mem_singleton] at he
      rw [he]
      simp)⟩

/-- C27: for a polynomial of degree greater than 1 (at least three coefficients) with a
nonzero constant term and `maxInt != 0`, if the absolute value of the numerator of the leading
or of the trailing coefficient exceeds `maxInt`, `excludeLinearFactors` returns the polynomial
itself and the map of factors as it was. -/
theorem excludeLinearFactors_early_exit (dz fuel : ℕ) (p : List ℚ)
    (factors : List (List ℚ × ℕ)) (maxInt : ℤ) (hlen : 3 ≤ p.length) (h0 : p.headD 0 ≠ 0)
    (hm : maxInt ≠ 0)
    (hbig : |getNum (p.getD (p.length - 1) 0)| > maxInt ∨ |getNum (p.headD 0)| > maxInt) :
    excludeLinearFactors dz fuel p factors maxInt = Except.ok (p, factors) :=
  excludeLinearFactors_bound_exceeded dz fuel p factors maxInt hlen h0 hm hbig

theorem excludeLinearFactors_early_exit_witness :
    excludeLinearFactors 0 0 [5, 0, 3, 1] [([-1, 1], 1)] 4 =
      Except.ok ([5, 0, 3, 1], [([-1, 1], 1)]) :=
  excludeLinearFactors_early_exit 0 0 [5, 0, 3, 1] [([-1, 1], 1)] 4 (by decide) (by decide!)
    (by decide) (Or.inr (by decide!))

/-- C29: over the rationals the results of `operator+=`, `operator-=`, `operator*=` by a
polynomial and by a scalar, `operator/=` by a nonzero scalar, the unary minus,
`derivative(1)` and both components of `divide` are empty or have a nonzero last coefficient
when the operands are; `operator/=` returns for a nonzero scalar, and `derivative(1)` and
`divide` return for nonzero operands (`divide` given fuel for its loop). -/
theorem wellFormed_preserved (p q : List ℚ) (c : ℚ) (hp : WellFormed p)
    (hq : WellFormed q) :
    WellFormed (addAssign p q) ∧ WellFormed (subAssign p q) ∧ WellFormed (mulAssign p q) ∧
      WellFormed (mulAssignCoeff p c) ∧
      (c ≠ 0 → ∃ r, divAssign p c = Except.ok r ∧ WellFormed r) ∧
      WellFormed (neg p) ∧
      (∀ r, derivative 1 p = Except.ok r → WellFormed r) ∧
      (p ≠ [] → ∃ r, derivative 1 p = Except.ok r ∧ WellFormed r) ∧
      (∀ dz fuel res, p.length ≤ fuel → divide dz fuel p q = Except.ok res →
        WellFormed res.quotient ∧ WellFormed res.remainder) ∧
      (p ≠ [] → q ≠ [] → ∀ dz fuel, p.length ≤ fuel →
        ∃ res, divide dz fuel p q = Except.ok res ∧
          WellFormed res.quotient ∧ WellFormed res.remainder) := by
  refine ⟨wellFormed_addAssign hp q, wellFormed_subAssign hp q, wellFormed_mulAssign p q,
    wellFormed_mulAssignCoeff hp c, divAssign_wellFormed p c hp, wellFormed_neg hp,
    derivative_one_wellFormed p hp, ?_, ?_, ?_⟩
  · intro hne
    exact ⟨_, derivative_one_returns p hne, wellFormed_derivativeOne hp⟩
  · intro dz fuel res hf h
    exact divide_wellFormed dz fuel p q hp hq hf res h
  · intro hpne hqne dz fuel hf
    obtain ⟨res, h1, _, _, h4, h5, _⟩ := divide_spec dz fuel p q hp hpne hq hqne hf
    exact ⟨res, h1, h4, h5⟩

theorem wellFormed_preserved_witness :
    WellFormed (addAssign [1, 2] [1, -2]) ∧ WellFormed (subAssign [1, 2] [1, -2]) ∧
      WellFormed (mulAssign [1, 2] [1, -2]) ∧ WellFormed (mulAssignCoeff [1, 2] 3) ∧
      ((3 : ℚ) ≠ 0 → ∃ r, divAssign [1, 2] 3 = Except.ok r ∧ WellFormed r) ∧
      WellFormed (neg [1, 2]) ∧
      (∀ r, derivative 1 [1, 2] = Except.ok r → WellFormed r) ∧
      (([1, 2] : List ℚ) ≠ [] → ∃ r, derivative 1 [1, 2] = Except.ok r ∧ WellFormed r) ∧
      (∀ dz fuel res, ([1, 2] : List ℚ).length ≤ fuel →
        divide dz fuel [1, 2] [1, -2] = Except.ok res →
        WellFormed res.quotient ∧ WellFormed res.remainder) ∧
      (([1, 2] : List ℚ) ≠ [] → ([1, -2] : List ℚ) ≠ [] → ∀ dz fuel,
        ([1, 2] : List ℚ).length ≤ fuel →
        ∃ res, divide dz fuel [1, 2] [1, -2] = Except.ok res ∧
          WellFormed res.quotient ∧ WellFormed res.remainder) :=
  wellFormed_preserved [1, 2] [1, -2] 3 (by decide) (by decide)

end UnivariatePolynomial

/-! ## The `Filter` of the logging facility -/

/-! ### `find` and `operator[]` of a map -/

theorem mapFind_mapSet {κ ν : Type} [DecidableEq κ] (k k' : κ) (v : ν) (m : List (κ × ν)) :
    mapFind k' (mapSet k v m) = if k = k' then some v else mapFind k' m := by
  induction m with
  | nil => simp [mapSet, mapFind]
  | cons e m ih =>
    obtain ⟨k₀, v₀⟩ := e
    by_cases h0 : k₀ = k
    · subst h0
      by_cases h1 : k₀ = k'
      · simp [mapSet, mapFind, h1]
      · simp [mapSet, mapFind, h1]
    · by_cases h1 : k₀ = k'
      · subst h1
        simp [mapSet, mapFind, h0, Ne.symm h0]
      · simp [mapSet, mapFind, h0, h1, ih]

namespace logging

/-! ### the rules of a `Filter` -/

theorem mapFind_foldl_call (channel : List Char) (rules : List (List Char × LogLevel)) :
    ∀ (f : Filter), mapFind channel (rules.foldl (fun f rule => Filter.call f rule.1 rule.2) f).data =
      ((rules.reverse.find? (fun rule => decide (rule.1 = channel))).map Prod.snd).or
        (mapFind channel f.data) := by
  induction rules with
  | nil => intro f; simp
  | cons r rules ih =>
    intro f
    rw [List.foldl_cons, ih, List.reverse_cons, List.find?_append, List.find?_singleton]
    simp only [Filter.call, mapFind_mapSet]
    cases h : rules.reverse.find? (fun rule => decide (rule.1 = channel)) with
    | some x => simp
    | none =>
      by_cases hr : r.1 = channel
      · simp [hr]
      · simp [hr]

theorem mapFind_after (level : LogLevel) (rules : List (List Char × LogLevel))
    (channel : List Char) :
    mapFind channel (Filter.after level rules).data = ruleLevel level rules channel := by
  unfold Filter.after ruleLevel
  rw [mapFind_foldl_call, List.reverse_cons, List.find?_append, List.find?_singleton]
  simp only [Filter.new, Filter.call, mapSet, mapFind]
  cases h : rules.reverse.find? (fun rule => decide (rule.1 = channel)) with
  | some x => simp
  | none =>
    by_cases hr : ([] : List Char) = channel
    · simp [hr]
    · simp [hr]

theorem ruleLevel_nil_isSome (level : LogLevel) (rules : List (List Char × LogLevel)) :
    (ruleLevel level rules []).isSome = true := by
  unfold ruleLevel
  rw [Option.isSome_map', List.find?_isSome]
  exact ⟨([], level), by simp, by simp⟩

/-! ### the loop of `check` -/

theorem rfind_lt (c : Char) : ∀ (s : List Char) (n : ℕ), rfind s c = some n → n < s.length := by
  intro s
  induction s with
  | nil => intro n h; simp [rfind] at h
  | cons x xs ih =>
    intro n h
    rw [rfind] at h
    cases hr : rfind xs c with
    | some m =>
      rw [hr] at h
      simp only [Option.some.injEq] at h
      have := ih m hr
      simp only [List.length_cons]
      omega
    | none =>
      rw [hr] at h
      simp only at h
      split_ifs at h
      simp only [Option.some.injEq] at h
      simp only [List.length_cons]
      omega

theorem parent_length_lt (channel : List Char) (h : channel ≠ []) :
    (parent channel).length < channel.length := by
  unfold parent
  cases hr : rfind channel '.' with
  | none => exact List.length_pos.mpr h
  | some n =>
    have := rfind_lt '.' channel n hr
    simp only [List.length_take]
    omega

theorem checkLoop_succ (f : Filter) (fuel : ℕ) (channel : List Char) :
    Filter.checkLoop f (fuel + 1) channel =
      if channel.length > 0 ∧ mapFind channel f.data = none then
        Filter.checkLoop f fuel (parent channel)
      else pure (mapFind channel f.data) := by
  rw [Filter.checkLoop]
  unfold parent
  split_ifs
  · cases rfind channel '.' <;> rfl
  · rfl

theorem checkLoop_of_found (f : Filter) (fuel : ℕ) (channel : List Char)
    (h : ¬ (channel.length > 0 ∧ mapFind channel f.data = none)) :
    Filter.checkLoop f fuel channel = Except.ok (mapFind channel f.data) := by
  cases fuel with
  | zero =>
    rw [Filter.checkLoop, if_neg h]
    rfl
  | succ fuel =>
    rw [checkLoop_succ, if_neg h]
    rfl

theorem checkLoop_spec (f : Filter) :
    ∀ (n : ℕ) (channel : List Char) (fuel : ℕ), channel.length ≤ n → channel.length ≤ fuel →
      Filter.checkLoop f fuel channel =
        Except.ok ((ancestorsUpTo n channel).findSome? (fun ch => mapFind ch f.data)) := by
  intro n
  induction n with
  | zero =>
    intro channel fuel hn _
    have hc : channel = [] := List.length_eq_zero.mp (Nat.le_zero.mp hn)
    subst hc
    rw [checkLoop_of_found f fuel [] (by simp)]
    simp only [ancestorsUpTo, List.findSome?_cons, List.findSome?_nil]
    cases mapFind [] f.data <;> rfl
  | succ n ih =>
    intro channel fuel hn hf
    by_cases hc : channel = []
    · subst hc
      rw [checkLoop_of_found f fuel [] (by simp)]
      simp only [ancestorsUpTo, if_true, List.findSome?_cons, List.findSome?_nil]
      cases mapFind [] f.data <;> rfl
    · have hlt := parent_length_lt channel hc
      have hpos : channel.length > 0 := List.length_pos.mpr hc
      simp only [ancestorsUpTo, if_neg hc, List.findSome?_cons]
      cases hm : mapFind channel f.data with
      | some L =>
        rw [checkLoop_of_found f fuel channel (by simp [hm]), hm]
      | none =>
        obtain ⟨fuel', rfl⟩ : ∃ k, fuel = k + 1 := ⟨fuel - 1, by omega⟩
        rw [checkLoop_succ, if_pos ⟨hpos, hm⟩]
        exact ih (parent channel) fuel' (by omega) (by omega)

theorem nil_mem_ancestorsUpTo : ∀ (n : ℕ) (channel : List Char), channel.length ≤ n →
    [] ∈ ancestorsUpTo n channel := by
  intro n
  induction n with
  | zero =>
    intro channel hn
    have hc : channel = [] := List.length_eq_zero.mp (Nat.le_zero.mp hn)
    subst hc
    simp [ancestorsUpTo]
  | succ n ih =>
    intro channel hn
    by_cases hc : channel = []
    · subst hc
      simp [ancestorsUpTo]
    · have hlt := parent_length_lt channel hc
      simp only [ancestorsUpTo, if_neg hc]
      exact List.mem_cons_of_mem _ (ih (parent channel) (by omega))

/-- C31: for the Filter reached by the construction (with any level, `LVL_DEFAULT` without
argument) followed by any sequence of rule insertions, every channel `c` and level `l`,
`check(c, l)` leaves its loop within `c.size()` passes, its assertion holds, and it returns
`l >= L` for the level `L` of the first channel with a rule in the sequence
`c, parent(c), ..., ""`; with no rule inserted after `Filter()` this is `l >= LVL_WARN`. -/
theorem check_first_rule (level : LogLevel) (rules : List (List Char × LogLevel))
    (channel : List Char) (l : LogLevel) (fuel : ℕ) (hf : channel.length ≤ fuel) :
    (∃ L, (ancestors channel).findSome? (ruleLevel level rules) = some L ∧
      Filter.check (Filter.after level rules) fuel channel l =
        Except.ok (decide (l.toNat ≥ L.toNat))) ∧
    Filter.after LogLevel.LVL_DEFAULT [] = Filter.default ∧
    Filter.check Filter.default fuel channel l =
      Except.ok (decide (l.toNat ≥ LogLevel.LVL_WARN.toNat)) := by
  have key : ∀ (level : LogLevel) (rules : List (List Char × LogLevel)),
      ∃ L, (ancestors channel).findSome? (ruleLevel level rules) = some L ∧
        Filter.check (Filter.after level rules) fuel channel l =
          Except.ok (decide (l.toNat ≥ L.toNat)) := by
    intro level rules
    have h1 := checkLoop_spec (Filter.after level rules) channel.length channel fuel
      (le_refl _) hf
    have h2 : (fun ch => mapFind ch (Filter.after level rules).data) =
        ruleLevel level rules := by
      funext ch
      exact mapFind_after level rules ch
    rw [h2] at h1
    have h3 : ((ancestors channel).findSome? (ruleLevel level rules)).isSome = true := by
      rw [List.findSome?_isSome_iff]
      exact ⟨[], nil_mem_ancestorsUpTo channel.length channel (le_refl _),
        ruleLevel_nil_isSome level rules⟩
    obtain ⟨L, hL⟩ := Option.isSome_iff_exists.mp h3
    refine ⟨L, hL, ?_⟩
    unfold Filter.check
    rw [h1]
    unfold ancestors at hL
    rw [hL]
    rfl
  refine ⟨key level rules, rfl, ?_⟩
  obtain ⟨L, hL, hc⟩ := key LogLevel.LVL_DEFAULT []
  have hd : Filter.after LogLevel.LVL_DEFAULT [] = Filter.default := rfl
  rw [hd] at hc
  rw [hc]
  have hW : L = LogLevel.LVL_WARN := by
    have hall : ∀ ch ∈ ancestors channel, ∀ L', ruleLevel LogLevel.LVL_DEFAULT [] ch = some L' →
        L' = LogLevel.LVL_WARN := by
      intro ch _ L' h
      unfold ruleLevel at h
      simp only [List.reverse_cons, List.reverse_nil, List.nil_append, List.find?_singleton] at h
      split_ifs at h
      · simp only [Option.map_some', Option.some.injEq] at h
        rw [← h]
        rfl
      · simp at h
    obtain ⟨ch, hch, hch2⟩ := List.exists_of_findSome?_eq_some hL
    exact hall ch hch L hch2
  rw [hW]

theorem check_first_rule_witness :
    (∃ L, (ancestors "carl.core.x".toList).findSome?
        (ruleLevel LogLevel.LVL_WARN
          [("carl".toList, LogLevel.LVL_INFO), ("carl.core".toList, LogLevel.LVL_DEBUG)]) =
          some L ∧
      Filter.check (Filter.after LogLevel.LVL_WARN
          [("carl".toList, LogLevel.LVL_INFO), ("carl.core".toList, LogLevel.LVL_DEBUG)])
          11 "carl.core.x".toList LogLevel.LVL_INFO =
        Except.ok (decide (LogLevel.LVL_INFO.toNat ≥ L.toNat))) ∧
    Filter.after LogLevel.LVL_DEFAULT [] = Filter.default ∧
    Filter.check Filter.default 11 "carl.core.x".toList LogLevel.LVL_INFO =
      Except.ok (decide (LogLevel.LVL_INFO.toNat ≥ LogLevel.LVL_WARN.toNat)) :=
  check_first_rule LogLevel.LVL_WARN
    [("carl".toList, LogLevel.LVL_INFO), ("carl.core".toList, LogLevel.LVL_DEBUG)]
    "carl.core.x".toList LogLevel.LVL_INFO 11 (by decide)

end logging

/-! ## The claims on copies of handles, `getDenom`, arithmetic with coefficients, `factorization`, `divide` and the comparisons -/

/-- C35 (the code at the failing input): a copy of a handle `b` with coefficient 3 has the
coefficient of a default-constructed `Coeff`, whatever that is (0 for `mpq_class`), and a
handle with coefficient 1 to which `b` is assigned keeps the coefficient 1; both take over
the cache slot of `b`. -/
theorem copy_and_assign_drop_coefficient :
    (∀ d : ℚ, FactorizedPolynomial.copy d (⟨0, [(1, 1)], 3⟩ : FactorizedPolynomial ℕ) =
      ⟨0, [(1, 1)], d⟩) ∧
    FactorizedPolynomial.copy 0 (⟨0, [(1, 1)], 3⟩ : FactorizedPolynomial ℕ) =
      ⟨0, [(1, 1)], 0⟩ ∧
    FactorizedPolynomial.assign (⟨0, [], 1⟩ : FactorizedPolynomial ℕ) ⟨0, [(1, 1)], 3⟩ =
      Except.ok ⟨0, [(1, 1)], 1⟩ := by
  refine ⟨fun d => rfl, rfl, ?_⟩
  decide!

/-- C40 (the code at the failing input): `getDenom` of the integer 2 is 2, not 1: the
function returns its argument, as `getNum` does; on rationals `getNum(q)/getDenom(q) == q`
holds with a positive `getDenom(q)`. -/
theorem getDenom_of_integer :
    getDenomZ 2 = 2 ∧ getNumZ 2 = 2 ∧ (∀ n : ℤ, getDenomZ n = n ∧ getNumZ n = n) ∧
      ∀ q : ℚ, ((getNum q : ℤ) : ℚ) / ((getDenom q : ℤ) : ℚ) = q ∧ 0 < getDenom q := by
  refine ⟨rfl, rfl, fun n => ⟨rfl, rfl⟩, fun q => ⟨?_, ?_⟩⟩
  · unfold getNum getDenom
    exact_mod_cast Rat.num_div_den q
  · unfold getDenom
    exact_mod_cast q.den_pos

namespace UnivariatePolynomial

/-! ### subtraction of a coefficient -/

theorem evaluate_addAssignCoeff (p : List ℚ) (c x : ℚ) :
    evaluate (addAssignCoeff p c) x = evaluate p x + c := by
  unfold addAssignCoeff
  split_ifs with h
  · rw [h, add_zero]
  · cases p with
    | nil =>
      simp only
      rw [evaluate_cons, evaluate_nil]
      ring
    | cons front rest =>
      simp only
      split_ifs with h2
      · have hr : rest = [] := List.length_eq_zero.mp (by omega)
        subst hr
        rw [evaluate_nil, evaluate_cons, evaluate_nil]
        linarith [h2.2]
      · rw [evaluate_cons, evaluate_cons]
        ring

/-- C33 (the code at the failing input): `operator-(c, p)` returns `p - c`: for `c = 1` and
`p = x` it returns `x - 1`, which evaluates at 0 to `-1`, where `1 - p.evaluate(0) = 1`; for
all `c`, `p` and `x` the returned polynomial evaluates to `p.evaluate(x) - c`. -/
theorem coeffSub_is_reversed :
    coeffSub 1 [0, 1] = [-1, 1] ∧ evaluate (coeffSub 1 [0, 1]) 0 = -1 ∧
      (1 : ℚ) - evaluate [0, 1] 0 = 1 ∧
      ∀ (c : ℚ) (p : List ℚ) (x : ℚ), evaluate (coeffSub c p) x = evaluate p x - c := by
  refine ⟨by decide!, by decide!, by decide!, ?_⟩
  intro c p x
  unfold coeffSub subCoeff subAssignCoeff
  rw [evaluate_addAssignCoeff]
  ring

/-- C34 (the code at the failing input): from the map `{1 -> 1}` the constructor builds the
coefficient vector `{1}`, the constant 1 and not `x`: the coefficient of the exponent 1 is
stored at the index 0, and `evaluate(2)` gives 1 where `1 * 2^1 = 2`; from `{0 -> 5, 2 -> 3}`
it builds `{5, 3}`. -/
theorem ofMap_misplaces_coefficient :
    ofMap [(1, 1)] = Except.ok [1] ∧ evaluate [1] 2 = 1 ∧ (1 : ℚ) * 2 ^ 1 = 2 ∧
      ofMap [(0, 5), (2, 3)] = Except.ok [5, 3] := by
  decide!

/-- C32 (the code at the failing input): `factorization()` of `2x + 4` returns no map:
`coprimeFactor()` is the truncated quotient `1/2 = 0` of integers, the factor is not 1, and
`(Coeff)1/factor` divides by zero, for every value of `degree()` on the zero polynomial and
before any loop is entered. -/
theorem factorization_divides_by_zero (dz fuel : ℕ) :
    coprimeFactor [4, 2] = Except.ok 0 ∧
      quotientQ 1 0 = Except.error Fault.divisionByZero ∧
      factorization dz fuel [4, 2] = Except.error Fault.divisionByZero ∧
      ∀ r, factorization dz fuel [4, 2] ≠ Except.ok r := by
  have h : factorization dz fuel [4, 2] = Except.error Fault.divisionByZero := by
    with_unfolding_all rfl
  exact ⟨by decide!, by decide!, h, not_ok_of_eq_error h⟩

/-- C37 (the code at the failing input): `divide` of the zero polynomial by the constant
polynomial 2 never returns: the guard `divisor.degree() > degree()` does not hold and the
first pass of the loop reads `lcoeff()` of the empty coefficient vector, for every value of
`degree()` on the zero polynomial. -/
theorem divide_zero_by_constant_faults (dz fuel : ℕ) :
    divide dz (fuel + 1) [] [2] = Except.error Fault.undefinedBehaviour ∧
      ∀ r, divide dz fuel [] [2] ≠ Except.ok r := by
  have h1 : divide dz (fuel + 1) [] [2] = Except.error Fault.undefinedBehaviour := by
    with_unfolding_all rfl
  refine ⟨h1, ?_⟩
  rcases fuel with _ | fuel
  · have h0 : divide dz 0 [] [2] = Except.error Fault.outOfFuel := by
      with_unfolding_all rfl
    exact not_ok_of_eq_error h0
  · have h2 : divide dz (fuel + 1) [] [2] = Except.error Fault.undefinedBehaviour := by
      with_unfolding_all rfl
    exact not_ok_of_eq_error h2

/-- C38: `operator*` is the product of the polynomial ring: the product evaluates to the
product of the values, also when a factor is the zero polynomial (the product is then the
zero polynomial), and `p * q == q * p`. -/
theorem mul_ring_product (p q : List ℚ) (x : ℚ) :
    evaluate (mul p q) x = evaluate p x * evaluate q x ∧
      mul p q = mul q p ∧ mul p [] = [] ∧ mul [] q = [] ∧
      eqVar 0 (mul p q) 0 (mul q p) = Except.ok true := by
  have hcomm : mul p q = mul q p :=
    toPoly_injective (wellFormed_mul p q) (wellFormed_mul q p)
      (by rw [toPoly_mul, toPoly_mul, mul_comm])
  refine ⟨?_, hcomm, ?_, ?_, ?_⟩
  · rw [← eval_toPoly, toPoly_mul, Polynomial.eval_mul, eval_toPoly, eval_toPoly]
  · rfl
  · apply toPoly_injective (wellFormed_mul [] q) wellFormed_nil
    rw [toPoly_mul, toPoly_nil, zero_mul]
  · unfold eqVar
    rw [if_pos rfl, hcomm]
    simp [pure, Except.pure]

/-! ### `operator==` and `operator<` across main variables -/

/-- C36 (counterexample): the zero polynomials in two different main variables, the first
variable being the smaller one, are equal under `operator==` and ordered by `operator<`. -/
theorem zero_polynomials_equal_and_less :
    eqVar 0 [] 1 [] = Except.ok true ∧ ltVar 0 [] 1 [] = true ∧ ltVar 1 [] 0 [] = false := by
  decide

/-- C36 (amended): for polynomials in the same main variable exactly one of `p < q`,
`p == q`, `q < p` holds; for polynomials in different main variables exactly one of `p < q`
and `q < p` holds, decided by the main variables alone. -/
theorem operators_consistent_in_one_variable (v w : ℕ) (p q : List ℚ) :
    (v = w →
      (ltVar v p w q = true ∧ eqVar v p w q = Except.ok false ∧ ltVar w q v p = false) ∨
      (ltVar v p w q = false ∧ eqVar v p w q = Except.ok true ∧ ltVar w q v p = false) ∨
      (ltVar v p w q = false ∧ eqVar v p w q = Except.ok false ∧ ltVar w q v p = true)) ∧
    (v ≠ w →
      (ltVar v p w q = true ∧ ltVar w q v p = false ∧ v < w) ∨
      (ltVar v p w q = false ∧ ltVar w q v p = true ∧ w < v)) := by
  constructor
  · intro h
    subst h
    have he : eqVar v p v q = Except.ok (decide (p = q)) := by
      unfold eqVar
      rw [if_pos rfl]
      rfl
    unfold ltVar
    rw [if_pos rfl, if_pos rfl, he]
    rcases operatorLt_total p q with h | h | h
    · left
      have hne : p ≠ q := keyOrder_operatorLt.ne_of_lt h
      exact ⟨h, by simp [hne], keyOrder_operatorLt.asymm h⟩
    · right; left
      subst h
      exact ⟨operatorLt_irrefl p, by simp, operatorLt_irrefl p⟩
    · right; right
      have hne : p ≠ q := (keyOrder_operatorLt.ne_of_lt h).symm
      exact ⟨keyOrder_operatorLt.asymm h, by simp [hne], h⟩
  · intro h
    unfold ltVar
    rw [if_neg h, if_neg (Ne.symm h)]
    rcases Nat.lt_or_gt_of_ne h with h1 | h1
    · left
      exact ⟨by simpa using h1, by simpa using Nat.le_of_lt h1, h1⟩
    · right
      exact ⟨by simpa using Nat.le_of_lt h1, by simpa using h1, h1⟩

end UnivariatePolynomial

/-! ## The functions `carl::gcd` and `carl::lcm` on rationals -/

/-! ### `carl::gcd` and `carl::lcm` on rationals -/

theorem lcm_gcd_cofactors (d₁ d₂ : ℕ) (h₁ : 0 < d₁) :
    ∃ l₁ l₂ : ℕ, Nat.lcm d₁ d₂ = d₁ * l₁ ∧ Nat.lcm d₁ d₂ = d₂ * l₂ ∧
      d₁ = Nat.gcd d₁ d₂ * l₂ ∧ d₂ = Nat.gcd d₁ d₂ * l₁ ∧ Nat.Coprime l₁ l₂ := by
  have hg : 0 < Nat.gcd d₁ d₂ := Nat.gcd_pos_of_pos_left _ h₁
  have e₁ : d₁ = Nat.gcd d₁ d₂ * (d₁ / Nat.gcd d₁ d₂) :=
    (Nat.mul_div_cancel' (Nat.gcd_dvd_left d₁ d₂)).symm
  have e₂ : d₂ = Nat.gcd d₁ d₂ * (d₂ / Nat.gcd d₁ d₂) :=
    (Nat.mul_div_cancel' (Nat.gcd_dvd_right d₁ d₂)).symm
  have hm := Nat.gcd_mul_lcm d₁ d₂
  refine ⟨d₂ / Nat.gcd d₁ d₂, d₁ / Nat.gcd d₁ d₂, ?_, ?_, e₁, e₂,
    (Nat.coprime_div_gcd_div_gcd hg).symm⟩
  · apply Nat.eq_of_mul_eq_mul_left hg
    rw [hm]
    conv_lhs => rw [e₂]
    ring
  · apply Nat.eq_of_mul_eq_mul_left hg
    rw [hm]
    conv_lhs => rw [e₁]
    ring

theorem gcd_cofactors (n₁ n₂ : ℤ) (h₁ : n₁ ≠ 0) :
    0 < Int.gcd n₁ n₂ ∧ ∃ m₁ m₂ : ℤ, n₁ = (Int.gcd n₁ n₂ : ℤ) * m₁ ∧
      n₂ = (Int.gcd n₁ n₂ : ℤ) * m₂ ∧ Int.gcd m₁ m₂ = 1 := by
  have hg : 0 < Int.gcd n₁ n₂ := Int.gcd_pos_of_ne_zero_left _ h₁
  obtain ⟨m₁, e₁⟩ := @Int.gcd_dvd_left n₁ n₂
  obtain ⟨m₂, e₂⟩ := @Int.gcd_dvd_right n₁ n₂
  refine ⟨hg, m₁, m₂, e₁, e₂, ?_⟩
  have h := Int.gcd_mul_left (Int.gcd n₁ n₂ : ℤ) m₁ m₂
  rw [← e₁, ← e₂, Int.natAbs_ofNat] at h
  have h' : Int.gcd n₁ n₂ * 1 = Int.gcd n₁ n₂ * Int.gcd m₁ m₂ := by
    rw [mul_one]; exact h
  exact (Nat.eq_of_mul_eq_mul_left hg h').symm

theorem coprime_cofactors (a : ℚ) (m : ℤ) (G : ℤ) (l D : ℕ) (hn : a.num = G * m)
    (hd : a.den = D * l) : Nat.Coprime m.natAbs l := by
  have h := a.reduced
  have h1 : m.natAbs ∣ a.num.natAbs := by
    rw [hn, Int.natAbs_mul]
    exact Dvd.intro_left _ rfl
  have h2 : l ∣ a.den := by
    rw [hd]
    exact Dvd.intro_left _ rfl
  exact Nat.Coprime.coprime_dvd_left h1 (Nat.Coprime.coprime_dvd_right h2 h)

/-- C39: for nonzero rationals `a` and `b`, `carl::gcd(a, b)` is positive, `a / gcd(a, b)`
and `b / gcd(a, b)` are integers whose gcd is 1, `lcm(a, b) / a` and `lcm(a, b) / b` are
integers, and `gcd(a, b) * lcm(a, b) == |a * b|`. -/
theorem gcdQ_lcmQ_cofactors (a b : ℚ) (ha : a ≠ 0) (hb : b ≠ 0) :
    ∃ g l, gcdQ a b = Except.ok g ∧ lcmQ a b = Except.ok l ∧ 0 < g ∧
      (∃ A B : ℤ, a / g = (A : ℚ) ∧ b / g = (B : ℚ) ∧ Int.gcd A B = 1) ∧
      (∃ C D : ℤ, l / a = (C : ℚ) ∧ l / b = (D : ℚ)) ∧
      g * l = |a * b| := by
  have hn₁ : a.num ≠ 0 := Rat.num_ne_zero.mpr ha
  have hn₂ : b.num ≠ 0 := Rat.num_ne_zero.mpr hb
  obtain ⟨l₁, l₂, hL₁, hL₂, hD₁, hD₂, hcop⟩ :=
    lcm_gcd_cofactors a.den b.den a.den_pos
  obtain ⟨hG, m₁, m₂, hm₁, hm₂, hmcop⟩ := gcd_cofactors a.num b.num hn₁
  obtain ⟨c₁, hc₁⟩ := @Int.dvd_lcm_left a.num b.num
  obtain ⟨c₂, hc₂⟩ := @Int.dvd_lcm_right a.num b.num
  have hGq : ((Int.gcd a.num b.num : ℕ) : ℚ) ≠ 0 := by exact_mod_cast (ne_of_gt hG)
  have hLpos : 0 < Nat.lcm a.den b.den := Nat.pos_of_ne_zero (Nat.lcm_ne_zero a.den_nz b.den_nz)
  have hLq : ((Nat.lcm a.den b.den : ℕ) : ℚ) ≠ 0 := by exact_mod_cast (ne_of_gt hLpos)
  have hDpos : 0 < Nat.gcd a.den b.den := Nat.gcd_pos_of_pos_left _ a.den_pos
  have hDq : ((Nat.gcd a.den b.den : ℕ) : ℚ) ≠ 0 := by exact_mod_cast (ne_of_gt hDpos)
  have hd₁q : (a.den : ℚ) ≠ 0 := by exact_mod_cast a.den_nz
  have hd₂q : (b.den : ℚ) ≠ 0 := by exact_mod_cast b.den_nz
  have hn₁q : (a.num : ℚ) ≠ 0 := by exact_mod_cast hn₁
  have hn₂q : (b.num : ℚ) ≠ 0 := by exact_mod_cast hn₂
  have ea : a = (a.num : ℚ) / (a.den : ℚ) := (Rat.num_div_den a).symm
  have eb : b = (b.num : ℚ) / (b.den : ℚ) := (Rat.num_div_den b).symm
  -- the equations between the casts
  have qm₁ : (a.num : ℚ) = ((Int.gcd a.num b.num : ℕ) : ℚ) * (m₁ : ℚ) := by exact_mod_cast hm₁
  have qm₂ : (b.num : ℚ) = ((Int.gcd a.num b.num : ℕ) : ℚ) * (m₂ : ℚ) := by exact_mod_cast hm₂
  have qL₁ : ((Nat.lcm a.den b.den : ℕ) : ℚ) = (a.den : ℚ) * (l₁ : ℚ) := by exact_mod_cast hL₁
  have qL₂ : ((Nat.lcm a.den b.den : ℕ) : ℚ) = (b.den : ℚ) * (l₂ : ℚ) := by exact_mod_cast hL₂
  have qD₁ : (a.den : ℚ) = ((Nat.gcd a.den b.den : ℕ) : ℚ) * (l₂ : ℚ) := by exact_mod_cast hD₁
  have qD₂ : (b.den : ℚ) = ((Nat.gcd a.den b.den : ℕ) : ℚ) * (l₁ : ℚ) := by exact_mod_cast hD₂
  have qc₁ : ((Int.lcm a.num b.num : ℕ) : ℚ) = (a.num : ℚ) * (c₁ : ℚ) := by exact_mod_cast hc₁
  have qc₂ : ((Int.lcm a.num b.num : ℕ) : ℚ) = (b.num : ℚ) * (c₂ : ℚ) := by exact_mod_cast hc₂
  refine ⟨_, _, gcdQ_eq a b, lcmQ_eq a b, ?_, ?_, ?_, ?_⟩
  · apply div_pos
    · exact_mod_cast hG
    · exact_mod_cast hLpos
  · refine ⟨m₁ * (l₁ : ℤ), m₂ * (l₂ : ℤ), ?_, ?_, ?_⟩
    · conv_lhs => arg 1; rw [ea]
      push_cast
      rw [div_div_div_eq, qL₁, qm₁]
      field_simp
      ring
    · conv_lhs => arg 1; rw [eb]
      push_cast
      rw [div_div_div_eq, qL₂, qm₂]
      field_simp
      ring
    · rw [Int.gcd_eq_natAbs, Int.natAbs_mul, Int.natAbs_mul, Int.natAbs_ofNat,
        Int.natAbs_ofNat]
      have k₁ : Nat.Coprime m₁.natAbs m₂.natAbs := by
        rw [Int.gcd_eq_natAbs] at hmcop
        exact hmcop
      have k₂ : Nat.Coprime m₁.natAbs l₂ := coprime_cofactors a m₁ _ l₂ _ hm₁ hD₁
      have k₃ : Nat.Coprime m₂.natAbs l₁ := coprime_cofactors b m₂ _ l₁ _ hm₂ hD₂
      exact Nat.Coprime.mul (Nat.Coprime.mul_right k₁ k₂)
        (Nat.Coprime.mul_right k₃.symm hcop)
  · refine ⟨c₁ * (l₂ : ℤ), c₂ * (l₁ : ℤ), ?_, ?_⟩
    · conv_lhs => arg 2; rw [ea]
      push_cast
      rw [div_div_div_eq, qc₁]
      conv_lhs => rw [qD₁]
      field_simp
      ring
    · conv_lhs => arg 2; rw [eb]
      push_cast
      rw [div_div_div_eq, qc₂]
      conv_lhs => rw [qD₂]
      field_simp
      ring
  · have h1 : ((Int.gcd a.num b.num : ℕ) : ℚ) * ((Int.lcm a.num b.num : ℕ) : ℚ) =
        |(a.num : ℚ) * (b.num : ℚ)| := by
      have := Int.gcd_mul_lcm a.num b.num
      have h2 : ((Int.gcd a.num b.num * Int.lcm a.num b.num : ℕ) : ℤ) =
          |a.num * b.num| := by
        rw [this, Int.natCast_natAbs]
      have h3 : (((Int.gcd a.num b.num * Int.lcm a.num b.num : ℕ) : ℤ) : ℚ) =
          ((|a.num * b.num| : ℤ) : ℚ) := by rw [h2]
      push_cast at h3
      exact h3
    have h2 : ((Nat.lcm a.den b.den : ℕ) : ℚ) * ((Nat.gcd a.den b.den : ℕ) : ℚ) =
        (a.den : ℚ) * (b.den : ℚ) := by
      have := Nat.gcd_mul_lcm a.den b.den
      rw [mul_comm]
      exact_mod_cast this
    rw [div_mul_div_comm, h1, h2]
    conv_rhs => rw [ea, eb]
    rw [div_mul_div_comm, abs_div]
    congr 1
    rw [abs_of_pos]
    exact mul_pos (by exact_mod_cast a.den_pos) (by exact_mod_cast b.den_pos)

theorem gcdQ_lcmQ_cofactors_witness :
    ∃ g l, gcdQ (3 / 4) (5 / 6) = Except.ok g ∧ lcmQ (3 / 4) (5 / 6) = Except.ok l ∧ 0 < g ∧
      (∃ A B : ℤ, (3 / 4 : ℚ) / g = (A : ℚ) ∧ (5 / 6 : ℚ) / g = (B : ℚ) ∧ Int.gcd A B = 1) ∧
      (∃ C D : ℤ, l / (3 / 4 : ℚ) = (C : ℚ) ∧ l / (5 / 6 : ℚ) = (D : ℚ)) ∧
      g * l = |(3 / 4 : ℚ) * (5 / 6)| :=
  gcdQ_lcmQ_cofactors (3 / 4) (5 / 6) (by norm_num) (by norm_num)

end carl
